import Mathlib

/-!
Verification development for the azsync dotenv synchronization engine.

The Rust sources are embedded shallowly:
* text is modelled as `List Char` (the sources index by UTF-8 bytes; for the
  properties below the texts involved are ASCII, where byte offsets and
  character offsets coincide);
* `HashMap` values are modelled as association lists whose `insert` removes
  the previous binding, so lookups behave like the map;
* `HashSet` is modelled as a duplicate-free list;
* lazy character iterators (`Expand`, `Unescape`) are modelled as total
  functions producing the whole output; the `Expand` iterator's recursion is
  driven by a fuel argument that strictly dominates the number of iterator
  steps, so the function is structurally recursive and computable;
* timestamps (`time::OffsetDateTime`) are modelled as integers (seconds), and
  `Duration::minutes(1)` as the constant 60.
-/

set_option maxRecDepth 10000

namespace Azsync

/-- Text is a list of characters. -/
abbrev Str := List Char

/-! ## Reconciliation algorithm (src/sync.rs, src/cli/sync.rs) -/

/-- The five sync policies of `SyncMode` (src/cli/sync.rs). -/
inductive SyncMode where
  | sync
  | push
  | pull
  | pushAlways
  | pullAlways
  deriving DecidableEq, Repr

/-- A kind of synchronization operation (src/sync.rs, `SyncType`). -/
inductive SyncType (Push Pull Skip : Type) where
  /-- Push local data to remote storage. -/
  | push : Push → SyncType Push Pull Skip
  /-- Pull remote data to local storage. -/
  | pull : Pull → SyncType Push Pull Skip
  /-- Do nothing, for a reason. -/
  | skip : String → Skip → SyncType Push Pull Skip
  deriving DecidableEq, Repr

/-- One minute, in the integer time unit used for timestamps. -/
def oneMinute : Int := 60

/-- Embedding of `SyncType::from_modified` (src/sync.rs lines 36-114).
The Rust match arms are translated in order; a guarded `(Some, Some)` arm
becomes a nested `if` on the same condition. -/
def SyncType.from_modified {T Push Pull Skip : Type}
    (sync_mode : SyncMode)
    (local_modified remote_modified : Option Int)
    (seed : T)
    (push : Int → T → Push)
    (pull : Int → T → Pull)
    (skip : T → Skip) : SyncType Push Pull Skip :=
  match local_modified, remote_modified with
  | some l, some r =>
    if |l - r| < oneMinute then
      -- Both present but modified very close to each other
      match sync_mode with
      | .sync | .push | .pull => .skip "unchanged" (skip seed)
      | .pushAlways => .push (push l seed)
      | .pullAlways => .pull (pull l seed)
    else if l > r then
      -- Local newer
      match sync_mode with
      | .sync | .push | .pushAlways => .push (push l seed)
      | .pull => .skip "pull disabled" (skip seed)
      | .pullAlways => .pull (pull r seed)
    else
      -- Remote newer
      match sync_mode with
      | .sync | .pull | .pullAlways => .pull (pull r seed)
      | .push => .skip "push disabled" (skip seed)
      | .pushAlways => .push (push l seed)
  | some l, none =>
    match sync_mode with
    | .sync | .push | .pushAlways => .push (push l seed)
    | .pull => .skip "pull disabled" (skip seed)
    | .pullAlways => .skip "nothing to pull" (skip seed)
  | none, some r =>
    match sync_mode with
    | .sync | .pull | .pullAlways => .pull (pull r seed)
    | .push => .skip "push disabled" (skip seed)
    | .pushAlways => .skip "nothing to push" (skip seed)
  | none, none => .skip "not found" (skip seed)

/-- The spec's reconciliation policy table, written following the words of the
spec (section 4.5) and of claim C1: the six presence/ordering cases are listed
as the spec states them, with "within 1 minute" meaning `|local - remote| < 1
minute`, "local strictly newer beyond the tolerance" meaning
`local - remote ≥ 1 minute`, and "remote strictly newer" meaning
`remote - local ≥ 1 minute`.  Where the table does not name the timestamp a
payload carries (the always-modes in the unchanged case) the local timestamp is
used, as the repository's own test table records. -/
def specPolicyTable {T Push Pull Skip : Type}
    (sync_mode : SyncMode)
    (local_modified remote_modified : Option Int)
    (seed : T)
    (push : Int → T → Push)
    (pull : Int → T → Pull)
    (skip : T → Skip) : SyncType Push Pull Skip :=
  match local_modified, remote_modified with
  | some l, some r =>
    if |l - r| < oneMinute then
      -- both present and within 1 minute of each other
      match sync_mode with
      | .sync | .push | .pull => .skip "unchanged" (skip seed)
      | .pushAlways => .push (push l seed)
      | .pullAlways => .pull (pull l seed)
    else if l - r ≥ oneMinute then
      -- local strictly newer beyond the 1-minute tolerance
      match sync_mode with
      | .sync | .push | .pushAlways => .push (push l seed)
      | .pull => .skip "pull disabled" (skip seed)
      | .pullAlways => .pull (pull r seed)
    else
      -- remote strictly newer beyond the 1-minute tolerance
      match sync_mode with
      | .sync | .pull | .pullAlways => .pull (pull r seed)
      | .push => .skip "push disabled" (skip seed)
      | .pushAlways => .push (push l seed)
  | some l, none =>
    -- only local present
    match sync_mode with
    | .sync | .push | .pushAlways => .push (push l seed)
    | .pull => .skip "pull disabled" (skip seed)
    | .pullAlways => .skip "nothing to pull" (skip seed)
  | none, some r =>
    -- only remote present
    match sync_mode with
    | .sync | .pull | .pullAlways => .pull (pull r seed)
    | .push => .skip "push disabled" (skip seed)
    | .pushAlways => .skip "nothing to push" (skip seed)
  | none, none =>
    -- neither present
    .skip "not found" (skip seed)

/-! ## Association lists and sets (models of `HashMap` / `HashSet`) -/

/-- Lookup in an association list (model of `HashMap::get`). -/
def lookupP {α : Type} (m : List (Str × α)) (k : Str) : Option α :=
  match m with
  | [] => none
  | (k2, v) :: rest => if k2 = k then some v else lookupP rest k

/-- Insert into an association list, removing any previous binding
(model of `HashMap::insert`). -/
def insertA {α : Type} (m : List (Str × α)) (k : Str) (v : α) : List (Str × α) :=
  (k, v) :: m.filter (fun p => p.1 ≠ k)

/-- Keys of an association list. -/
def keysOf {α : Type} (m : List (Str × α)) : List Str := m.map (·.1)

/-- Insert into a set modelled as a duplicate-free list
(model of `HashSet::insert`). -/
def insertS (s : List Str) (n : Str) : List Str :=
  if n ∈ s then s else n :: s

/-- Remove from a set modelled as a list (model of `HashSet::remove`). -/
def removeS (s : List Str) (n : Str) : List Str :=
  s.filter (fun m => m ≠ n)

/-! ## Character classes (src/dotenv/expand.rs) -/

/-- Embedding of `is_name_start` (src/dotenv/expand.rs lines 189-192): `_` or an
alphabetic character.  The source uses Rust's Unicode `char::is_alphabetic`;
this model restricts to ASCII letters, on which the two agree (every text in
the properties below is ASCII). -/
def is_name_start (c : Char) : Bool :=
  c = '_' || c.isAlpha

/-- A continuation character of a name: a name-start character or an ASCII
decimal digit (src/dotenv/expand.rs lines 157-160). -/
def isNameChar (c : Char) : Bool :=
  is_name_start c || c.isDigit

/-! ## Expansion engine (src/dotenv/expand.rs)

The `Expand` iterator is a state machine over the states `NotExpanding`,
`Escape`, `Buffered`, `StartExpansion`, `BracedExpansion` and
`UnbracedExpansion`.  It is embedded as a function from a state and the
remaining input to the whole remaining output together with the list of names
passed to the `on_expand` callback (in callback order).  The `Escape` and
`Buffered` states only replay already-determined characters, so they are
inlined as direct emissions.  A fuel argument makes the recursion structural;
`expandFuel` steps strictly more often than the iterator can loop, and the
fuel-insensitivity lemma below shows the fuel never runs out. -/

/-- States of the expansion state machine (src/dotenv/expand.rs, `State`);
`Escape` and `Buffered` are inlined into the transition function. -/
inductive ExpState where
  | notExpanding : ExpState
  | startExpansion : ExpState
  | bracedExpansion : Str → Bool → ExpState
  | unbracedExpansion : Str → ExpState
  deriving DecidableEq, Repr

/-- Rank of a state: states other than `NotExpanding` can take one step that
consumes no input before returning to `NotExpanding`. -/
def ExpState.rank : ExpState → Nat
  | .notExpanding => 0
  | _ => 1

/-- Fuel that always suffices to run the expansion machine from state `s` on
`input`. -/
def expFuel (s : ExpState) (input : Str) : Nat :=
  2 * input.length + s.rank + 1

/-- Embedding of `Expand::next` (src/dotenv/expand.rs lines 49-186), iterated to
the end of input.  Each branch mirrors the corresponding `match` arm of the
source; `on_expand` is modelled by the second component of the result. -/
def expandF (params : List (Str × Str)) : Nat → ExpState → Str → Str × List Str
  | 0, _, _ => ([], [])
  | fuel + 1, s, input =>
    match s, input with
    | .notExpanding, [] => ([], [])
    | .notExpanding, c :: rest =>
      if c = '$' then expandF params fuel .startExpansion rest
      else if c = '\\' then
        -- Escape: buffer the backslash and the following character (if any),
        -- replay them, then continue in NotExpanding
        match rest with
        | [] => (['\\'], [])
        | c2 :: rest2 =>
          let r := expandF params fuel .notExpanding rest2
          ('\\' :: c2 :: r.1, r.2)
      else
        let r := expandF params fuel .notExpanding rest
        (c :: r.1, r.2)
    | .startExpansion, [] =>
      -- lone trailing dollar sign
      (['$'], [])
    | .startExpansion, c :: rest =>
      if c = '{' then expandF params fuel (.bracedExpansion [] false) rest
      else if is_name_start c then expandF params fuel (.unbracedExpansion [c]) rest
      else
        -- lone dollar sign: emit it and continue without consuming `c`
        let r := expandF params fuel .notExpanding (c :: rest)
        ('$' :: r.1, r.2)
    | .unbracedExpansion name, [] =>
      (match lookupP params name with
       | some v => (v, [name])
       | none => ([], []))
    | .unbracedExpansion name, c :: rest =>
      if isNameChar c then expandF params fuel (.unbracedExpansion (name ++ [c])) rest
      else
        match lookupP params name with
        | some v =>
          let r := expandF params fuel .notExpanding (c :: rest)
          (v ++ r.1, name :: r.2)
        | none => expandF params fuel .notExpanding (c :: rest)
    | .bracedExpansion name invalid, [] =>
      -- end of input: return everything we matched
      ('$' :: '{' :: name, [])
    | .bracedExpansion name invalid, c :: rest =>
      if is_name_start c then expandF params fuel (.bracedExpansion (name ++ [c]) invalid) rest
      else if c.isDigit then expandF params fuel (.bracedExpansion (name ++ [c]) invalid) rest
      else if c = '}' then
        if invalid = false then
          match lookupP params name with
          | some v =>
            let r := expandF params fuel .notExpanding rest
            (v ++ r.1, name :: r.2)
          | none => expandF params fuel .notExpanding rest
        else expandF params fuel .notExpanding rest
      else
        -- invalid character: consume and drop it, poisoning the match
        expandF params fuel (.bracedExpansion name true) rest

/-- Embedding of `expand` (src/dotenv/expand.rs lines 7-20) composed with a
full traversal of the iterator: the expanded text together with the names
reported to `on_expand`. -/
def expand (params : List (Str × Str)) (input : Str) : Str × List Str :=
  expandF params (expFuel .notExpanding input) .notExpanding input

/-! ## Escape processor (src/dotenv/unescape.rs) -/

/-- Embedding of `Unescape::next` (src/dotenv/unescape.rs lines 27-40), iterated
to the end of input; the Boolean is the `escaped` flag. -/
def unescapeGo : Bool → Str → Str
  | _, [] => []
  | escaped, c :: rest =>
    if escaped = false ∧ c = '\\' then unescapeGo true rest
    else c :: unescapeGo false rest

/-- Embedding of `unescape` (src/dotenv/unescape.rs lines 4-12). -/
def unescape (s : Str) : Str := unescapeGo false s

/-! ## Value escaping on write (src/dotenv/file.rs, `escape`) -/

/-- The four characters escaped on write (src/dotenv/file.rs line 114). -/
def ESCAPED : Str := ['\\', '$', '"', '\'']

/-- Model of Rust `str::replace` for a single-character pattern. -/
def replaceChar (v : Str) (c : Char) (w : Str) : Str :=
  v.flatMap (fun ch => if ch = c then w else [ch])

/-- Model of Rust `str::trim`.  The source trims Unicode whitespace; this model
trims the ASCII whitespace characters recognized by `Char.isWhitespace`, on
which the two agree for ASCII text. -/
def trimStr (v : Str) : Str :=
  ((v.dropWhile Char.isWhitespace).reverse.dropWhile Char.isWhitespace).reverse

/-- Embedding of `escape` (src/dotenv/file.rs lines 113-123): quote and escape
a value when it contains one of the four escaped characters or differs from its
trimmed form, otherwise emit it bare. -/
def escape (v : Str) : Str :=
  if v.any (fun c => ESCAPED.contains c) || v ≠ trimStr v then
    '"' :: (ESCAPED.foldl (fun acc c => replaceChar acc c ['\\', c]) v) ++ ['"']
  else v

/-! ## Lines -/

/-- Split text into lines at newline characters (no line contains a newline;
`n` newlines give `n + 1` lines). -/
def splitLinesCh : Str → List Str
  | [] => [[]]
  | c :: rest =>
    if c = '\n' then [] :: splitLinesCh rest
    else
      match splitLinesCh rest with
      | [] => [[c]]
      | l :: ls => (c :: l) :: ls

/-- Join lines with newline characters; the inverse of `splitLinesCh`. -/
def joinLines : List Str → Str
  | [] => []
  | [l] => l
  | l :: ls => l ++ '\n' :: joinLines ls

/-! ## Document grammar

The pest grammar `grammars/dotenv.pest` is referenced by src/dotenv/parse.rs
but is not among the sources.  The token scanners and the line parser below
are therefore modelled from the spec. -/

/-- Horizontal whitespace inside a line. -/
def isHWs (c : Char) : Bool :=
  c = ' ' || c = '\t' || c = '\r'

/-- Modelled from the spec: length of an unquoted value token, which is
"terminated by unescaped whitespace or comment" (spec sections 4.3 and 6); a
backslash escapes the following character, keeping it in the token. -/
def uqLen : Str → Nat
  | [] => 0
  | c :: rest =>
    if c = '\\' then
      match rest with
      | [] => 1
      | _ :: rest2 => 2 + uqLen rest2
    else if isHWs c || c = '#' then 0
    else 1 + uqLen rest

/-- Modelled from the spec: length of a single-quoted value after the opening
quote, including the closing quote; single-quoted values are verbatim, with no
escaping (spec section 4.3).  `none` when the quote is unterminated. -/
def sqLen : Str → Option Nat
  | [] => none
  | c :: rest =>
    if c = '\'' then some 1
    else (sqLen rest).map (· + 1)

/-- Modelled from the spec: length of a double-quoted value after the opening
quote, including the closing quote; a backslash escapes the following
character (spec section 4.3).  `none` when the quote is unterminated. -/
def dqLen : Str → Option Nat
  | [] => none
  | c :: rest =>
    if c = '"' then some 1
    else if c = '\\' then
      match rest with
      | [] => none
      | _ :: rest2 => (dqLen rest2).map (· + 2)
    else (dqLen rest).map (· + 1)

/-- The three value forms of the grammar (rules `var_value_uq`, `var_value_sq`,
`var_value_dq`). -/
inductive ValueKind where
  | uq
  | sq
  | dq
  deriving DecidableEq, Repr

/-- A parsed `NAME=VALUE` definition within one line: the name, the value kind,
the raw value text as written (with quotes for the quoted forms), and the
value's span relative to the start of the line. -/
structure LineDef where
  name : Str
  kind : ValueKind
  raw : Str
  vstart : Nat
  vstop : Nat
  deriving DecidableEq, Repr

/-- After a value: optional horizontal whitespace followed by the end of the
line or a `#` trailing comment. -/
def checkRest (l : Str) : Bool :=
  match l.dropWhile isHWs with
  | [] => true
  | c :: _ => c = '#'

/-- Modelled from the spec: parse the value part of a definition starting at
offset `vs` of the line; returns the kind, raw text, and span of the value. -/
def parseValue (lV : Str) (vs : Nat) : Except String (ValueKind × Str × Nat × Nat) :=
  match lV with
  | '\'' :: lr =>
    match sqLen lr with
    | some k =>
      if checkRest (lr.drop k) then .ok (.sq, lV.take (k + 1), vs, vs + k + 1)
      else .error "unexpected characters after value"
    | none => .error "unterminated single quote"
  | '"' :: lr =>
    match dqLen lr with
    | some k =>
      if checkRest (lr.drop k) then .ok (.dq, lV.take (k + 1), vs, vs + k + 1)
      else .error "unexpected characters after value"
    | none => .error "unterminated double quote"
  | _ =>
    let k := uqLen lV
    if checkRest (lV.drop k) then .ok (.uq, lV.take k, vs, vs + k)
    else .error "unexpected characters after value"

/-- Modelled from the spec: parse a `NAME=VALUE` definition starting at offset
`iE` of the line, whose text from that offset is `lE`. -/
def parseDefn (lE : Str) (iE : Nat) : Except String LineDef :=
  match lE with
  | [] => .error "missing variable name"
  | c1 :: rest1 =>
    if is_name_start c1 then
      let nl := 1 + (rest1.takeWhile isNameChar).length
      match lE.drop nl with
      | '=' :: lV =>
        match parseValue lV (iE + nl + 1) with
        | .ok (k, raw, s, e) => .ok ⟨lE.take nl, k, raw, s, e⟩
        | .error m => .error m
      | _ => .error "malformed variable definition"
    else .error "malformed variable definition"

/-- Modelled from the spec: parse one line of a dotenv document.  A line is
blank, a `#` comment, or `[export ]NAME=VALUE` with an optional trailing
comment (spec sections 4.3 and 6); `none` for a line with no definition. -/
def parseLine (line : Str) : Except String (Option LineDef) :=
  let i0 := (line.takeWhile isHWs).length
  let l0 := line.drop i0
  match l0 with
  | [] => .ok none
  | c :: _ =>
    if c = '#' then .ok none
    else if decide (l0.take 7 = "export ".data) then
      (parseDefn (l0.drop 7) (i0 + 7)).map some
    else
      (parseDefn l0 i0).map some

/-- A definition produced by the grammar: name, kind, raw value text, and the
value's span as offsets into the whole source. -/
structure RawDef where
  name : Str
  kind : ValueKind
  raw : Str
  vstart : Nat
  vstop : Nat
  deriving DecidableEq, Repr

/-- Parse all lines, turning line-relative spans into source offsets; `off` is
the offset of the first line. -/
def parseLinesGo : Nat → List Str → Except String (List RawDef)
  | _, [] => .ok []
  | off, line :: rest =>
    match parseLine line with
    | .error m => .error m
    | .ok none => parseLinesGo (off + line.length + 1) rest
    | .ok (some ld) =>
      match parseLinesGo (off + line.length + 1) rest with
      | .error m => .error m
      | .ok ds => .ok (⟨ld.name, ld.kind, ld.raw, off + ld.vstart, off + ld.vstop⟩ :: ds)

/-- Modelled from the spec: the document grammar, producing the variable
definitions in source order. -/
def parseGrammar (source : Str) : Except String (List RawDef) :=
  parseLinesGo 0 (splitLinesCh source)

/-! ## Document parser driver (src/dotenv/parse.rs) -/

/-- Embedding of `unquote` (src/dotenv/parse.rs lines 122-125): remove a
leading and trailing quote character. -/
def unquote (s : Str) (quote : Char) : Option Str :=
  match s with
  | [] => none
  | c :: rest =>
    if c = quote then
      match rest.reverse with
      | [] => none
      | c2 :: rev2 => if c2 = quote then some rev2.reverse else none
    else none

/-- Embedding of the value-processing arms of `var_definition`
(src/dotenv/parse.rs lines 78-115): unquoted and double-quoted values are
expanded then unescaped, single-quoted values are verbatim; the returned list
holds the names reported to `on_expand`. -/
def resolveValue (params : List (Str × Str)) (k : ValueKind) (raw : Str) :
    Except String (Str × List Str) :=
  match k with
  | .uq =>
    let r := expand params raw
    .ok (unescape r.1, r.2)
  | .sq =>
    match unquote raw '\'' with
    | some inner => .ok (inner, [])
    | none => .error "single-quoted value missing one or more quotes"
  | .dq =>
    match unquote raw '"' with
    | some inner =>
      let r := expand params inner
      .ok (unescape r.1, r.2)
    | none => .error "double-quoted value missing one or more quotes"

/-- The mutable parsing state of `DotenvFile::parse` (src/dotenv/parse.rs
lines 23-25): `parameters`, `value_spans` and `referenced`. -/
structure ParseState where
  parameters : List (Str × Str)
  value_spans : List (Str × (Nat × Nat))
  referenced : List Str
  deriving Repr

/-- Embedding of one iteration of the parse loop (src/dotenv/parse.rs lines
26-42): resolve the definition's value against the current parameters, record
the names expanded during resolution into `referenced`, then overwrite any
previous definition: remove the name from `referenced` and insert the value
and span. -/
def stepDef (st : ParseState) (d : RawDef) : Except String ParseState :=
  match resolveValue st.parameters d.kind d.raw with
  | .error m => .error m
  | .ok (v, ns) =>
    let refd := removeS (ns.foldl insertS st.referenced) d.name
    .ok ⟨insertA st.parameters d.name v, insertA st.value_spans d.name (d.vstart, d.vstop), refd⟩

/-- The parse loop over all definitions. -/
def runDefs (st : ParseState) : List RawDef → Except String ParseState
  | [] => .ok st
  | d :: ds =>
    match stepDef st d with
    | .error m => .error m
    | .ok st2 => runDefs st2 ds

/-- Embedding of `DotenvFile` (src/dotenv/file.rs lines 14-33). -/
structure DotenvFile where
  /-- The original source contents of the file. -/
  source : Str
  /-- The variables defined in the file. -/
  parameters : List (Str × Str)
  /-- The source locations for the values of variables defined in this file. -/
  value_spans : List (Str × (Nat × Nat))
  /-- Parameters that are expanded after being defined. -/
  referenced : List Str
  /-- The last modified date, if available. -/
  last_modified : Option Int
  deriving Repr

/-- Embedding of `DotenvFile::parse` (src/dotenv/parse.rs lines 19-51). -/
def DotenvFile.parse (source : Str) : Except String DotenvFile :=
  match parseGrammar source with
  | .error m => .error m
  | .ok defs =>
    match runDefs ⟨[], [], []⟩ defs with
    | .error m => .error m
    | .ok st => .ok ⟨source, st.parameters, st.value_spans, st.referenced, none⟩

/-! ## Document writer (src/dotenv/file.rs, `replace`) -/

/-- Model of `String::replace_range`: substitute `w` for the span `[s, e)`. -/
def replaceRange (content : Str) (s e : Nat) (w : Str) : Str :=
  content.take s ++ w ++ content.drop e

/-- Insert into a list sorted by descending span end, after entries with a
greater or equal end (so the overall sort is stable). -/
def insertByEndDesc (x : (Nat × Nat) × Str) : List ((Nat × Nat) × Str) → List ((Nat × Nat) × Str)
  | [] => [x]
  | y :: ys => if y.1.2 < x.1.2 then x :: y :: ys else y :: insertByEndDesc x ys

/-- Stable sort by descending span end: model of
`replaced.sort_by_key(|(span, _)| Reverse(span.end))` (src/dotenv/file.rs
line 88).  Rust's `sort_by_key` is a stable sort, and a stable sort by a key is
a function of the input list, so any stable implementation is faithful;
insertion sort is used here. -/
def sortByEndDesc : List ((Nat × Nat) × Str) → List ((Nat × Nat) × Str)
  | [] => []
  | x :: xs => insertByEndDesc x (sortByEndDesc xs)

/-- Embedding of `DotenvFile::replace` (src/dotenv/file.rs lines 71-109).
Replacements whose name has a recorded span and is not in `referenced` are
applied in place in order of descending span end; all others are appended at
the end, after a newline if the content does not already end in one.  The
source iterates a `HashMap`; the list order of `replacements` stands for the
iteration order. -/
def DotenvFile.replace (d : DotenvFile) (replacements : List (Str × Str)) : Str :=
  let replaced := replacements.filterMap (fun kv =>
    if kv.1 ∉ d.referenced then
      (lookupP d.value_spans kv.1).map (fun sp => (sp, kv.2))
    else none)
  let added := replacements.filter (fun kv =>
    ¬ (kv.1 ∉ d.referenced ∧ (lookupP d.value_spans kv.1).isSome))
  let content := (sortByEndDesc replaced).foldl
    (fun acc spv => replaceRange acc spv.1.1 spv.1.2 (escape spv.2)) d.source
  if added.isEmpty then content
  else
    let content2 :=
      match content.getLast? with
      | some c => if c ≠ '\n' then content ++ ['\n'] else content
      | none => content
    added.foldl (fun acc kv => acc ++ kv.1 ++ '=' :: escape kv.2 ++ ['\n']) content2

/-! ## Derived helpers used in statements and proofs -/

/-- The per-character form of the write-escaping: each of the four escaped
characters is preceded by a backslash, all others are kept. -/
def escChar (c : Char) : Str :=
  if c ∈ ESCAPED then ['\\', c] else [c]

/-- The escaped body of a quoted value, character by character. -/
def escBody (v : Str) : Str := v.flatMap escChar

/-- The slice of a list between two offsets. -/
def extractL (l : Str) (s e : Nat) : Str :=
  (l.drop s).take (e - s)

/-- The parameters mapping of a parsed document, when parsing succeeds. -/
def parseParams (s : Str) : Option (List (Str × Str)) :=
  match DotenvFile.parse s with
  | .ok d => some d.parameters
  | .error _ => none

/-- The `value_spans` mapping of a parsed document, when parsing succeeds. -/
def parseSpans (s : Str) : Option (List (Str × (Nat × Nat))) :=
  match DotenvFile.parse s with
  | .ok d => some d.value_spans
  | .error _ => none

/-- The `referenced` set of a parsed document, when parsing succeeds. -/
def parseRefd (s : Str) : Option (List Str) :=
  match DotenvFile.parse s with
  | .ok d => some d.referenced
  | .error _ => none

/-! ## Line-wise view of the in-place replacements

These definitions give a per-line description of what `replace` does to the
source, used to state and prove the round-trip and frame properties.  An
aligned list assigns to each line of the document at most one in-place edit,
as a line-relative value span together with the new (unescaped) value. -/

/-- Apply at most one edit per line: an entry `some ((s, e), v)` replaces the
span `[s, e)` of its line with the escaped form of `v`. -/
def editLines : List Str → List (Option ((Nat × Nat) × Str)) → List Str
  | [], _ => []
  | l :: ls, [] => l :: editLines ls []
  | l :: ls, none :: es => l :: editLines ls es
  | l :: ls, some ((s, e), v) :: es => (l.take s ++ escape v ++ l.drop e) :: editLines ls es

/-- The global-offset triples of an aligned edit list, in line order (ascending
span order); `off` is the offset of the first line. -/
def triplesOf : Nat → List Str → List (Option ((Nat × Nat) × Str)) → List ((Nat × Nat) × Str)
  | _, [], _ => []
  | _, _ :: _, [] => []
  | off, l :: ls, none :: es => triplesOf (off + l.length + 1) ls es
  | off, l :: ls, some ((s, e), v) :: es => ((off + s, off + e), v) :: triplesOf (off + l.length + 1) ls es

/-- The in-place edit (if any) that `replace` performs on one line: the line
must hold a definition whose name is edited, is not in `referenced`, and whose
recorded span is this line's value span. -/
def esLineEntry (d : DotenvFile) (edits : List (Str × Str)) (off : Nat) (line : Str) :
    Option ((Nat × Nat) × Str) :=
  match parseLine line with
  | .ok (some ld) =>
    if ld.name ∈ d.referenced then none
    else
      match lookupP edits ld.name with
      | some v =>
        if lookupP d.value_spans ld.name = some (off + ld.vstart, off + ld.vstop) then
          some ((ld.vstart, ld.vstop), v)
        else none
      | none => none
  | _ => none

/-- The aligned per-line edits of a document. -/
def esAligned (d : DotenvFile) (edits : List (Str × Str)) : Nat → List Str → List (Option ((Nat × Nat) × Str))
  | _, [] => []
  | off, line :: rest => esLineEntry d edits off line :: esAligned d edits (off + line.length + 1) rest

/-- Aligned edits are within their lines. -/
def EsOK : List Str → List (Option ((Nat × Nat) × Str)) → Prop
  | _, [] => True
  | [], _ :: _ => False
  | l :: ls, o :: es =>
    (match o with
     | none => True
     | some ((s, e), _) => s ≤ e ∧ e ≤ l.length) ∧ EsOK ls es

/-- The fold of in-place replacements, as `replace` performs it (highest span
first when the list is sorted by descending end). -/
def applyDesc (src : Str) (ts : List ((Nat × Nat) × Str)) : Str :=
  ts.foldl (fun acc t => replaceRange acc t.1.1 t.1.2 (escape t.2)) src

/-- Shift a triple's span by an offset. -/
def addT (off : Nat) (t : (Nat × Nat) × Str) : (Nat × Nat) × Str :=
  ((off + t.1.1, off + t.1.2), t.2)

/-- Offset of the start of the `j`-th line within the joined text. -/
def offsetOfLine : List Str → Nat → Nat
  | _, 0 => 0
  | [], _ + 1 => 0
  | l :: ls, j + 1 => l.length + 1 + offsetOfLine ls j

/-- A text that the expansion engine passes through verbatim with no callback:
every character is either not `$` or protected by a preceding backslash (the
`Escape` state replays a backslash and the following character untouched). -/
def noExpandStr : Str → Bool
  | [] => true
  | c :: rest =>
    if c = '\\' then
      match rest with
      | [] => true
      | _ :: rest2 => noExpandStr rest2
    else decide (c ≠ '$') && noExpandStr rest

/-- A double-quoted body the scanner consumes whole: every character is either
a non-quote non-backslash character or a backslash followed by a character. -/
def dqSafe : Str → Bool
  | [] => true
  | c :: rest =>
    if c = '\\' then
      match rest with
      | [] => false
      | _ :: rest2 => dqSafe rest2
    else decide (c ≠ '"') && dqSafe rest

/-- The span of the last definition of a name in a definition list. -/
def spanOfLast (n : Str) : List RawDef → Option (Nat × Nat)
  | [] => none
  | rd :: ds =>
    match spanOfLast n ds with
    | some sp => some sp
    | none => if rd.name = n then some (rd.vstart, rd.vstop) else none

/-- A value that survives the write/parse round trip: it contains no newline
(which would break the line structure), and if it is written bare it contains
no horizontal whitespace and no `#` (at which the unquoted-value scanner would
stop). -/
def writeSafe (v : Str) : Bool :=
  decide ('\n' ∉ v) &&
  (if escape v = v then v.all (fun c => !(isHWs c) && decide (c ≠ '#')) else true)

/-- The relation between the parameter maps of the original and the edited
parse after processing a common prefix of definitions: a name resolves to its
edit value exactly when it is edited, unreferenced, already defined, recorded
in `value_spans`, and has no definition left in the remaining list `ds`. -/
def editInv (edits : List (Str × Str)) (stF : ParseState) (ds : List RawDef)
    (st st2 : ParseState) : Prop :=
  ∀ n, lookupP st2.parameters n =
    if (lookupP edits n).isSome = true ∧ n ∉ stF.referenced ∧
        (lookupP st.parameters n).isSome = true ∧
        (∀ rd ∈ ds, rd.name ≠ n) ∧ (lookupP stF.value_spans n).isSome = true
    then lookupP edits n else lookupP st.parameters n

/-! # Theorems -/

/-! ## Expansion engine: fuel insensitivity -/

/-- Any fuel at least `expFuel s input` computes the same result: the machine
never exhausts adequate fuel. -/
theorem expandF_fuel (params : List (Str × Str)) :
    ∀ f g s input, expFuel s input ≤ f → expFuel s input ≤ g →
      expandF params f s input = expandF params g s input := by
  intro f
  induction f with
  | zero =>
    intro g s input hf _
    simp [expFuel] at hf
  | succ f ih =>
    intro g s input hf hg
    cases g with
    | zero => simp [expFuel] at hg
    | succ g =>
      cases s with
      | notExpanding =>
        cases input with
        | nil => simp [expandF]
        | cons c rest =>
          simp only [expFuel, ExpState.rank, List.length_cons] at hf hg
          by_cases hc : c = '$'
          · simp only [expandF, hc, if_true]
            exact ih g .startExpansion rest (by simp [expFuel, ExpState.rank]; omega)
              (by simp [expFuel, ExpState.rank]; omega)
          · by_cases hb : c = '\\'
            · cases rest with
              | nil => simp [expandF, hc, hb]
              | cons c2 rest2 =>
                simp only [expandF, hc, hb, if_false, if_true,
                  List.length_cons] at hf hg ⊢
                rw [ih g .notExpanding rest2 (by simp [expFuel, ExpState.rank]; omega)
                  (by simp [expFuel, ExpState.rank]; omega)]
                simp [show ('\\' : Char) ≠ '$' from by decide]
            · simp only [expandF, hc, hb, if_false]
              rw [ih g .notExpanding rest (by simp [expFuel, ExpState.rank]; omega)
                (by simp [expFuel, ExpState.rank]; omega)]
      | startExpansion =>
        cases input with
        | nil => simp [expandF]
        | cons c rest =>
          simp only [expFuel, ExpState.rank, List.length_cons] at hf hg
          by_cases hc : c = '{'
          · simp only [expandF, hc, if_true]
            exact ih g (.bracedExpansion [] false) rest
              (by simp [expFuel, ExpState.rank]; omega)
              (by simp [expFuel, ExpState.rank]; omega)
          · by_cases hn : is_name_start c
            · simp only [expandF, hc, hn, if_false, if_true]
              exact ih g (.unbracedExpansion [c]) rest
                (by simp [expFuel, ExpState.rank]; omega)
                (by simp [expFuel, ExpState.rank]; omega)
            · simp only [expandF, hc, hn, if_false, Bool.false_eq_true]
              rw [ih g .notExpanding (c :: rest)
                (by simp [expFuel, ExpState.rank]; omega)
                (by simp [expFuel, ExpState.rank]; omega)]
      | unbracedExpansion name =>
        cases input with
        | nil => simp [expandF]
        | cons c rest =>
          simp only [expFuel, ExpState.rank, List.length_cons] at hf hg
          by_cases hn : isNameChar c
          · simp only [expandF, hn, if_true]
            exact ih g (.unbracedExpansion (name ++ [c])) rest
              (by simp [expFuel, ExpState.rank]; omega)
              (by simp [expFuel, ExpState.rank]; omega)
          · simp only [expandF, hn, if_false, Bool.false_eq_true]
            cases hl : lookupP params name with
            | some v =>
              simp only [hl]
              rw [ih g .notExpanding (c :: rest)
                (by simp [expFuel, ExpState.rank]; omega)
                (by simp [expFuel, ExpState.rank]; omega)]
            | none =>
              simp only [hl]
              exact ih g .notExpanding (c :: rest)
                (by simp [expFuel, ExpState.rank]; omega)
                (by simp [expFuel, ExpState.rank]; omega)
      | bracedExpansion name invalid =>
        cases input with
        | nil => simp [expandF]
        | cons c rest =>
          simp only [expFuel, ExpState.rank, List.length_cons] at hf hg
          by_cases h1 : is_name_start c
          · simp only [expandF, h1, if_true]
            exact ih g (.bracedExpansion (name ++ [c]) invalid) rest
              (by simp [expFuel, ExpState.rank]; omega)
              (by simp [expFuel, ExpState.rank]; omega)
          · by_cases h2 : c.isDigit
            · simp only [expandF, h1, h2, if_false, if_true, Bool.false_eq_true]
              exact ih g (.bracedExpansion (name ++ [c]) invalid) rest
                (by simp [expFuel, ExpState.rank]; omega)
                (by simp [expFuel, ExpState.rank]; omega)
            · by_cases h3 : c = '}'
              · by_cases h4 : invalid = false
                · simp only [expandF, h1, h2, h3, h4, if_false, if_true, Bool.false_eq_true]
                  cases hl : lookupP params name with
                  | some v =>
                    simp only [hl]
                    rw [ih g .notExpanding rest
                      (by simp [expFuel, ExpState.rank]; omega)
                      (by simp [expFuel, ExpState.rank]; omega)]
                    simp [show is_name_start '}' = false from by decide,
                      show ('}' : Char).isDigit = false from by decide]
                  | none =>
                    simp only [hl]
                    exact ih g .notExpanding rest
                      (by simp [expFuel, ExpState.rank]; omega)
                      (by simp [expFuel, ExpState.rank]; omega)
                · simp only [expandF, h1, h2, h3, h4, if_false, if_true, Bool.false_eq_true]
                  exact ih g .notExpanding rest
                    (by simp [expFuel, ExpState.rank]; omega)
                    (by simp [expFuel, ExpState.rank]; omega)
              · simp only [expandF, h1, h2, h3, if_false, Bool.false_eq_true]
                exact ih g (.bracedExpansion name true) rest
                  (by simp [expFuel, ExpState.rank]; omega)
                  (by simp [expFuel, ExpState.rank]; omega)

/-! ## Character classification facts -/

/-- A decimal digit is not an alphabetic character. -/
theorem isAlpha_eq_false_of_isDigit (c : Char) (h : c.isDigit = true) :
    c.isAlpha = false := by
  simp only [Char.isDigit, Char.isAlpha, Char.isUpper, Char.isLower,
    Bool.and_eq_true, decide_eq_true_eq, Bool.or_eq_false_iff,
    Bool.and_eq_false_iff, decide_eq_false_iff_not, not_le, ge_iff_le,
    UInt32.le_def, UInt32.lt_def, BitVec.le_def, BitVec.lt_def,
    show (UInt32.toBitVec 48).toNat = 48 from rfl,
    show (UInt32.toBitVec 57).toNat = 57 from rfl,
    show (UInt32.toBitVec 65).toNat = 65 from rfl,
    show (UInt32.toBitVec 90).toNat = 90 from rfl,
    show (UInt32.toBitVec 97).toNat = 97 from rfl,
    show (UInt32.toBitVec 122).toNat = 122 from rfl] at h ⊢
  omega

/-- A decimal digit is not a name-start character. -/
theorem is_name_start_eq_false_of_isDigit (c : Char) (h : c.isDigit = true) :
    is_name_start c = false := by
  have h1 := isAlpha_eq_false_of_isDigit c h
  have h2 : c ≠ '_' := by
    intro hc
    subst hc
    exact absurd h (by decide)
  simp [is_name_start, h1, h2]

/-- A name-start character is not an opening brace. -/
theorem ne_brace_of_is_name_start (c : Char) (h : is_name_start c = true) :
    c ≠ '{' := by
  intro hc
  subst hc
  exact absurd h (by decide)

/-! ## Expansion engine: single-step equations -/

/-- Step: a dollar sign enters the start-expansion state. -/
theorem expandF_succ_dollar (params : List (Str × Str)) (f : Nat) (rest : Str) :
    expandF params (f + 1) .notExpanding ('$' :: rest) =
      expandF params f .startExpansion rest := by
  simp [expandF]

/-- Step: an opening brace after a dollar sign enters the braced state. -/
theorem expandF_start_brace (params : List (Str × Str)) (f : Nat) (rest : Str) :
    expandF params (f + 1) .startExpansion ('{' :: rest) =
      expandF params f (.bracedExpansion [] false) rest := by
  simp [expandF]

/-- Step: a name-start character after a dollar sign enters the unbraced
state. -/
theorem expandF_start_name (params : List (Str × Str)) (f : Nat) (c : Char) (rest : Str)
    (hb : c ≠ '{') (hc : is_name_start c = true) :
    expandF params (f + 1) .startExpansion (c :: rest) =
      expandF params f (.unbracedExpansion [c]) rest := by
  simp [expandF, hb, hc]

/-- Step: any other character after a dollar sign emits the dollar sign
literally and is reconsidered in the normal state. -/
theorem expandF_start_other (params : List (Str × Str)) (f : Nat) (c : Char) (rest : Str)
    (hb : c ≠ '{') (hc : is_name_start c = false) :
    expandF params (f + 1) .startExpansion (c :: rest) =
      ('$' :: (expandF params f .notExpanding (c :: rest)).1,
        (expandF params f .notExpanding (c :: rest)).2) := by
  simp [expandF, hb, hc]

/-! ## Expansion engine: walk lemmas -/

/-- Inside a braced expansion, name characters are accumulated; if the input
ends without a closing brace, the literal `$`, `{` and the accumulated name
characters are re-emitted. -/
theorem expandF_braced_all_names (params : List (Str × Str)) :
    ∀ (w acc : Str) (inv : Bool) (fuel : Nat),
      (∀ c ∈ w, isNameChar c = true) →
      expFuel (.bracedExpansion acc inv) w ≤ fuel →
      expandF params fuel (.bracedExpansion acc inv) w = ('$' :: '{' :: (acc ++ w), []) := by
  intro w
  induction w with
  | nil =>
    intro acc inv fuel _ hfuel
    cases fuel with
    | zero => simp [expFuel] at hfuel
    | succ f => simp [expandF]
  | cons c rest ih =>
    intro acc inv fuel hw hfuel
    cases fuel with
    | zero => simp [expFuel] at hfuel
    | succ f =>
      have hc : isNameChar c = true := hw c (by simp)
      have hrest : ∀ c2 ∈ rest, isNameChar c2 = true := fun c2 hc2 => hw c2 (by simp [hc2])
      simp only [expFuel, ExpState.rank, List.length_cons] at hfuel
      by_cases h1 : is_name_start c
      · simp only [expandF, h1, if_true]
        rw [ih (acc ++ [c]) inv f hrest (by simp [expFuel, ExpState.rank]; omega)]
        simp
      · have h2 : c.isDigit = true := by
          simp [isNameChar, h1] at hc
          exact hc
        simp only [expandF, h1, h2, if_false, if_true, Bool.false_eq_true]
        rw [ih (acc ++ [c]) inv f hrest (by simp [expFuel, ExpState.rank]; omega)]
        simp

/-- Inside an unbraced expansion, name characters are accumulated greedily;
when a non-name character (or the end of input) follows, the accumulated name
is looked up: if bound, its value is emitted verbatim followed by the expansion
of the rest, and the name is reported; if unbound, nothing is emitted. -/
theorem expandF_unbraced_walk (params : List (Str × Str)) :
    ∀ (cs acc suffix : Str) (fuel : Nat),
      (∀ c ∈ cs, isNameChar c = true) →
      (suffix = [] ∨ ∃ c rest, suffix = c :: rest ∧ isNameChar c = false) →
      expFuel (.unbracedExpansion acc) (cs ++ suffix) ≤ fuel →
      expandF params fuel (.unbracedExpansion acc) (cs ++ suffix) =
        (match lookupP params (acc ++ cs) with
         | some v => (v ++ (expand params suffix).1, (acc ++ cs) :: (expand params suffix).2)
         | none => expand params suffix) := by
  intro cs
  induction cs with
  | nil =>
    intro acc suffix fuel _ hsuf hfuel
    cases fuel with
    | zero => simp [expFuel] at hfuel
    | succ f =>
      rcases hsuf with h | ⟨c, rest, rfl, hc⟩
      · subst h
        cases hl : lookupP params acc with
        | some v => simp [expandF, hl, expand, expFuel, expandF]
        | none => simp [expandF, hl, expand, expFuel, expandF]
      · simp only [List.nil_append, expFuel, ExpState.rank, List.length_cons] at hfuel ⊢
        have hfc : expFuel .notExpanding (c :: rest) ≤ f := by
          simp [expFuel, ExpState.rank]
          omega
        cases hl : lookupP params acc with
        | some v =>
          simp only [expandF, hc, if_false, hl, List.append_nil, Bool.false_eq_true]
          rw [expandF_fuel params f (expFuel .notExpanding (c :: rest)) .notExpanding
            (c :: rest) hfc le_rfl]
          rfl
        | none =>
          simp only [expandF, hc, if_false, hl, List.append_nil, Bool.false_eq_true]
          rw [expandF_fuel params f (expFuel .notExpanding (c :: rest)) .notExpanding
            (c :: rest) hfc le_rfl]
          rfl
  | cons c cs2 ih =>
    intro acc suffix fuel hcs hsuf hfuel
    cases fuel with
    | zero => simp [expFuel] at hfuel
    | succ f =>
      have hc : isNameChar c = true := hcs c (by simp)
      have hcs2 : ∀ c2 ∈ cs2, isNameChar c2 = true := fun c2 h2 => hcs c2 (by simp [h2])
      simp only [List.cons_append, expFuel, ExpState.rank, List.length_cons,
        List.length_append] at hfuel ⊢
      simp only [expandF, hc, if_true]
      rw [ih (acc ++ [c]) suffix f hcs2 hsuf
        (by simp [expFuel, ExpState.rank]; omega)]
      simp

/-- Expansion of a bound unbraced reference `$NAME` followed by a non-name
character (or end of input): the value is substituted verbatim and the name is
reported; an unbound reference produces nothing. -/
theorem expand_dollar_name (params : List (Str × Str)) (c0 : Char) (cs suffix : Str)
    (hc0 : is_name_start c0 = true)
    (hcs : ∀ c ∈ cs, isNameChar c = true)
    (hsuf : suffix = [] ∨ ∃ c rest, suffix = c :: rest ∧ isNameChar c = false) :
    expand params ('$' :: (c0 :: cs) ++ suffix) =
      (match lookupP params (c0 :: cs) with
       | some v => (v ++ (expand params suffix).1, (c0 :: cs) :: (expand params suffix).2)
       | none => expand params suffix) := by
  have hb : c0 ≠ '{' := ne_brace_of_is_name_start c0 hc0
  have h1 : expFuel .notExpanding ('$' :: c0 :: (cs ++ suffix)) =
      ((2 * (cs ++ suffix).length + 3) + 1) + 1 := by
    simp [expFuel, ExpState.rank]
    omega
  simp only [expand, List.cons_append, h1, expandF_succ_dollar,
    expandF_start_name params _ c0 (cs ++ suffix) hb hc0]
  rw [expandF_unbraced_walk params cs [c0] suffix _ hcs hsuf
    (by simp [expFuel, ExpState.rank, List.length_append] <;> omega)]
  rfl

/-! ## C5: expansion edge cases (corrected) -/

/-- C5 counterexample: on the input `${A` followed by a space, with no
parameters bound, the space is consumed while scanning the braced reference
and is not re-emitted when the input ends without a closing brace: the output
is `${A`, so a character consumed from the input is silently lost, contrary to
the claim. -/
theorem expansion_unterminated_loses_consumed_char :
    (expand [] ['$', '{', 'A', ' ']).1 = ['$', '{', 'A'] ∧
    ['$', '{', 'A', ' '].count ' ' = 1 ∧
    (expand [] ['$', '{', 'A', ' ']).1.count ' ' = 0 := by
  decide

/-- C5 amended: the four concrete expansion identities hold, and whenever the
input ends before a `}` closes a braced reference, the literal `${` plus the
accumulated name characters is re-emitted verbatim; characters consumed inside
the braces but rejected as name characters are dropped, not re-emitted. -/
theorem expansion_edge_cases (params : List (Str × Str)) (w : Str)
    (hw : ∀ c ∈ w, isNameChar c = true) :
    (expand [(['A'], ['x'])] ['$', 'A', '$', 'A']).1 = ['x', 'x'] ∧
    (expand [] ['$', '{', 'A', '}']).1 = [] ∧
    (expand [] ['$']).1 = ['$'] ∧
    (expand [(['A'], ['x'])] ['$', '{', 'A']).1 = ['$', '{', 'A'] ∧
    (expand params ('$' :: '{' :: w)).1 = '$' :: '{' :: w := by
  refine ⟨by decide, by decide, by decide, by decide, ?_⟩
  have h1 : expFuel .notExpanding ('$' :: '{' :: w) =
      ((2 * w.length + 3) + 1) + 1 := by
    simp [expFuel, ExpState.rank]
    omega
  simp only [expand, h1, expandF_succ_dollar, expandF_start_brace]
  rw [expandF_braced_all_names params w [] false _ hw
    (by simp [expFuel, ExpState.rank] <;> omega)]
  simp

/-- Witness for the amended C5 at the concrete name `A`. -/
theorem expansion_edge_cases_witness :
    (∀ c ∈ (['A'] : Str), isNameChar c = true) ∧
    ((expand [(['A'], ['x'])] ['$', 'A', '$', 'A']).1 = ['x', 'x'] ∧
     (expand [] ['$', '{', 'A', '}']).1 = [] ∧
     (expand [] ['$']).1 = ['$'] ∧
     (expand [(['A'], ['x'])] ['$', '{', 'A']).1 = ['$', '{', 'A'] ∧
     (expand [] ('$' :: '{' :: ['A'])).1 = '$' :: '{' :: ['A']) :=
  ⟨by decide, expansion_edge_cases [] ['A'] (by decide)⟩

/-! ## C8: expansion is single-pass -/

/-- C8: a substituted value is replayed verbatim into the output and is never
re-scanned for further `$` references: expanding `$NAME` (followed by the end
of input or a non-name character) with `NAME` bound to `v` emits exactly `v`
followed by the expansion of the rest of the input, whatever characters `v`
contains; in particular expanding `$A` with `A` bound to `$B` and `B` bound to
`x` yields `$B`, not `x`. -/
theorem expansion_single_pass (params : List (Str × Str)) (c0 : Char) (cs v suffix : Str)
    (hc0 : is_name_start c0 = true)
    (hcs : ∀ c ∈ cs, isNameChar c = true)
    (hv : lookupP params (c0 :: cs) = some v)
    (hsuf : suffix = [] ∨ ∃ c rest, suffix = c :: rest ∧ isNameChar c = false) :
    expand params ('$' :: (c0 :: cs) ++ suffix) =
      (v ++ (expand params suffix).1, (c0 :: cs) :: (expand params suffix).2) ∧
    (expand [(['A'], ['$', 'B']), (['B'], ['x'])] ['$', 'A']).1 = ['$', 'B'] := by
  constructor
  · rw [expand_dollar_name params c0 cs suffix hc0 hcs hsuf, hv]
  · decide

/-- Witness for C8 at `$A` with `A` bound to `$B`. -/
theorem expansion_single_pass_witness :
    (is_name_start 'A' = true ∧
     lookupP [(['A'], ['$', 'B']), (['B'], ['x'])] ['A'] = some ['$', 'B']) ∧
    (expand [(['A'], ['$', 'B']), (['B'], ['x'])] ('$' :: ['A'] ++ []) =
      (['$', 'B'] ++ (expand [(['A'], ['$', 'B']), (['B'], ['x'])] []).1,
        ['A'] :: (expand [(['A'], ['$', 'B']), (['B'], ['x'])] []).2) ∧
     (expand [(['A'], ['$', 'B']), (['B'], ['x'])] ['$', 'A']).1 = ['$', 'B']) :=
  ⟨⟨by decide, by decide⟩,
    expansion_single_pass [(['A'], ['$', 'B']), (['B'], ['x'])] 'A' [] ['$', 'B'] []
      (by decide) (by decide) (by decide) (Or.inl rfl)⟩

/-! ## C9: which names are substituted (corrected) -/

/-- C9 counterexample: a braced reference whose name begins with a decimal
digit is substituted when that name is bound: expanding the braced reference
to the name `3abc` with `3abc` bound to `x` yields `x`, contrary to the claim
that such a reference is never substituted. -/
theorem braced_digit_start_substitutes :
    (expand [(['3', 'a', 'b', 'c'], ['x'])] ['$', '{', '3', 'a', 'b', 'c', '}']).1 = ['x'] := by
  decide

/-- C9 amended: in the unbraced form a reference whose name would begin with a
decimal digit is never substituted — the `$` is emitted literally and scanning
resumes at the digit (so `$3abc` stays `$3abc` even when `3abc` is bound) —
while in the braced form digits are accepted at any position of the name,
including the first, so `${3abc}` is substituted when `3abc` is bound. -/
theorem name_start_rules (params : List (Str × Str)) (d : Char) (rest : Str)
    (hd : d.isDigit = true) :
    expand params ('$' :: d :: rest) =
      ('$' :: (expand params (d :: rest)).1, (expand params (d :: rest)).2) ∧
    (expand [(['3', 'a', 'b', 'c'], ['x'])] ['$', '3', 'a', 'b', 'c']).1 =
      ['$', '3', 'a', 'b', 'c'] ∧
    (expand [(['3', 'a', 'b', 'c'], ['x'])] ['$', '{', '3', 'a', 'b', 'c', '}']).1 = ['x'] := by
  refine ⟨?_, by decide, by decide⟩
  have hb : d ≠ '{' := by
    intro hc
    subst hc
    exact absurd hd (by decide)
  have hn : is_name_start d = false := is_name_start_eq_false_of_isDigit d hd
  have h1 : expFuel .notExpanding ('$' :: d :: rest) =
      ((2 * rest.length + 3) + 1) + 1 := by
    simp [expFuel, ExpState.rank]
    omega
  simp only [expand, h1, expandF_succ_dollar,
    expandF_start_other params _ d rest hb hn]
  rw [expandF_fuel params (2 * rest.length + 3) (expFuel .notExpanding (d :: rest))
    .notExpanding (d :: rest)
    (by simp [expFuel, ExpState.rank]; omega) le_rfl]

/-- Witness for the amended C9 at the digit `3`. -/
theorem name_start_rules_witness :
    (('3' : Char).isDigit = true) ∧
    (expand [] ('$' :: '3' :: []) =
      ('$' :: (expand [] ('3' :: [])).1, (expand [] ('3' :: [])).2) ∧
     (expand [(['3', 'a', 'b', 'c'], ['x'])] ['$', '3', 'a', 'b', 'c']).1 =
       ['$', '3', 'a', 'b', 'c'] ∧
     (expand [(['3', 'a', 'b', 'c'], ['x'])] ['$', '{', '3', 'a', 'b', 'c', '}']).1 = ['x']) :=
  ⟨by decide, name_start_rules [] '3' [] (by decide)⟩

/-! ## Escaping on write: lemmas -/

/-- Single-character replacement distributes over append. -/
theorem replaceChar_append (a b : Str) (c : Char) (w : Str) :
    replaceChar (a ++ b) c w = replaceChar a c w ++ replaceChar b c w := by
  simp [replaceChar]

/-- The fold of single-character replacements distributes over append. -/
theorem escFold_append (cs : List Char) :
    ∀ v1 v2 : Str,
      cs.foldl (fun acc c => replaceChar acc c ['\\', c]) (v1 ++ v2) =
        cs.foldl (fun acc c => replaceChar acc c ['\\', c]) v1 ++
          cs.foldl (fun acc c => replaceChar acc c ['\\', c]) v2 := by
  induction cs with
  | nil => intro v1 v2; rfl
  | cons c cs ih =>
    intro v1 v2
    simp only [List.foldl_cons, replaceChar_append]
    exact ih _ _

/-- The fold of replacements over a single character escapes exactly the four
escaped characters. -/
theorem escFold_single (ch : Char) :
    ESCAPED.foldl (fun acc c => replaceChar acc c ['\\', c]) [ch] = escChar ch := by
  by_cases h1 : ch = '\\'
  · subst h1; decide
  · by_cases h2 : ch = '$'
    · subst h2; decide
    · by_cases h3 : ch = '"'
      · subst h3; decide
      · by_cases h4 : ch = '\''
        · subst h4; decide
        · have hm : ch ∉ ESCAPED := by
            simp [ESCAPED, h1, h2, h3, h4]
          simp [ESCAPED, escChar, replaceChar, h1, h2, h3, h4, hm]

/-- The source's fold of `str::replace` calls equals the single-pass
per-character escaping. -/
theorem escFold_eq_escBody (v : Str) :
    ESCAPED.foldl (fun acc c => replaceChar acc c ['\\', c]) v = escBody v := by
  induction v with
  | nil => decide
  | cons ch rest ih =>
    have h : ch :: rest = [ch] ++ rest := rfl
    rw [h, escFold_append, escFold_single, ih]
    simp [escBody]

/-- Unescaping the escaped body recovers the original value exactly. -/
theorem unescape_escBody (v : Str) : unescape (escBody v) = v := by
  have go : ∀ w : Str, unescapeGo false (escBody w) = w := by
    intro w
    induction w with
    | nil => rfl
    | cons ch rest ih =>
      by_cases h : ch ∈ ESCAPED
      · have hesc : escBody (ch :: rest) = '\\' :: ch :: escBody rest := by
          simp [escBody, escChar, h]
        rw [hesc]
        simp [unescapeGo, ih]
      · have hesc : escBody (ch :: rest) = ch :: escBody rest := by
          simp [escBody, escChar, h]
        have hne : ch ≠ '\\' := by
          intro hc
          subst hc
          exact h (by decide)
        rw [hesc]
        simp [unescapeGo, hne, ih]
  exact go v

/-! ## C6: the write escaping law -/

/-- C6: a value containing none of the four characters backslash, dollar,
double quote, single quote and equal to its whitespace-trimmed form is written
bare; a value containing one of those characters or differing from its trimmed
form is written wrapped in double quotes with each of the four characters
backslash-escaped inside, and unescaping the quoted body recovers the original
value exactly. -/
theorem escape_write_law (v : Str) :
    ((∀ c ∈ v, c ∉ ESCAPED) ∧ v = trimStr v → escape v = v) ∧
    ((∃ c ∈ v, c ∈ ESCAPED) ∨ v ≠ trimStr v →
      escape v = '"' :: escBody v ++ ['"'] ∧ unescape (escBody v) = v) := by
  constructor
  · rintro ⟨h1, h2⟩
    have hany : v.any (fun c => ESCAPED.contains c) = false := by
      simp only [List.any_eq_false]
      intro c hc
      simpa using h1 c hc
    have hd : decide (v ≠ trimStr v) = false := by
      rw [← h2]
      simp
    have hcond : (v.any (fun c => ESCAPED.contains c) || decide (v ≠ trimStr v)) = false := by
      rw [hany, hd]
      rfl
    simp only [escape]
    rw [if_neg (by simp only [hcond]; decide)]
  · intro h
    have hc : (v.any (fun c => ESCAPED.contains c) || decide (v ≠ trimStr v)) = true := by
      rcases h with ⟨c, hcm, hm⟩ | h2
      · have hx : v.any (fun c => ESCAPED.contains c) = true := by
          simp only [List.any_eq_true]
          exact ⟨c, hcm, by simpa using hm⟩
        rw [hx]
        rfl
      · have hx : decide (v ≠ trimStr v) = true := decide_eq_true h2
        rw [hx, Bool.or_true]
    refine ⟨?_, unescape_escBody v⟩
    simp only [escape]
    rw [if_pos hc, escFold_eq_escBody]

/-- Witness for C6 at the bare value `a` and the quoted value `$`. -/
theorem escape_write_law_witness :
    ((∀ c ∈ (['a'] : Str), c ∉ ESCAPED) ∧ (['a'] : Str) = trimStr ['a']) ∧
    escape ['a'] = ['a'] ∧
    ((∃ c ∈ (['$'] : Str), c ∈ ESCAPED) ∨ (['$'] : Str) ≠ trimStr ['$']) ∧
    (escape ['$'] = '"' :: escBody ['$'] ++ ['"'] ∧ unescape (escBody ['$']) = ['$']) :=
  ⟨⟨by decide, by decide⟩,
    (escape_write_law ['a']).1 ⟨by decide, by decide⟩,
    Or.inl ⟨'$', by decide, by decide⟩,
    (escape_write_law ['$']).2 (Or.inl ⟨'$', by decide, by decide⟩)⟩

/-! ## C3: forward-reference example (corrected) -/

/-- C3 counterexample: parsing the two-line text `A=$B` then `B=2` succeeds,
but the resulting `referenced` set is empty (so `A` is not a member) and `A`
does have an entry in `value_spans` — the opposite of the claim.  The
expansion callback fires only when a bound name is substituted, and `B` is
unbound when the value of `A` is resolved. -/
theorem forward_reference_claim_fails :
    parseRefd "A=$B\nB=2".data = some [] ∧
    (parseSpans "A=$B\nB=2".data).map (fun m => (lookupP m ['A']).isSome) = some true := by
  decide

/-- C3 amended: parsing `A=$B` then `B=2` succeeds and yields the parameters
mapping `A` to the empty value and `B` to `2`; since `B` is undefined when `A`
is resolved, nothing is substituted, the `referenced` set stays empty, and `A`
keeps an entry in `value_spans`. -/
theorem forward_reference_parse :
    (parseParams "A=$B\nB=2".data).map
      (fun m => (lookupP m ['A'], lookupP m ['B'])) = some (some [], some ['2']) ∧
    parseRefd "A=$B\nB=2".data = some [] ∧
    (parseSpans "A=$B\nB=2".data).map (fun m => (lookupP m ['A']).isSome) = some true := by
  decide

/-! ## Association list lemmas -/

/-- Lookup after removing a key. -/
theorem lookupP_filter_ne {α : Type} (m : List (Str × α)) (k n : Str) :
    lookupP (m.filter (fun p => p.1 ≠ k)) n = if k = n then none else lookupP m n := by
  induction m with
  | nil => simp [lookupP]
  | cons p rest ih =>
    by_cases h : p.1 = k
    · rw [List.filter_cons, if_neg (by simp [h])]
      rw [ih]
      by_cases hk : k = n
      · simp [hk]
      · rw [if_neg hk, if_neg hk]
        simp only [lookupP]
        rw [if_neg (by rw [h]; exact hk)]
    · rw [List.filter_cons, if_pos (by simp [h])]
      simp only [lookupP]
      by_cases hp : p.1 = n
      · rw [if_pos hp, if_pos hp, if_neg (by rw [← hp]; exact fun he => h he.symm)]
      · rw [if_neg hp, if_neg hp, ih]

/-- Lookup after inserting a binding. -/
theorem lookupP_insertA {α : Type} (m : List (Str × α)) (k : Str) (v : α) (n : Str) :
    lookupP (insertA m k v) n = if k = n then some v else lookupP m n := by
  simp only [insertA, lookupP]
  rw [lookupP_filter_ne]
  by_cases hk : k = n
  · simp [hk]
  · simp [hk]

/-! ## Grammar scanner lemmas -/

/-- Unquoted token scan: a backslash keeps itself and the next character. -/
theorem uqLen_cons_backslash (c2 : Char) (rest2 : Str) :
    uqLen ('\\' :: c2 :: rest2) = 2 + uqLen rest2 := by
  rw [uqLen.eq_def]
  simp

/-- Unquoted token scan: whitespace or `#` ends the token. -/
theorem uqLen_cons_stop (c : Char) (rest : Str) (hb : ¬c = '\\')
    (hs : (isHWs c || decide (c = '#')) = true) :
    uqLen (c :: rest) = 0 := by
  rw [uqLen.eq_def]
  cases rest with
  | nil => simp [hb, hs]
  | cons a b => simp [hb, hs]

/-- Unquoted token scan: any other character is part of the token. -/
theorem uqLen_cons_go (c : Char) (rest : Str) (hb : ¬c = '\\')
    (hs : ¬(isHWs c || decide (c = '#')) = true) :
    uqLen (c :: rest) = 1 + uqLen rest := by
  rw [uqLen.eq_def]
  cases rest with
  | nil => simp [hb, hs]
  | cons a b => simp [hb, hs]

/-- Double-quoted scan: the closing quote ends the token. -/
theorem dqLen_cons_quote (rest : Str) : dqLen ('"' :: rest) = some 1 := by
  rw [dqLen.eq_def]
  simp

/-- Double-quoted scan: a backslash keeps itself and the next character. -/
theorem dqLen_cons_backslash (c2 : Char) (rest2 : Str) :
    dqLen ('\\' :: c2 :: rest2) = (dqLen rest2).map (· + 2) := by
  rw [dqLen.eq_def]
  simp

/-- Double-quoted scan: any other character is part of the token. -/
theorem dqLen_cons_go (c : Char) (rest : Str) (h : ¬c = '"') (hb : ¬c = '\\') :
    dqLen (c :: rest) = (dqLen rest).map (· + 1) := by
  rw [dqLen.eq_def]
  cases rest with
  | nil => simp [h, hb]
  | cons a b => simp [h, hb]

/-- An unquoted value token is no longer than the text. -/
theorem uqLen_le : ∀ l : Str, uqLen l ≤ l.length := by
  intro l
  induction l using uqLen.induct with
  | case1 => simp [uqLen]
  | case2 => simp [uqLen.eq_def]
  | case3 c2 rest2 ih =>
    rw [uqLen_cons_backslash]
    simp only [List.length_cons]
    omega
  | case4 c rest hb hs =>
    rw [uqLen_cons_stop c rest hb hs]
    simp only [List.length_cons]
    omega
  | case5 c rest hb hs ih =>
    rw [uqLen_cons_go c rest hb hs]
    simp only [List.length_cons]
    omega

/-- A single-quoted token is no longer than the text. -/
theorem sqLen_le : ∀ (l : Str) (k : Nat), sqLen l = some k → k ≤ l.length := by
  intro l
  induction l with
  | nil =>
    intro k h
    simp [sqLen] at h
  | cons c rest ih =>
    intro k h
    simp only [sqLen] at h
    by_cases hc : c = '\''
    · rw [if_pos hc] at h
      cases h
      simp
    · rw [if_neg hc] at h
      cases hs : sqLen rest with
      | none =>
        rw [hs] at h
        exact absurd h (by simp)
      | some k2 =>
        rw [hs] at h
        simp at h
        have := ih k2 hs
        simp only [List.length_cons]
        omega

/-- A double-quoted token is no longer than the text. -/
theorem dqLen_le : ∀ (l : Str) (k : Nat), dqLen l = some k → k ≤ l.length := by
  intro l
  induction l using dqLen.induct with
  | case1 =>
    intro k h
    simp [dqLen] at h
  | case2 rest =>
    intro k hk
    rw [dqLen_cons_quote] at hk
    cases hk
    simp
  | case3 h =>
    intro k hk
    rw [dqLen.eq_def] at hk
    simp at hk
  | case4 c2 rest2 h ih =>
    intro k hk
    rw [dqLen_cons_backslash] at hk
    cases hs : dqLen rest2 with
    | none =>
      rw [hs] at hk
      exact absurd hk (by simp)
    | some k2 =>
      rw [hs] at hk
      simp at hk
      have := ih k2 hs
      simp only [List.length_cons]
      omega
  | case5 c rest h hb ih =>
    intro k hk
    rw [dqLen_cons_go c rest h hb] at hk
    cases hs : dqLen rest with
    | none =>
      rw [hs] at hk
      exact absurd hk (by simp)
    | some k2 =>
      rw [hs] at hk
      simp at hk
      have := ih k2 hs
      simp only [List.length_cons]
      omega

/-! ## Line structure lemmas -/

/-- Splitting never produces an empty list of lines. -/
theorem splitLinesCh_ne_nil (s : Str) : splitLinesCh s ≠ [] := by
  cases s with
  | nil => simp [splitLinesCh]
  | cons c rest =>
    rw [splitLinesCh.eq_def]
    by_cases h : c = '\n'
    · simp [h]
    · simp only [if_neg h]
      cases splitLinesCh rest with
      | nil => simp
      | cons l ls => simp

/-- Joining a list of lines starting with `l` prepends `l` and a newline when
more lines follow. -/
theorem joinLines_cons (l : Str) (ls : List Str) (h : ls ≠ []) :
    joinLines (l :: ls) = l ++ '\n' :: joinLines ls := by
  cases ls with
  | nil => exact absurd rfl h
  | cons x xs => rfl

/-- Splitting at a newline starts a new line. -/
theorem splitLinesCh_cons_newline (rest : Str) :
    splitLinesCh ('\n' :: rest) = [] :: splitLinesCh rest := by
  rw [splitLinesCh.eq_def]
  simp

/-- Splitting at any other character prepends it to the first line. -/
theorem splitLinesCh_cons_other (c : Char) (rest : Str) (h : ¬c = '\n') :
    splitLinesCh (c :: rest) =
      (match splitLinesCh rest with
       | [] => [[c]]
       | l :: ls => (c :: l) :: ls) := by
  rw [splitLinesCh.eq_def]
  simp [h]

/-- Joining the split lines gives back the original text. -/
theorem joinLines_splitLinesCh (s : Str) : joinLines (splitLinesCh s) = s := by
  induction s with
  | nil => rfl
  | cons c rest ih =>
    by_cases h : c = '\n'
    · subst h
      rw [splitLinesCh_cons_newline,
        joinLines_cons [] (splitLinesCh rest) (splitLinesCh_ne_nil rest), ih]
      rfl
    · rw [splitLinesCh_cons_other c rest h]
      cases hs : splitLinesCh rest with
      | nil => exact absurd hs (splitLinesCh_ne_nil rest)
      | cons l ls =>
        rw [hs] at ih
        cases ls with
        | nil =>
          simp only [joinLines] at ih ⊢
          rw [ih]
        | cons y ys =>
          rw [joinLines_cons (c :: l) (y :: ys) (by simp),
            joinLines_cons l (y :: ys) (by simp)] at *
          rw [List.cons_append, ih]

/-! ## Parser bounds -/

/-- Bounds of the value span produced by `parseValue`. -/
theorem parseValue_bounds (lV : Str) (vs : Nat) (k : ValueKind) (raw : Str) (s e : Nat)
    (h : parseValue lV vs = .ok (k, raw, s, e)) :
    s = vs ∧ vs ≤ e ∧ e ≤ vs + lV.length := by
  simp only [parseValue.eq_def] at h
  split at h
  · -- single-quoted
    rename_i lr
    split at h
    · rename_i k2 hsq
      split at h
      · simp only [Except.ok.injEq, Prod.mk.injEq] at h
        obtain ⟨-, -, hs, he⟩ := h
        have := sqLen_le lr k2 hsq
        simp only [List.length_cons]
        omega
      · simp at h
    · simp at h
  · -- double-quoted
    rename_i lr
    split at h
    · rename_i k2 hdq
      split at h
      · simp only [Except.ok.injEq, Prod.mk.injEq] at h
        obtain ⟨-, -, hs, he⟩ := h
        have := dqLen_le lr k2 hdq
        simp only [List.length_cons]
        omega
      · simp at h
    · simp at h
  · -- unquoted
    split at h
    · simp only [Except.ok.injEq, Prod.mk.injEq] at h
      obtain ⟨-, -, hs, he⟩ := h
      have := uqLen_le lV
      omega
    · simp at h

/-- Bounds of the value span produced by `parseDefn`. -/
theorem parseDefn_bounds (lE : Str) (iE : Nat) (ld : LineDef)
    (h : parseDefn lE iE = .ok ld) :
    iE ≤ ld.vstart ∧ ld.vstart ≤ ld.vstop ∧ ld.vstop ≤ iE + lE.length := by
  simp only [parseDefn.eq_def] at h
  split at h
  · simp at h
  · rename_i c1 rest1
    split at h
    · split at h
      · rename_i lV hdrop
        split at h
        · rename_i vk vraw vvs vve hpv
          simp only [Except.ok.injEq] at h
          subst h
          have hpvb := parseValue_bounds lV _ vk vraw vvs vve hpv
          have hlen : ((c1 :: rest1).drop (1 + (rest1.takeWhile isNameChar).length)).length =
              (c1 :: rest1).length - (1 + (rest1.takeWhile isNameChar).length) :=
            List.length_drop _ _
          rw [hdrop] at hlen
          simp only [List.length_cons] at hlen ⊢
          omega
        · simp at h
      · simp at h
    · simp at h

/-- Bounds of the value span produced by `parseLine`: the span is well formed
and lies inside the line. -/
theorem parseLine_bounds (line : Str) (ld : LineDef)
    (h : parseLine line = .ok (some ld)) :
    ld.vstart ≤ ld.vstop ∧ ld.vstop ≤ line.length := by
  have hi0 : (line.takeWhile isHWs).length ≤ line.length :=
    List.Sublist.length_le (List.takeWhile_sublist isHWs)
  have hl0len : (line.drop (line.takeWhile isHWs).length).length =
      line.length - (line.takeWhile isHWs).length := List.length_drop _ _
  simp only [parseLine] at h
  split at h
  · exact absurd h (by simp)
  · split at h
    · exact absurd h (by simp)
    · split at h
      · -- the export keyword is present
        rename_i hexp
        cases hd : parseDefn ((line.drop (line.takeWhile isHWs).length).drop 7)
            ((line.takeWhile isHWs).length + 7) with
        | error m =>
          rw [hd] at h
          exact absurd h (by simp [Except.map])
        | ok ld2 =>
          rw [hd] at h
          simp only [Except.map, Except.ok.injEq, Option.some.injEq] at h
          subst h
          have hb := parseDefn_bounds _ _ _ hd
          have hx := of_decide_eq_true hexp
          have hlen7 : min 7 (line.drop (line.takeWhile isHWs).length).length = 7 := by
            simpa using congrArg List.length hx
          have hdrop7 : ((line.drop (line.takeWhile isHWs).length).drop 7).length =
              (line.drop (line.takeWhile isHWs).length).length - 7 := List.length_drop _ _
          omega
      · -- no export keyword
        cases hd : parseDefn (line.drop (line.takeWhile isHWs).length)
            ((line.takeWhile isHWs).length) with
        | error m =>
          rw [hd] at h
          exact absurd h (by simp [Except.map])
        | ok ld2 =>
          rw [hd] at h
          simp only [Except.map, Except.ok.injEq, Option.some.injEq] at h
          subst h
          have hb := parseDefn_bounds _ _ _ hd
          omega

/-- In a pairwise-related list, two distinct members are related one way or the
other. -/
theorem pairwise_mem_or {α : Type} (r : α → α → Prop) :
    ∀ (l : List α), l.Pairwise r → ∀ a b, a ∈ l → b ∈ l → a ≠ b → r a b ∨ r b a := by
  intro l
  induction l with
  | nil =>
    intro _ a b ha
    simp at ha
  | cons c cs ih =>
    intro hp a b ha hb hne
    rw [List.pairwise_cons] at hp
    rcases List.mem_cons.mp ha with rfl | ha2
    · rcases List.mem_cons.mp hb with rfl | hb2
      · exact absurd rfl hne
      · exact Or.inl (hp.1 b hb2)
    · rcases List.mem_cons.mp hb with rfl | hb2
      · exact Or.inr (hp.1 a ha2)
      · exact ih hp.2 a b ha2 hb2 hne

/-- Spans produced by `parseLinesGo` are well formed, bounded by the text, and
appear in increasing, non-overlapping order. -/
theorem parseLinesGo_bounds :
    ∀ (lines : List Str) (off : Nat) (ds : List RawDef),
      parseLinesGo off lines = .ok ds →
      (∀ rd ∈ ds, off ≤ rd.vstart ∧ rd.vstart ≤ rd.vstop ∧
        rd.vstop ≤ off + (joinLines lines).length) ∧
      List.Pairwise (fun a b => a.vstop < b.vstart) ds := by
  intro lines
  induction lines with
  | nil =>
    intro off ds h
    simp only [parseLinesGo] at h
    cases h
    exact ⟨by simp, by simp⟩
  | cons line rest ih =>
    intro off ds h
    simp only [parseLinesGo] at h
    split at h
    · simp at h
    · -- a blank or comment line
      rename_i hpl
      have hih := ih (off + line.length + 1) ds h
      constructor
      · intro rd hrd
        obtain ⟨h1, h2, h3⟩ := hih.1 rd hrd
        refine ⟨by omega, h2, ?_⟩
        cases rest with
        | nil =>
          simp only [parseLinesGo, Except.ok.injEq] at h
          subst h
          simp at hrd
        | cons r rs =>
          simp only [joinLines_cons line (r :: rs) (by simp), List.length_append,
            List.length_cons] at h3 ⊢
          omega
      · exact hih.2
    · -- a definition line
      rename_i ld hpl
      split at h
      · simp at h
      · rename_i ds2 hrec
        simp only [Except.ok.injEq] at h
        subst h
        have hldb := parseLine_bounds line ld hpl
        have hih := ih (off + line.length + 1) ds2 hrec
        constructor
        · intro rd hrd
          rcases List.mem_cons.mp hrd with rfl | hmem
          · refine ⟨by simp, by simp; omega, ?_⟩
            cases rest with
            | nil =>
              simp only [joinLines]
              simp
              omega
            | cons r rs =>
              simp only [joinLines_cons line (r :: rs) (by simp), List.length_append,
                List.length_cons]
              simp
              omega
          · obtain ⟨h1, h2, h3⟩ := hih.1 rd hmem
            refine ⟨by omega, h2, ?_⟩
            cases rest with
            | nil =>
              simp only [parseLinesGo, Except.ok.injEq] at hrec
              subst hrec
              simp at hmem
            | cons r rs =>
              simp only [joinLines_cons line (r :: rs) (by simp), List.length_append,
                List.length_cons] at h3 ⊢
              omega
        · refine List.Pairwise.cons ?_ hih.2
          intro b hb
          have := (hih.1 b hb).1
          simp
          omega

/-- Inversion of a successful `stepDef`. -/
theorem stepDef_ok (st : ParseState) (d : RawDef) (st2 : ParseState)
    (h : stepDef st d = .ok st2) :
    ∃ v ns, resolveValue st.parameters d.kind d.raw = .ok (v, ns) ∧
      st2.parameters = insertA st.parameters d.name v ∧
      st2.value_spans = insertA st.value_spans d.name (d.vstart, d.vstop) ∧
      st2.referenced = removeS (ns.foldl insertS st.referenced) d.name := by
  simp only [stepDef] at h
  split at h
  · simp at h
  · rename_i v ns hres
    simp only [Except.ok.injEq] at h
    subst h
    exact ⟨v, ns, hres, rfl, rfl, rfl⟩

/-- Every binding in the final `value_spans` is either initial or the span of
one of the processed definitions. -/
theorem runDefs_spans :
    ∀ (defs : List RawDef) (st st2 : ParseState),
      runDefs st defs = .ok st2 →
      ∀ n sp, lookupP st2.value_spans n = some sp →
        lookupP st.value_spans n = some sp ∨
          ∃ rd ∈ defs, rd.name = n ∧ sp = (rd.vstart, rd.vstop) := by
  intro defs
  induction defs with
  | nil =>
    intro st st2 h n sp hl
    simp only [runDefs] at h
    cases h
    exact Or.inl hl
  | cons d ds ih =>
    intro st st2 h n sp hl
    simp only [runDefs] at h
    split at h
    · simp at h
    · rename_i st3 hstep
      obtain ⟨v, ns, hres, hp, hs, hr⟩ := stepDef_ok st d st3 hstep
      rcases ih st3 st2 h n sp hl with hcase | ⟨rd, hm, hn, hsp⟩
      · rw [hs, lookupP_insertA] at hcase
        by_cases hd : d.name = n
        · rw [if_pos hd] at hcase
          cases hcase
          exact Or.inr ⟨d, by simp, hd, rfl⟩
        · rw [if_neg hd] at hcase
          exact Or.inl hcase
      · exact Or.inr ⟨rd, by simp [hm], hn, hsp⟩

/-- The keys of `value_spans` stay included in the keys of `parameters`. -/
theorem runDefs_keys :
    ∀ (defs : List RawDef) (st st2 : ParseState),
      runDefs st defs = .ok st2 →
      (∀ n, (lookupP st.value_spans n).isSome = true →
        (lookupP st.parameters n).isSome = true) →
      ∀ n, (lookupP st2.value_spans n).isSome = true →
        (lookupP st2.parameters n).isSome = true := by
  intro defs
  induction defs with
  | nil =>
    intro st st2 h hinv n hl
    simp only [runDefs] at h
    cases h
    exact hinv n hl
  | cons d ds ih =>
    intro st st2 h hinv n hl
    simp only [runDefs] at h
    split at h
    · simp at h
    · rename_i st3 hstep
      obtain ⟨v, ns, hres, hp, hs, hr⟩ := stepDef_ok st d st3 hstep
      refine ih st3 st2 h ?_ n hl
      intro m hm
      rw [hs, lookupP_insertA] at hm
      rw [hp, lookupP_insertA]
      by_cases hd : d.name = m
      · simp [hd]
      · rw [if_neg hd] at hm ⊢
        exact hinv m hm

/-! ## Splicing lemmas -/

/-- A replacement entirely inside the suffix leaves the prefix alone. -/
theorem replaceRange_append_right (A B : Str) (s e : Nat) (w : Str)
    (hs : A.length ≤ s) (he : A.length ≤ e) :
    replaceRange (A ++ B) s e w = A ++ replaceRange B (s - A.length) (e - A.length) w := by
  unfold replaceRange
  have h1 : s = A.length + (s - A.length) := by omega
  have h2 : e = A.length + (e - A.length) := by omega
  rw [h1, h2, List.take_append, List.drop_append]
  simp

/-- A replacement entirely inside the prefix leaves the suffix alone. -/
theorem replaceRange_append_left (A B : Str) (s e : Nat) (w : Str)
    (hse : s ≤ e) (he : e ≤ A.length) :
    replaceRange (A ++ B) s e w = replaceRange A s e w ++ B := by
  unfold replaceRange
  rw [List.take_append_of_le_length (by omega), List.drop_append_of_le_length he]
  simp

/-- The replaced text is at least as long as the replacement's start. -/
theorem replaceRange_length_ge (A : Str) (s e : Nat) (w : Str) (h : s ≤ A.length) :
    s ≤ (replaceRange A s e w).length := by
  unfold replaceRange
  simp only [List.length_append, List.length_take]
  omega

/-- Applying replacements that all start inside the suffix leaves the prefix
alone. -/
theorem applyDesc_append_right (A B : Str) :
    ∀ ts : List ((Nat × Nat) × Str),
      (∀ t ∈ ts, A.length ≤ t.1.1 ∧ t.1.1 ≤ t.1.2) →
      applyDesc (A ++ B) ts =
        A ++ applyDesc B (ts.map (fun t => ((t.1.1 - A.length, t.1.2 - A.length), t.2))) := by
  intro ts
  induction ts generalizing B with
  | nil =>
    intro _
    simp [applyDesc]
  | cons t rest ih =>
    intro h
    obtain ⟨h1, h2⟩ := h t (by simp)
    simp only [applyDesc, List.foldl_cons, List.map_cons]
    rw [replaceRange_append_right A B t.1.1 t.1.2 (escape t.2) h1 (by omega)]
    exact ih (replaceRange B (t.1.1 - A.length) (t.1.2 - A.length) (escape t.2))
      (fun t2 ht2 => h t2 (by simp [ht2]))

/-- Applying replacements that all lie inside the prefix, in descending
disjoint order, leaves the suffix alone. -/
theorem applyDesc_append_left (B : Str) :
    ∀ (ts : List ((Nat × Nat) × Str)) (A : Str),
      List.Pairwise (fun a b => b.1.2 ≤ a.1.1) ts →
      (∀ t ∈ ts, t.1.1 ≤ t.1.2) →
      (∀ t ∈ ts, t.1.2 ≤ A.length) →
      applyDesc (A ++ B) ts = applyDesc A ts ++ B := by
  intro ts
  induction ts with
  | nil =>
    intro A _ _ _
    simp [applyDesc]
  | cons t rest ih =>
    intro A hpw hse hin
    rw [List.pairwise_cons] at hpw
    simp only [applyDesc, List.foldl_cons]
    rw [replaceRange_append_left A B t.1.1 t.1.2 (escape t.2) (hse t (by simp))
      (hin t (by simp))]
    refine ih (replaceRange A t.1.1 t.1.2 (escape t.2)) hpw.2
      (fun t2 ht2 => hse t2 (by simp [ht2])) ?_
    intro t2 ht2
    have hb := hpw.1 t2 ht2
    have := replaceRange_length_ge A t.1.1 t.1.2 (escape t.2)
      (le_trans (hse t (by simp)) (hin t (by simp)))
    omega

/-- Triples at a shifted offset are the shifted triples. -/
theorem triplesOf_add :
    ∀ (lines : List Str) (es : List (Option ((Nat × Nat) × Str))) (a b : Nat),
      triplesOf (a + b) lines es = (triplesOf b lines es).map (addT a) := by
  intro lines
  induction lines with
  | nil =>
    intro es a b
    simp [triplesOf]
  | cons l ls ih =>
    intro es a b
    cases es with
    | nil => simp [triplesOf]
    | cons o es2 =>
      cases o with
      | none =>
        simp only [triplesOf]
        have : a + b + l.length + 1 = a + (b + l.length + 1) := by omega
        rw [this, ih es2 a (b + l.length + 1)]
      | some t =>
        obtain ⟨⟨s, e⟩, v⟩ := t
        simp only [triplesOf, List.map_cons, addT]
        have h1 : a + b + s = a + (b + s) := by omega
        have h2 : a + b + e = a + (b + e) := by omega
        have h3 : a + b + l.length + 1 = a + (b + l.length + 1) := by omega
        rw [h1, h2, h3, ih es2 a (b + l.length + 1)]

/-- Editing with no edits keeps the lines. -/
theorem editLines_nil_es : ∀ ls : List Str, editLines ls [] = ls := by
  intro ls
  induction ls with
  | nil => rfl
  | cons l ls ih =>
    simp only [editLines]
    rw [ih]

/-- Editing preserves the number of lines. -/
theorem editLines_length :
    ∀ (ls : List Str) (es : List (Option ((Nat × Nat) × Str))),
      (editLines ls es).length = ls.length := by
  intro ls
  induction ls with
  | nil =>
    intro es
    simp [editLines]
  | cons l ls ih =>
    intro es
    cases es with
    | nil => simp [editLines, ih]
    | cons o es2 =>
      cases o with
      | none => simp only [editLines, List.length_cons, ih]
      | some t =>
        obtain ⟨⟨s, e⟩, v⟩ := t
        simp only [editLines, List.length_cons, ih]

/-- Appending one replacement to the fold applies it last. -/
theorem applyDesc_append_one (src : Str) (ts : List ((Nat × Nat) × Str))
    (t : (Nat × Nat) × Str) :
    applyDesc src (ts ++ [t]) = replaceRange (applyDesc src ts) t.1.1 t.1.2 (escape t.2) := by
  simp [applyDesc, List.foldl_append]

/-- Spans of the aligned triples are ordered and start after the offset. -/
theorem triplesOf_spans_le :
    ∀ (lines : List Str) (es : List (Option ((Nat × Nat) × Str))) (off : Nat),
      EsOK lines es → ∀ t ∈ triplesOf off lines es, t.1.1 ≤ t.1.2 ∧ off ≤ t.1.1 := by
  intro lines
  induction lines with
  | nil =>
    intro es off _ t ht
    simp [triplesOf] at ht
  | cons l ls ih =>
    intro es off hok t ht
    cases es with
    | nil => simp [triplesOf] at ht
    | cons o es2 =>
      obtain ⟨ho, hes2⟩ := hok
      cases o with
      | none =>
        simp only [triplesOf] at ht
        have := ih es2 (off + l.length + 1) hes2 t ht
        omega
      | some t0 =>
        obtain ⟨⟨s, e⟩, v⟩ := t0
        simp only [triplesOf, List.mem_cons] at ht
        rcases ht with rfl | ht
        · obtain ⟨h1, h2⟩ := ho
          simp
          omega
        · have := ih es2 (off + l.length + 1) hes2 t ht
          omega

/-- The descending application of the global triples of an aligned edit list is
exactly the line-by-line splice. -/
theorem applyDesc_triples :
    ∀ (lines : List Str) (es : List (Option ((Nat × Nat) × Str))),
      EsOK lines es →
      applyDesc (joinLines lines) ((triplesOf 0 lines es).reverse) =
        joinLines (editLines lines es) := by
  intro lines
  induction lines with
  | nil =>
    intro es _
    simp [triplesOf, editLines, applyDesc]
  | cons l ls ih =>
    intro es hok
    cases es with
    | nil =>
      simp only [triplesOf, List.reverse_nil, applyDesc, List.foldl_nil, editLines]
      rw [editLines_nil_es]
    | cons o es2 =>
      obtain ⟨ho, hes2⟩ := hok
      have hshift : triplesOf (l.length + 1) ls es2 =
          (triplesOf 0 ls es2).map (addT (l.length + 1)) := by
        have : l.length + 1 = (l.length + 1) + 0 := by omega
        rw [this, triplesOf_add]
      have hmain : applyDesc (joinLines (l :: ls)) ((triplesOf (l.length + 1) ls es2).reverse) =
          joinLines (l :: editLines ls es2) := by
        cases ls with
        | nil =>
          cases es2 with
          | nil => simp [triplesOf, applyDesc, joinLines, editLines]
          | cons o2 es3 => simp [triplesOf, applyDesc, joinLines, editLines]
        | cons r rs =>
          rw [joinLines_cons l (r :: rs) (by simp), hshift]
          have hJ : l ++ '\n' :: joinLines (r :: rs) = (l ++ ['\n']) ++ joinLines (r :: rs) := by
            simp
          rw [hJ, ← List.map_reverse, applyDesc_append_right (l ++ ['\n']) (joinLines (r :: rs))]
          · have hcomp : ((triplesOf 0 (r :: rs) es2).reverse.map (addT (l.length + 1))).map
                (fun t => ((t.1.1 - (l ++ ['\n']).length, t.1.2 - (l ++ ['\n']).length), t.2)) =
                (triplesOf 0 (r :: rs) es2).reverse := by
              rw [List.map_map]
              have : ∀ t : (Nat × Nat) × Str,
                  ((fun t => ((t.1.1 - (l ++ ['\n']).length, t.1.2 - (l ++ ['\n']).length), t.2)) ∘
                    addT (l.length + 1)) t = t := by
                intro t
                simp [addT, Function.comp]
              rw [List.map_congr_left (fun t _ => this t)]
              simp
            rw [hcomp, ih es2 hes2]
            rw [joinLines_cons l (editLines (r :: rs) es2) ?hne]
            · simp
            · intro hc
              have := editLines_length (r :: rs) es2
              rw [hc] at this
              simp at this
          · intro t ht
            simp only [List.map_reverse, List.mem_reverse, List.mem_map] at ht
            obtain ⟨t0, ht0, rfl⟩ := ht
            have hb := (triplesOf_spans_le (r :: rs) es2 0 hes2 t0 ht0).1
            simp only [addT, List.length_append, List.length_cons, List.length_nil]
            omega
      cases o with
      | none =>
        simp only [triplesOf, editLines, Nat.zero_add]
        exact hmain
      | some t =>
        obtain ⟨⟨s, e⟩, v⟩ := t
        obtain ⟨hse, hel⟩ := ho
        simp only [triplesOf, editLines, List.reverse_cons, Nat.zero_add]
        rw [applyDesc_append_one, hmain]
        simp only []
        cases hels : editLines ls es2 with
        | nil =>
          have hlen := editLines_length ls es2
          rw [hels] at hlen
          simp at hlen
          have hls : ls = [] := List.eq_nil_of_length_eq_zero hlen.symm
          subst hls
          simp only [joinLines]
          rfl
        | cons x xs =>
          rw [joinLines_cons l (x :: xs) (by simp)]
          have hJ : l ++ '\n' :: joinLines (x :: xs) = (l ++ ['\n']) ++ joinLines (x :: xs) := by
            simp
          rw [hJ, replaceRange_append_left _ _ s e (escape v) hse
            (by simp
                omega)]
          rw [joinLines_cons _ (x :: xs) (by simp), ← hels]
          unfold replaceRange
          rw [List.take_append_of_le_length (by omega),
            List.drop_append_of_le_length hel]
          simp

/-! ## Lookup membership lemmas -/

/-- A successful lookup is a member. -/
theorem lookupP_mem {α : Type} : ∀ (m : List (Str × α)) (k : Str) (v : α),
    lookupP m k = some v → (k, v) ∈ m := by
  intro m
  induction m with
  | nil =>
    intro k v h
    simp [lookupP] at h
  | cons p rest ih =>
    obtain ⟨k2, v2⟩ := p
    intro k v h
    simp only [lookupP] at h
    by_cases hp : k2 = k
    · rw [if_pos hp] at h
      simp only [Option.some.injEq] at h
      subst h
      subst hp
      simp
    · rw [if_neg hp] at h
      exact List.mem_cons_of_mem _ (ih k v h)

/-- With duplicate-free keys, a member is found by lookup. -/
theorem mem_lookupP_of_nodup {α : Type} : ∀ (m : List (Str × α)),
    (m.map (·.1)).Nodup → ∀ (k : Str) (v : α), (k, v) ∈ m → lookupP m k = some v := by
  intro m
  induction m with
  | nil =>
    intro _ k v h
    simp at h
  | cons p rest ih =>
    obtain ⟨k2, v2⟩ := p
    intro hnd k v h
    simp only [List.map_cons, List.nodup_cons] at hnd
    rcases List.mem_cons.mp h with heq | hmem
    · cases heq
      simp [lookupP]
    · have hne : ¬ k2 = k := by
        intro hc
        subst hc
        have hk : ((k2, v).1) ∈ rest.map (·.1) := List.mem_map_of_mem (·.1) hmem
        exact hnd.1 hk
      simp only [lookupP, if_neg hne]
      exact ih hnd.2 k v hmem

/-! ## Split and join membership -/

/-- No line of a split contains a newline. -/
theorem split_no_newline : ∀ (s : Str), ∀ l ∈ splitLinesCh s, '\n' ∉ l := by
  intro s
  induction s with
  | nil =>
    intro l hl
    simp [splitLinesCh] at hl
    subst hl
    simp
  | cons c rest ih =>
    intro l hl
    by_cases hc : c = '\n'
    · subst hc
      rw [splitLinesCh_cons_newline] at hl
      rcases List.mem_cons.mp hl with rfl | hmem
      · simp
      · exact ih l hmem
    · rw [splitLinesCh_cons_other c rest hc] at hl
      cases hs : splitLinesCh rest with
      | nil => exact absurd hs (splitLinesCh_ne_nil rest)
      | cons x xs =>
        rw [hs] at hl
        simp only [] at hl
        rcases List.mem_cons.mp hl with rfl | hmem
        · intro hmem2
          rcases List.mem_cons.mp hmem2 with heq | hmem3
          · exact hc heq.symm
          · exact ih x (by rw [hs]; exact List.mem_cons_self _ _) hmem3
        · exact ih l (by rw [hs]; exact List.mem_cons_of_mem _ hmem)

/-- Splitting text followed by a newline and more text. -/
theorem split_append_newline : ∀ (x : Str), '\n' ∉ x → ∀ T : Str,
    splitLinesCh (x ++ '\n' :: T) = x :: splitLinesCh T := by
  intro x
  induction x with
  | nil =>
    intro _ T
    rw [List.nil_append, splitLinesCh_cons_newline]
  | cons c x2 ih =>
    intro hnl T
    have hc : ¬c = '\n' := by
      intro hc
      exact hnl (by simp [hc])
    rw [List.cons_append, splitLinesCh_cons_other c _ hc,
      ih (fun h => hnl (by simp [h])) T]

/-- Splitting a newline-free text gives one line. -/
theorem split_of_no_newline : ∀ (x : Str), '\n' ∉ x → splitLinesCh x = [x] := by
  intro x
  induction x with
  | nil =>
    intro _
    rfl
  | cons c x2 ih =>
    intro hnl
    have hc : ¬c = '\n' := by
      intro hc
      exact hnl (by simp [hc])
    rw [splitLinesCh_cons_other c _ hc, ih (fun h => hnl (by simp [h]))]

/-- Any line of a joined list is embedded between newlines (or the ends). -/
theorem join_decompose : ∀ (ls : List Str) (j : Nat) (l : Str), ls.get? j = some l →
    ∃ P S, joinLines ls = P ++ l ++ S ∧
      (P = [] ∨ P.getLast? = some '\n') ∧ (S = [] ∨ ∃ T, S = '\n' :: T) := by
  intro ls
  induction ls with
  | nil =>
    intro j l h
    simp at h
  | cons l0 ls2 ih =>
    intro j l h
    cases j with
    | zero =>
      simp only [List.get?_cons_zero, Option.some.injEq] at h
      subst h
      cases ls2 with
      | nil => exact ⟨[], [], by simp [joinLines], Or.inl rfl, Or.inl rfl⟩
      | cons r rs =>
        exact ⟨[], '\n' :: joinLines (r :: rs),
          by rw [joinLines_cons _ _ (by simp)]; simp, Or.inl rfl, Or.inr ⟨_, rfl⟩⟩
    | succ j2 =>
      simp only [List.get?_cons_succ] at h
      obtain ⟨P, S, hJ, hP, hS⟩ := ih j2 l h
      have hne : ls2 ≠ [] := by
        intro hc
        subst hc
        simp at h
      refine ⟨l0 ++ '\n' :: P, S, ?_, ?_, hS⟩
      · rw [joinLines_cons _ _ hne, hJ]
        simp
      · right
        cases hPc : P with
        | nil =>
          rw [List.getLast?_append_of_ne_nil _ (by simp)]
          rfl
        | cons p ps =>
          rcases hP with rfl | hP2
          · simp at hPc
          · rw [hPc] at hP2
            rw [List.getLast?_append_of_ne_nil _ (by simp), List.getLast?_cons_cons]
            exact hP2

/-- A newline-free text embedded after a newline (or at the start) and before
a newline (or the end) is a line of the split, at the index given by the number
of newlines before it. -/
theorem split_get_embedded : ∀ (P l S : Str), '\n' ∉ l →
    (P = [] ∨ P.getLast? = some '\n') → (S = [] ∨ ∃ T, S = '\n' :: T) →
    (splitLinesCh (P ++ l ++ S)).get? (P.count '\n') = some l := by
  intro P
  induction P with
  | nil =>
    intro l S hnl _ hS
    rcases hS with rfl | ⟨T, rfl⟩
    · simp only [List.nil_append, List.append_nil, List.count_nil]
      rw [split_of_no_newline l hnl]
      rfl
    · simp only [List.nil_append, List.count_nil]
      rw [split_append_newline l hnl T]
      rfl
  | cons c P2 ih =>
    intro l S hnl hP hS
    rcases hP with hP0 | hP1
    · simp at hP0
    cases P2 with
    | nil =>
      simp only [List.getLast?_singleton, Option.some.injEq] at hP1
      subst hP1
      simp only [List.cons_append, List.nil_append]
      rw [splitLinesCh_cons_newline]
      have hbase := ih l S hnl (Or.inl rfl) hS
      simp only [List.nil_append, List.count_nil] at hbase
      simpa using hbase
    | cons p ps =>
      have hP2 : (p :: ps).getLast? = some '\n' := by
        rw [List.getLast?_cons_cons] at hP1
        exact hP1
      have hih := ih l S hnl (Or.inr hP2) hS
      by_cases hc : c = '\n'
      · subst hc
        have hgoal1 : ('\n' :: p :: ps) ++ l ++ S = '\n' :: ((p :: ps) ++ l ++ S) := by
          simp
        rw [hgoal1, splitLinesCh_cons_newline]
        have hcnt : List.count '\n' ('\n' :: p :: ps) = List.count '\n' (p :: ps) + 1 := by
          simp [List.count_cons]
        rw [hcnt, List.get?_cons_succ]
        exact hih
      · have hmem : '\n' ∈ p :: ps := by
          obtain ⟨hne, hx⟩ :=
            List.mem_getLast?_eq_getLast (l := p :: ps) (x := '\n')
              (Option.mem_def.mpr hP2)
          rw [hx]
          exact List.getLast_mem hne
        have hcount : 1 ≤ (p :: ps).count '\n' := List.one_le_count_iff.mpr hmem
        have hgoal1 : (c :: p :: ps) ++ l ++ S = c :: ((p :: ps) ++ l ++ S) := by
          simp
        rw [hgoal1, splitLinesCh_cons_other c _ hc]
        cases hs : splitLinesCh ((p :: ps) ++ l ++ S) with
        | nil => exact absurd hs (splitLinesCh_ne_nil _)
        | cons hd tl =>
          rw [hs] at hih
          have hred : (match hd :: tl with
            | [] => [[c]]
            | l2 :: ls => (c :: l2) :: ls) = (c :: hd) :: tl := rfl
          rw [hred]
          have hcnt : List.count '\n' (c :: p :: ps) = List.count '\n' (p :: ps) := by
            simp [List.count_cons, hc]
          rw [hcnt]
          obtain ⟨m, hm⟩ : ∃ m, List.count '\n' (p :: ps) = m + 1 :=
            ⟨List.count '\n' (p :: ps) - 1, by
              simp only [List.count_eq_countP] at hcount ⊢
              omega⟩
          rw [hm] at hih ⊢
          rw [List.get?_cons_succ] at hih ⊢
          exact hih

/-- A line with no edit keeps its text. -/
theorem editLines_get_of_none :
    ∀ (ls : List Str) (es : List (Option ((Nat × Nat) × Str))) (j : Nat),
      (es.get? j = some none ∨ es.get? j = none) →
      (editLines ls es).get? j = ls.get? j := by
  intro ls
  induction ls with
  | nil =>
    intro es j _
    simp [editLines]
  | cons l ls2 ih =>
    intro es j hj
    cases es with
    | nil =>
      rw [editLines_nil_es]
    | cons o es2 =>
      cases j with
      | zero =>
        simp only [List.get?_cons_zero, Option.some.injEq] at hj
        rcases hj with hj | hj
        · subst hj
          simp [editLines]
        · exact absurd hj (by simp)
      | succ j2 =>
        simp only [List.get?_cons_succ] at hj
        cases o with
        | none =>
          simp only [editLines, List.get?_cons_succ]
          exact ih es2 j2 hj
        | some t =>
          obtain ⟨⟨s, e⟩, v⟩ := t
          simp only [editLines, List.get?_cons_succ]
          exact ih es2 j2 hj

/-! ## Sorting lemmas -/

/-- Inserting is a permutation. -/
theorem insertByEndDesc_perm (x : (Nat × Nat) × Str) :
    ∀ ts, List.Perm (insertByEndDesc x ts) (x :: ts) := by
  intro ts
  induction ts with
  | nil => rfl
  | cons y ys ih =>
    simp only [insertByEndDesc]
    by_cases h : y.1.2 < x.1.2
    · rw [if_pos h]
    · rw [if_neg h]
      exact (ih.cons y).trans (List.Perm.swap x y ys)

/-- Sorting is a permutation. -/
theorem sortByEndDesc_perm : ∀ ts, List.Perm (sortByEndDesc ts) ts := by
  intro ts
  induction ts with
  | nil => rfl
  | cons x xs ih =>
    exact (insertByEndDesc_perm x (sortByEndDesc xs)).trans (ih.cons x)

/-- Inserting preserves the descending-by-end order. -/
theorem insertByEndDesc_sorted (x : (Nat × Nat) × Str) :
    ∀ ts, List.Pairwise (fun a b => b.1.2 ≤ a.1.2) ts →
      List.Pairwise (fun a b => b.1.2 ≤ a.1.2) (insertByEndDesc x ts) := by
  intro ts
  induction ts with
  | nil =>
    intro _
    simp [insertByEndDesc]
  | cons y ys ih =>
    intro hp
    rw [List.pairwise_cons] at hp
    simp only [insertByEndDesc]
    by_cases h : y.1.2 < x.1.2
    · rw [if_pos h]
      refine List.Pairwise.cons ?_ (List.Pairwise.cons hp.1 hp.2)
      intro z hz
      rcases List.mem_cons.mp hz with rfl | hz2
      · omega
      · have := hp.1 z hz2
        omega
    · rw [if_neg h]
      refine List.Pairwise.cons ?_ (ih hp.2)
      intro z hz
      have hz2 := (insertByEndDesc_perm x ys).mem_iff.mp hz
      rcases List.mem_cons.mp hz2 with rfl | hz3
      · omega
      · exact hp.1 z hz3

/-- The sort is sorted by descending span end. -/
theorem sortByEndDesc_sorted :
    ∀ ts, List.Pairwise (fun a b => b.1.2 ≤ a.1.2) (sortByEndDesc ts) := by
  intro ts
  induction ts with
  | nil => simp [sortByEndDesc]
  | cons x xs ih => exact insertByEndDesc_sorted x (sortByEndDesc xs) ih

/-- Weak descending order plus distinct ends gives strict descending order. -/
theorem pairwise_lt_of_le_nodup :
    ∀ ts : List ((Nat × Nat) × Str),
      List.Pairwise (fun a b => b.1.2 ≤ a.1.2) ts →
      (ts.map (·.1.2)).Nodup →
      List.Pairwise (fun a b => b.1.2 < a.1.2) ts := by
  intro ts
  induction ts with
  | nil =>
    intro _ _
    simp
  | cons x xs ih =>
    intro hp hnd
    rw [List.pairwise_cons] at hp
    simp only [List.map_cons, List.nodup_cons] at hnd
    refine List.Pairwise.cons ?_ (ih hp.2 hnd.2)
    intro z hz
    have h1 := hp.1 z hz
    have h2 : z.1.2 ≠ x.1.2 := by
      intro hc
      exact hnd.1 (by rw [← hc]; exact List.mem_map_of_mem (·.1.2) hz)
    omega

/-- A permutation between two strictly descending lists is an equality. -/
theorem eq_of_perm_of_sorted_desc (ts1 ts2 : List ((Nat × Nat) × Str))
    (hperm : List.Perm ts1 ts2)
    (h1 : List.Pairwise (fun a b => b.1.2 < a.1.2) ts1)
    (h2 : List.Pairwise (fun a b => b.1.2 < a.1.2) ts2) :
    ts1 = ts2 := by
  haveI : IsAntisymm ((Nat × Nat) × Str) (fun a b => b.1.2 < a.1.2) :=
    ⟨fun a b hab hba => absurd hab (by omega)⟩
  exact List.eq_of_perm_of_sorted hperm h1 h2

/-! ## Definition provenance -/

/-- Every parsed definition comes from a line, at the line's offset. -/
theorem parseLinesGo_member :
    ∀ (lines : List Str) (off : Nat) (ds : List RawDef),
      parseLinesGo off lines = .ok ds →
      ∀ rd ∈ ds, ∃ j line ld, lines.get? j = some line ∧
        parseLine line = .ok (some ld) ∧
        rd = ⟨ld.name, ld.kind, ld.raw, off + offsetOfLine lines j + ld.vstart,
          off + offsetOfLine lines j + ld.vstop⟩ := by
  intro lines
  induction lines with
  | nil =>
    intro off ds h rd hrd
    simp only [parseLinesGo] at h
    cases h
    simp at hrd
  | cons line rest ih =>
    intro off ds h rd hrd
    simp only [parseLinesGo] at h
    split at h
    · simp at h
    · rename_i hpl
      obtain ⟨j, line2, ld, hget, hpl2, hrd2⟩ := ih (off + line.length + 1) ds h rd hrd
      refine ⟨j + 1, line2, ld, by simpa using hget, hpl2, ?_⟩
      rw [hrd2]
      simp only [offsetOfLine, RawDef.mk.injEq, true_and]
      omega
    · rename_i ld hpl
      split at h
      · simp at h
      · rename_i ds2 hrec
        simp only [Except.ok.injEq] at h
        subst h
        rcases List.mem_cons.mp hrd with rfl | hmem
        · exact ⟨0, line, ld, rfl, hpl, by simp [offsetOfLine]⟩
        · obtain ⟨j, line2, ld2, hget, hpl2, hrd2⟩ :=
            ih (off + line.length + 1) ds2 hrec rd hmem
          refine ⟨j + 1, line2, ld2, by simpa using hget, hpl2, ?_⟩
          rw [hrd2]
          simp only [offsetOfLine, RawDef.mk.injEq, true_and]
          omega

/-- Joining newline-free lines and splitting again recovers the lines. -/
theorem splitLinesCh_joinLines :
    ∀ ls : List Str, ls ≠ [] → (∀ l ∈ ls, '\n' ∉ l) →
      splitLinesCh (joinLines ls) = ls := by
  intro ls
  induction ls with
  | nil =>
    intro h _
    exact absurd rfl h
  | cons l ls2 ih =>
    intro _ hnl
    cases ls2 with
    | nil =>
      simp only [joinLines]
      exact split_of_no_newline l (hnl l (by simp))
    | cons l2 ls3 =>
      rw [joinLines_cons l (l2 :: ls3) (by simp)]
      rw [split_append_newline l (hnl l (by simp)) (joinLines (l2 :: ls3))]
      rw [ih (by simp) (fun x hx => hnl x (List.mem_cons_of_mem _ hx))]

/-- Inversion of a present aligned edit entry. -/
theorem esLineEntry_some (d : DotenvFile) (edits : List (Str × Str)) (off : Nat)
    (line : Str) (s e : Nat) (v : Str)
    (h : esLineEntry d edits off line = some ((s, e), v)) :
    ∃ ld, parseLine line = .ok (some ld) ∧ ld.name ∉ d.referenced ∧
      lookupP edits ld.name = some v ∧
      lookupP d.value_spans ld.name = some (off + ld.vstart, off + ld.vstop) ∧
      s = ld.vstart ∧ e = ld.vstop := by
  simp only [esLineEntry] at h
  split at h
  · rename_i ld hpl
    split at h
    · simp at h
    · rename_i href
      split at h
      · rename_i v2 hlk
        split at h
        · rename_i hsp
          simp only [Option.some.injEq, Prod.mk.injEq] at h
          obtain ⟨⟨hs, he⟩, hv⟩ := h
          subst hv
          exact ⟨ld, hpl, href, hlk, hsp, hs.symm, he.symm⟩
        · simp at h
      · simp at h
  · simp at h

/-- The aligned per-line edits of parsed lines are within their lines. -/
theorem esAligned_EsOK (d : DotenvFile) (edits : List (Str × Str)) :
    ∀ (lines : List Str) (off : Nat),
      EsOK lines (esAligned d edits off lines) := by
  intro lines
  induction lines with
  | nil =>
    intro off
    simp [esAligned, EsOK]
  | cons line rest ih =>
    intro off
    simp only [esAligned, EsOK]
    refine ⟨?_, ih (off + line.length + 1)⟩
    cases hentry : esLineEntry d edits off line with
    | none => trivial
    | some t =>
      obtain ⟨⟨s, e⟩, v⟩ := t
      obtain ⟨ld, hpl, _, _, _, hs, he⟩ :=
        esLineEntry_some d edits off line s e v hentry
      have hb := parseLine_bounds line ld hpl
      subst hs
      subst he
      exact ⟨hb.1, hb.2⟩

/-- The entry of an aligned edit list at a line index. -/
theorem esAligned_get (d : DotenvFile) (edits : List (Str × Str)) :
    ∀ (lines : List Str) (off : Nat) (j : Nat) (line : Str),
      lines.get? j = some line →
      (esAligned d edits off lines).get? j =
        some (esLineEntry d edits (off + offsetOfLine lines j) line) := by
  intro lines
  induction lines with
  | nil =>
    intro off j line h
    simp at h
  | cons l0 rest ih =>
    intro off j line h
    cases j with
    | zero =>
      simp only [List.get?_cons_zero, Option.some.injEq] at h
      subst h
      simp [esAligned, offsetOfLine]
    | succ j2 =>
      simp only [List.get?_cons_succ] at h
      simp only [esAligned, List.get?_cons_succ, offsetOfLine]
      rw [ih (off + l0.length + 1) j2 line h]
      have harith : off + l0.length + 1 + offsetOfLine rest j2 =
          off + (l0.length + 1 + offsetOfLine rest j2) := by omega
      rw [harith]

/-- The spans of an aligned edit list are strictly increasing (in particular
their ends are pairwise distinct). -/
theorem triplesOf_pairwise :
    ∀ (lines : List Str) (es : List (Option ((Nat × Nat) × Str))) (off : Nat),
      EsOK lines es →
      List.Pairwise (fun a b => a.1.2 < b.1.2) (triplesOf off lines es) := by
  intro lines
  induction lines with
  | nil =>
    intro es off _
    simp [triplesOf]
  | cons l ls ih =>
    intro es off hok
    cases es with
    | nil => simp [triplesOf]
    | cons o es2 =>
      obtain ⟨ho, hes2⟩ := hok
      cases o with
      | none =>
        simp only [triplesOf]
        exact ih es2 (off + l.length + 1) hes2
      | some t =>
        obtain ⟨⟨s, e⟩, v⟩ := t
        obtain ⟨ho1, ho2⟩ := ho
        simp only [triplesOf]
        refine List.Pairwise.cons ?_ (ih es2 (off + l.length + 1) hes2)
        intro z hz
        obtain ⟨hz1, hz2⟩ := triplesOf_spans_le ls es2 (off + l.length + 1) hes2 z hz
        show off + e < z.1.2
        omega

/-- The aligned triples of a parsed document are the in-place replacement
triples, one per parsed definition that is edited, unreferenced, and holds the
recorded span of its name. -/
theorem triplesOf_esAligned_eq (d : DotenvFile) (edits : List (Str × Str)) :
    ∀ (lines : List Str) (off : Nat) (ds : List RawDef),
      parseLinesGo off lines = .ok ds →
      triplesOf off lines (esAligned d edits off lines) =
        ds.filterMap (fun rd =>
          if rd.name ∈ d.referenced then none
          else
            match lookupP edits rd.name with
            | some v =>
              if lookupP d.value_spans rd.name = some (rd.vstart, rd.vstop) then
                some ((rd.vstart, rd.vstop), v)
              else none
            | none => none) := by
  intro lines
  induction lines with
  | nil =>
    intro off ds h
    simp only [parseLinesGo] at h
    cases h
    simp [esAligned, triplesOf]
  | cons line rest ih =>
    intro off ds h
    simp only [parseLinesGo] at h
    split at h
    · simp at h
    · rename_i hpl
      have hentry : esLineEntry d edits off line = none := by
        simp [esLineEntry, hpl]
      simp only [esAligned, hentry, triplesOf]
      exact ih (off + line.length + 1) ds h
    · rename_i ld hpl
      split at h
      · simp at h
      · rename_i ds2 hrec
        simp only [Except.ok.injEq] at h
        subst h
        have hrest := ih (off + line.length + 1) ds2 hrec
        simp only [esAligned, esLineEntry, hpl, List.filterMap_cons]
        by_cases href : ld.name ∈ d.referenced
        · simp only [if_pos href, triplesOf]
          exact hrest
        · simp only [if_neg href]
          cases hlk : lookupP edits ld.name with
          | none =>
            simp only [triplesOf]
            exact hrest
          | some v =>
            by_cases hsp :
                lookupP d.value_spans ld.name = some (off + ld.vstart, off + ld.vstop)
            · simp only [if_pos hsp, triplesOf]
              rw [hrest]
            · simp only [if_neg hsp, triplesOf]
              exact hrest

/-- Inversion of a successful document parse. -/
theorem parse_ok_inv (src : Str) (d : DotenvFile)
    (h : DotenvFile.parse src = .ok d) :
    ∃ ds st, parseLinesGo 0 (splitLinesCh src) = .ok ds ∧
      runDefs ⟨[], [], []⟩ ds = .ok st ∧
      d = ⟨src, st.parameters, st.value_spans, st.referenced, none⟩ := by
  simp only [DotenvFile.parse, parseGrammar] at h
  split at h
  · simp at h
  · rename_i ds hg
    split at h
    · simp at h
    · rename_i st hr
      simp only [Except.ok.injEq] at h
      exact ⟨ds, st, hg, hr, h.symm⟩

/-- Two names with the same recorded value span are equal: spans of distinct
definitions are disjoint. -/
theorem parse_spans_inj (src : Str) (d : DotenvFile)
    (hparse : DotenvFile.parse src = .ok d) (n1 n2 : Str) (sp : Nat × Nat)
    (h1 : lookupP d.value_spans n1 = some sp)
    (h2 : lookupP d.value_spans n2 = some sp) : n1 = n2 := by
  obtain ⟨ds, st, hg, hr, hd⟩ := parse_ok_inv src d hparse
  subst hd
  simp only at h1 h2
  have hb := parseLinesGo_bounds (splitLinesCh src) 0 ds hg
  rcases runDefs_spans ds ⟨[], [], []⟩ st hr n1 sp h1 with hc1 | ⟨rd1, hm1, hn1, hs1⟩
  · simp [lookupP] at hc1
  rcases runDefs_spans ds ⟨[], [], []⟩ st hr n2 sp h2 with hc2 | ⟨rd2, hm2, hn2, hs2⟩
  · simp [lookupP] at hc2
  by_cases heq : rd1 = rd2
  · rw [← hn1, ← hn2, heq]
  · have hor := pairwise_mem_or _ ds hb.2 rd1 rd2 hm1 hm2 heq
    obtain ⟨_, h11, _⟩ := hb.1 rd1 hm1
    obtain ⟨_, h21, _⟩ := hb.1 rd2 hm2
    have hsp12 : rd1.vstart = rd2.vstart ∧ rd1.vstop = rd2.vstop := by
      rw [hs1] at hs2
      exact ⟨congrArg Prod.fst hs2, congrArg Prod.snd hs2⟩
    rcases hor with hlt | hlt
    · omega
    · omega

/-- The list of in-place replacements, sorted by descending span end, is
exactly the reversed list of aligned line triples: `replace`'s in-place pass
coincides with the line-wise description. -/
theorem sortByEndDesc_replaced_eq (src : Str) (d : DotenvFile)
    (edits : List (Str × Str))
    (hparse : DotenvFile.parse src = .ok d)
    (hnodup : (edits.map (fun kv => kv.1)).Nodup) :
    sortByEndDesc (edits.filterMap (fun kv =>
        if kv.1 ∉ d.referenced then
          (lookupP d.value_spans kv.1).map (fun sp => (sp, kv.2))
        else none)) =
      (triplesOf 0 (splitLinesCh src)
        (esAligned d edits 0 (splitLinesCh src))).reverse := by
  obtain ⟨ds, st, hg, hr, hd⟩ := parse_ok_inv src d hparse
  have htri := triplesOf_esAligned_eq d edits (splitLinesCh src) 0 ds hg
  have hesok := esAligned_EsOK d edits (splitLinesCh src) 0
  have hplt := triplesOf_pairwise (splitLinesCh src)
    (esAligned d edits 0 (splitLinesCh src)) 0 hesok
  have htnd : (triplesOf 0 (splitLinesCh src)
      (esAligned d edits 0 (splitLinesCh src))).Nodup := by
    refine List.Pairwise.imp ?_ hplt
    intro a b hab hc
    rw [hc] at hab
    omega
  have htendnd : ((triplesOf 0 (splitLinesCh src)
      (esAligned d edits 0 (splitLinesCh src))).map (fun t => t.1.2)).Nodup := by
    rw [List.Nodup, List.pairwise_map]
    refine List.Pairwise.imp ?_ hplt
    intro a b hab
    omega
  have hmem : ∀ t, t ∈ edits.filterMap (fun kv =>
      if kv.1 ∉ d.referenced then
        (lookupP d.value_spans kv.1).map (fun sp => (sp, kv.2))
      else none) ↔
      t ∈ triplesOf 0 (splitLinesCh src) (esAligned d edits 0 (splitLinesCh src)) := by
    intro t
    rw [htri]
    constructor
    · intro ht
      obtain ⟨kv, hkv, hf⟩ := List.mem_filterMap.mp ht
      by_cases hrf : kv.1 ∉ d.referenced
      · rw [if_pos hrf] at hf
        cases hlk : lookupP d.value_spans kv.1 with
        | none => rw [hlk] at hf; simp at hf
        | some sp =>
          rw [hlk] at hf
          simp only [Option.map_some', Option.some.injEq] at hf
          subst hf
          have hlk2 : lookupP d.value_spans kv.1 = some sp := hlk
          rw [hd] at hlk2
          rcases runDefs_spans ds ⟨[], [], []⟩ st hr kv.1 sp hlk2 with hc | ⟨rd, hm, hn, hs⟩
          · simp [lookupP] at hc
          refine List.mem_filterMap.mpr ⟨rd, hm, ?_⟩
          have hlke : lookupP edits kv.1 = some kv.2 := by
            refine mem_lookupP_of_nodup edits hnodup kv.1 kv.2 ?_
            simpa using hkv
          subst hs
          simp [hn, hlke, hlk, hrf]
      · rw [if_neg hrf] at hf
        simp at hf
    · intro ht
      obtain ⟨rd, hm, hf⟩ := List.mem_filterMap.mp ht
      by_cases hrf : rd.name ∈ d.referenced
      · rw [if_pos hrf] at hf
        simp at hf
      · rw [if_neg hrf] at hf
        cases hlk : lookupP edits rd.name with
        | none => rw [hlk] at hf; simp at hf
        | some v =>
          simp only [hlk] at hf
          by_cases hsp : lookupP d.value_spans rd.name = some (rd.vstart, rd.vstop)
          · rw [if_pos hsp] at hf
            simp only [Option.some.injEq] at hf
            subst hf
            refine List.mem_filterMap.mpr ⟨(rd.name, v), lookupP_mem edits rd.name v hlk, ?_⟩
            rw [if_pos (by simpa using hrf)]
            simp [hsp]
          · rw [if_neg hsp] at hf
            simp at hf
  have hrnd : (edits.filterMap (fun kv =>
      if kv.1 ∉ d.referenced then
        (lookupP d.value_spans kv.1).map (fun sp => (sp, kv.2))
      else none)).Nodup := by
    refine List.Nodup.filterMap ?_ (List.Nodup.of_map _ hnodup)
    intro kv kv2 t h1 h2
    have hsome : ∀ kv3 : Str × Str, t ∈ (if kv3.1 ∉ d.referenced then
        (lookupP d.value_spans kv3.1).map (fun sp => (sp, kv3.2))
      else none) →
        lookupP d.value_spans kv3.1 = some t.1 ∧ kv3.2 = t.2 := by
      intro kv3 h3
      by_cases hrf : kv3.1 ∉ d.referenced
      · rw [if_pos hrf] at h3
        cases hlk : lookupP d.value_spans kv3.1 with
        | none => rw [hlk] at h3; simp at h3
        | some sp =>
          rw [hlk] at h3
          simp only [Option.map_some', Option.mem_def, Option.some.injEq] at h3
          subst h3
          exact ⟨rfl, rfl⟩
      · rw [if_neg hrf] at h3
        simp at h3
    obtain ⟨hl1, hv1⟩ := hsome kv h1
    obtain ⟨hl2, hv2⟩ := hsome kv2 h2
    have hn12 : kv.1 = kv2.1 := parse_spans_inj src d hparse kv.1 kv2.1 t.1 hl1 hl2
    have hv12 : kv.2 = kv2.2 := by rw [hv1, hv2]
    exact Prod.ext hn12 hv12
  have hperm : List.Perm (sortByEndDesc (edits.filterMap (fun kv =>
      if kv.1 ∉ d.referenced then
        (lookupP d.value_spans kv.1).map (fun sp => (sp, kv.2))
      else none)))
      ((triplesOf 0 (splitLinesCh src)
        (esAligned d edits 0 (splitLinesCh src))).reverse) := by
    refine (sortByEndDesc_perm _).trans ?_
    refine List.Perm.trans ?_ (List.reverse_perm _).symm
    exact (List.perm_ext_iff_of_nodup hrnd htnd).mpr hmem
  refine eq_of_perm_of_sorted_desc _ _ hperm ?_ ?_
  · refine pairwise_lt_of_le_nodup _ (sortByEndDesc_sorted _) ?_
    have hpm : List.Perm ((sortByEndDesc (edits.filterMap (fun kv =>
        if kv.1 ∉ d.referenced then
          (lookupP d.value_spans kv.1).map (fun sp => (sp, kv.2))
        else none))).map (fun t => t.1.2))
        (((triplesOf 0 (splitLinesCh src)
          (esAligned d edits 0 (splitLinesCh src))).reverse).map (fun t => t.1.2)) :=
      hperm.map _
    refine hpm.nodup_iff.mpr ?_
    rw [List.map_reverse, List.nodup_reverse]
    exact htendnd
  · rw [List.pairwise_reverse]
    exact hplt

/-- The fold that appends the added definitions appends onto any prefix. -/
theorem foldl_append_defs :
    ∀ (l : List (Str × Str)) (acc : Str),
      ∃ t, l.foldl (fun acc kv => acc ++ kv.1 ++ '=' :: escape kv.2 ++ ['\n']) acc =
        acc ++ t := by
  intro l
  induction l with
  | nil =>
    intro acc
    exact ⟨[], by simp⟩
  | cons kv rest ih =>
    intro acc
    obtain ⟨t, ht⟩ := ih (acc ++ kv.1 ++ '=' :: escape kv.2 ++ ['\n'])
    refine ⟨kv.1 ++ '=' :: escape kv.2 ++ '\n' :: t, ?_⟩
    simp only [List.foldl_cons, ht]
    simp

/-- The append phase of `replace` only appends to the in-place content. -/
theorem append_defs_tail (added : List (Str × Str)) (content : Str) :
    ∃ tail, (if added.isEmpty then content
      else
        added.foldl (fun acc kv => acc ++ kv.1 ++ '=' :: escape kv.2 ++ ['\n'])
          (match content.getLast? with
           | some c => if c ≠ '\n' then content ++ ['\n'] else content
           | none => content)) = content ++ tail := by
  split
  · exact ⟨[], by simp⟩
  · cases hl : content.getLast? with
    | none =>
      exact foldl_append_defs added content
    | some c =>
      show ∃ tail,
        added.foldl (fun acc kv => acc ++ kv.1 ++ '=' :: escape kv.2 ++ ['\n'])
          (if c ≠ '\n' then content ++ ['\n'] else content) = content ++ tail
      by_cases hc : c ≠ '\n'
      · rw [if_pos hc]
        obtain ⟨t, ht⟩ := foldl_append_defs added (content ++ ['\n'])
        refine ⟨'\n' :: t, ?_⟩
        rw [ht]
        simp
      · rw [if_neg hc]
        exact foldl_append_defs added content

/-- The text returned by `replace` is the edited lines joined, followed by the
appended definitions (if any). -/
theorem replace_shape (src : Str) (d : DotenvFile) (edits : List (Str × Str))
    (hparse : DotenvFile.parse src = .ok d)
    (hnodup : (edits.map (fun kv => kv.1)).Nodup) :
    ∃ tail, d.replace edits =
      joinLines (editLines (splitLinesCh src)
        (esAligned d edits 0 (splitLinesCh src))) ++ tail := by
  have hsrc : d.source = src := by
    obtain ⟨ds, st, hg, hr, hd⟩ := parse_ok_inv src d hparse
    rw [hd]
  have hcontent : (sortByEndDesc (edits.filterMap (fun kv =>
      if kv.1 ∉ d.referenced then
        (lookupP d.value_spans kv.1).map (fun sp => (sp, kv.2))
      else none))).foldl
        (fun acc spv => replaceRange acc spv.1.1 spv.1.2 (escape spv.2)) d.source =
      joinLines (editLines (splitLinesCh src)
        (esAligned d edits 0 (splitLinesCh src))) := by
    rw [sortByEndDesc_replaced_eq src d edits hparse hnodup, hsrc]
    have h2 := applyDesc_triples (splitLinesCh src)
      (esAligned d edits 0 (splitLinesCh src)) (esAligned_EsOK d edits (splitLinesCh src) 0)
    rw [joinLines_splitLinesCh] at h2
    exact h2
  obtain ⟨tail, htail⟩ := append_defs_tail
    (edits.filter (fun kv =>
      ¬ (kv.1 ∉ d.referenced ∧ (lookupP d.value_spans kv.1).isSome)))
    ((sortByEndDesc (edits.filterMap (fun kv =>
        if kv.1 ∉ d.referenced then
          (lookupP d.value_spans kv.1).map (fun sp => (sp, kv.2))
        else none))).foldl
      (fun acc spv => replaceRange acc spv.1.1 spv.1.2 (escape spv.2)) d.source)
  refine ⟨tail, ?_⟩
  rw [← hcontent]
  exact htail

/-! ## C4: parsed-document invariants (corrected) -/

/-- C4 amended: in every successfully parsed document, every name in
`value_spans` is also a key of `parameters`, and the recorded spans are
well-formed byte ranges within the source that do not overlap for distinct
names.  (A name in `referenced` may however keep its entry in `value_spans`;
see the counterexample.) -/
theorem parse_invariants (src : Str) (d : DotenvFile)
    (h : DotenvFile.parse src = .ok d) :
    (∀ n sp, lookupP d.value_spans n = some sp →
      (lookupP d.parameters n).isSome = true ∧ sp.1 ≤ sp.2 ∧ sp.2 ≤ d.source.length) ∧
    (∀ n1 sp1 n2 sp2, lookupP d.value_spans n1 = some sp1 →
      lookupP d.value_spans n2 = some sp2 → n1 ≠ n2 →
      sp1.2 ≤ sp2.1 ∨ sp2.2 ≤ sp1.1) := by
  simp only [DotenvFile.parse, parseGrammar] at h
  split at h
  · simp at h
  · rename_i defs hdefs
    split at h
    · simp at h
    · rename_i st hrun
      simp only [Except.ok.injEq] at h
      subst h
      have hbounds := parseLinesGo_bounds (splitLinesCh src) 0 defs hdefs
      have hsrc : (joinLines (splitLinesCh src)).length = src.length := by
        rw [joinLines_splitLinesCh]
      constructor
      · intro n sp hl
        simp only [] at hl
        have hkeys := runDefs_keys defs ⟨[], [], []⟩ st hrun
          (by intro m hm; simp [lookupP] at hm) n (by simp [hl])
        rcases runDefs_spans defs _ _ hrun n sp hl with hinit | ⟨rd, hm, hn, hsp⟩
        · simp [lookupP] at hinit
        · obtain ⟨h1, h2, h3⟩ := hbounds.1 rd hm
          subst hsp
          refine ⟨hkeys, by simpa using h2, ?_⟩
          simp only []
          omega
      · intro n1 sp1 n2 sp2 hl1 hl2 hne
        simp only [] at hl1 hl2
        rcases runDefs_spans defs _ _ hrun n1 sp1 hl1 with hinit | ⟨rd1, hm1, hn1, hsp1⟩
        · simp [lookupP] at hinit
        rcases runDefs_spans defs _ _ hrun n2 sp2 hl2 with hinit | ⟨rd2, hm2, hn2, hsp2⟩
        · simp [lookupP] at hinit
        have hrdne : rd1 ≠ rd2 := by
          intro hc
          rw [hc, hn2] at hn1
          exact hne hn1.symm
        subst hsp1
        subst hsp2
        rcases pairwise_mem_or _ defs hbounds.2 rd1 rd2 hm1 hm2 hrdne with hr | hr
        · left
          simp only []
          omega
        · right
          simp only []
          omega

/-- Witness for the amended C4 at a concrete two-line document. -/
theorem parse_invariants_witness :
    DotenvFile.parse "A=1\nB=2".data =
      .ok ⟨"A=1\nB=2".data, [(['B'], ['2']), (['A'], ['1'])],
        [(['B'], (6, 7)), (['A'], (2, 3))], [], none⟩ ∧
    ((∀ n sp, lookupP ([(['B'], (6, 7)), (['A'], (2, 3))] : List (Str × (Nat × Nat))) n =
        some sp →
      (lookupP ([(['B'], ['2']), (['A'], ['1'])] : List (Str × Str)) n).isSome = true ∧
        sp.1 ≤ sp.2 ∧ sp.2 ≤ ("A=1\nB=2".data).length) ∧
     (∀ n1 sp1 n2 sp2,
        lookupP ([(['B'], (6, 7)), (['A'], (2, 3))] : List (Str × (Nat × Nat))) n1 = some sp1 →
        lookupP ([(['B'], (6, 7)), (['A'], (2, 3))] : List (Str × (Nat × Nat))) n2 = some sp2 →
        n1 ≠ n2 → sp1.2 ≤ sp2.1 ∨ sp2.2 ≤ sp1.1)) :=
  ⟨by rfl,
    parse_invariants "A=1\nB=2".data
      ⟨"A=1\nB=2".data, [(['B'], ['2']), (['A'], ['1'])],
        [(['B'], (6, 7)), (['A'], (2, 3))], [], none⟩ (by rfl)⟩

/-- C4 counterexample: parsing `A=1` then `B=$A` puts `A` into `referenced`
(the definition of `B` expands it) while `A` also keeps its entry in
`value_spans`, so a name in `referenced` can be a key of `value_spans`,
contrary to the claim. -/
theorem referenced_name_keeps_span :
    parseRefd "A=1\nB=$A".data = some [['A']] ∧
    (parseSpans "A=1\nB=$A".data).map (fun m => (lookupP m ['A']).isSome) = some true := by
  decide

/-! ## C1: the reconciliation policy table -/

/-- C1: for every sync mode and every pair of optional timestamps,
`SyncType::from_modified` returns exactly the decision given by the spec's
policy table (both present within one minute → skip "unchanged" except the
always-modes, which transfer in their direction; local strictly newer → push
except under pull, where it skips "pull disabled", and under pull-always,
which pulls with the remote timestamp; only local → push except pull/"pull
disabled" and pull-always/"nothing to pull"; symmetrically for remote; neither
present → skip "not found"). -/
theorem from_modified_matches_policy_table {T Push Pull Skip : Type}
    (sync_mode : SyncMode)
    (local_modified remote_modified : Option Int)
    (seed : T)
    (push : Int → T → Push)
    (pull : Int → T → Pull)
    (skip : T → Skip) :
    SyncType.from_modified sync_mode local_modified remote_modified seed push pull skip =
      specPolicyTable sync_mode local_modified remote_modified seed push pull skip := by
  cases local_modified with
  | none =>
    cases remote_modified with
    | none => rfl
    | some r => rfl
  | some l =>
    cases remote_modified with
    | none => rfl
    | some r =>
      unfold SyncType.from_modified specPolicyTable
      rcases lt_or_ge (|l - r|) oneMinute with h | h
      · simp [h]
      · have h1 : ¬ |l - r| < oneMinute := not_lt.mpr h
        rcases le_abs.mp h with h2 | h2
        · -- l - r ≥ oneMinute : local strictly newer
          have hgt : l > r := by
            simp only [oneMinute] at h2
            omega
          simp [h1, hgt, h2]
        · -- l - r ≤ -oneMinute : remote strictly newer
          have hgt : ¬ l > r := by
            simp only [oneMinute] at h2
            omega
          have hge : ¬ l - r ≥ oneMinute := by
            simp only [oneMinute] at h2 ⊢
            omega
          simp [h1, hgt, hge]

/-! ## C10: replace with no edits is the identity -/

/-- C10: for every document (in particular every parsed one), `replace` with an
empty edit map returns the original source text byte-for-byte: nothing is
replaced, no trailing newline is added and nothing is appended.  The embedding
of `replace` is a pure function of the document, which mirrors that the Rust
method takes `&self` and never mutates the document. -/
theorem replace_empty_eq_source (d : DotenvFile) :
    d.replace [] = d.source := by
  simp [DotenvFile.replace, sortByEndDesc]


/-! ## Expansion pass-through and congruence -/

/-- Destructuring of `noExpandStr` on a cons. -/
theorem noExpandStr_cons (c : Char) (rest : Str)
    (h : noExpandStr (c :: rest) = true) :
    (c = '\\' ∧ (rest = [] ∨ ∃ c2 rest2, rest = c2 :: rest2 ∧ noExpandStr rest2 = true)) ∨
    (c ≠ '\\' ∧ c ≠ '$' ∧ noExpandStr rest = true) := by
  by_cases hb : c = '\\'
  · subst hb
    cases rest with
    | nil => exact Or.inl ⟨rfl, Or.inl rfl⟩
    | cons c2 rest2 =>
      refine Or.inl ⟨rfl, Or.inr ⟨c2, rest2, rfl, ?_⟩⟩
      simpa [noExpandStr] using h
  · rw [noExpandStr.eq_def] at h
    simp only [if_neg hb, Bool.and_eq_true, decide_eq_true_eq] at h
    exact Or.inr ⟨hb, h.1, h.2⟩

/-- The expansion machine passes a protected text through verbatim, reporting
no name. -/
theorem expandF_noExpand (params : List (Str × Str)) :
    ∀ f w, expFuel .notExpanding w ≤ f → noExpandStr w = true →
      expandF params f .notExpanding w = (w, []) := by
  intro f
  induction f with
  | zero =>
    intro w hf _
    simp [expFuel] at hf
  | succ f ih =>
    intro w hf hs
    cases w with
    | nil => simp [expandF]
    | cons c rest =>
      simp only [expFuel, ExpState.rank, List.length_cons] at hf
      rcases noExpandStr_cons c rest hs with ⟨hb, hrest⟩ | ⟨hb, hc, hrest⟩
      · subst hb
        rcases hrest with rfl | ⟨c2, rest2, rfl, hs2⟩
        · simp [expandF, show ¬ ('\\' : Char) = '$' from by decide]
        · simp only [List.length_cons] at hf
          have hrec := ih rest2 (by simp [expFuel, ExpState.rank]; omega) hs2
          simp [expandF, show ¬ ('\\' : Char) = '$' from by decide, hrec]
      · have hrec := ih rest (by simp [expFuel, ExpState.rank]; omega) hrest
        simp [expandF, if_neg hc, if_neg hb, hrec]

/-- Verbatim pass-through for `expand` itself. -/
theorem expand_noExpand (params : List (Str × Str)) (w : Str)
    (h : noExpandStr w = true) : expand params w = (w, []) :=
  expandF_noExpand params _ w (by simp) h

/-- The expansion machine only consults the mapping at the reported names, and
otherwise only through whether a name is bound: two mappings bound on the same
names and agreeing on the reported names expand identically. -/
theorem expandF_congr (p p2 : List (Str × Str))
    (hsome : ∀ n, (lookupP p2 n).isSome = (lookupP p n).isSome) :
    ∀ f s input,
      (∀ n, n ∈ (expandF p f s input).2 → lookupP p2 n = lookupP p n) →
      expandF p2 f s input = expandF p f s input := by
  intro f
  induction f with
  | zero =>
    intro s input _
    simp [expandF]
  | succ f ih =>
    intro s input hns
    cases s with
    | notExpanding =>
      cases input with
      | nil => simp [expandF]
      | cons c rest =>
        by_cases hc : c = '$'
        · simp only [expandF, if_pos hc] at hns ⊢
          exact ih .startExpansion rest hns
        · by_cases hb : c = '\\'
          · cases rest with
            | nil => simp [expandF, if_neg hc, if_pos hb]
            | cons c2 rest2 =>
              simp only [expandF, if_neg hc, if_pos hb] at hns ⊢
              rw [ih .notExpanding rest2 hns]
          · simp only [expandF, if_neg hc, if_neg hb] at hns ⊢
            rw [ih .notExpanding rest hns]
    | startExpansion =>
      cases input with
      | nil => simp [expandF]
      | cons c rest =>
        by_cases hc : c = '{'
        · simp only [expandF, if_pos hc] at hns ⊢
          exact ih (.bracedExpansion [] false) rest hns
        · by_cases hn : is_name_start c
          · simp only [expandF, if_neg hc, if_pos hn] at hns ⊢
            exact ih (.unbracedExpansion [c]) rest hns
          · simp only [expandF, if_neg hc, if_neg hn] at hns ⊢
            rw [ih .notExpanding (c :: rest) hns]
    | unbracedExpansion name =>
      cases input with
      | nil =>
        cases hl : lookupP p name with
        | some v =>
          have hval : lookupP p2 name = some v := by
            have := hns name (by simp [expandF, hl])
            rw [this, hl]
          simp [expandF, hl, hval]
        | none =>
          have hval : lookupP p2 name = none := by
            have h2 := hsome name
            rw [hl] at h2
            simp only [Option.isSome_none] at h2
            exact Option.not_isSome_iff_eq_none.mp (by simp [h2])
          simp [expandF, hl, hval]
      | cons c rest =>
        by_cases hn : isNameChar c
        · simp only [expandF, if_pos hn] at hns ⊢
          exact ih (.unbracedExpansion (name ++ [c])) rest hns
        · simp only [expandF, if_neg hn] at hns ⊢
          cases hl : lookupP p name with
          | some v =>
            have hval : lookupP p2 name = some v := by
              rw [hl] at hns
              have := hns name (by simp)
              rw [this, hl]
            rw [hl] at hns
            simp only [hl, hval]
            rw [ih .notExpanding (c :: rest) (fun n hn2 => hns n (by simp [hn2]))]
          | none =>
            have hval : lookupP p2 name = none := by
              have h2 := hsome name
              rw [hl] at h2
              simp only [Option.isSome_none] at h2
              exact Option.not_isSome_iff_eq_none.mp (by simp [h2])
            rw [hl] at hns
            simp only [hl, hval]
            exact ih .notExpanding (c :: rest) hns
    | bracedExpansion name invalid =>
      cases input with
      | nil => simp [expandF]
      | cons c rest =>
        by_cases h1 : is_name_start c
        · simp only [expandF, if_pos h1] at hns ⊢
          exact ih (.bracedExpansion (name ++ [c]) invalid) rest hns
        · by_cases h2 : c.isDigit
          · simp only [expandF, if_neg h1, if_pos h2] at hns ⊢
            exact ih (.bracedExpansion (name ++ [c]) invalid) rest hns
          · by_cases h3 : c = '}'
            · by_cases h4 : invalid = false
              · simp only [expandF, if_neg h1, if_neg h2, if_pos h3,
                  if_pos h4] at hns ⊢
                cases hl : lookupP p name with
                | some v =>
                  have hval : lookupP p2 name = some v := by
                    rw [hl] at hns
                    have := hns name (by simp)
                    rw [this, hl]
                  rw [hl] at hns
                  simp only [hl, hval]
                  rw [ih .notExpanding rest (fun n hn2 => hns n (by simp [hn2]))]
                | none =>
                  have hval : lookupP p2 name = none := by
                    have hsm := hsome name
                    rw [hl] at hsm
                    simp only [Option.isSome_none] at hsm
                    exact Option.not_isSome_iff_eq_none.mp (by simp [hsm])
                  rw [hl] at hns
                  simp only [hl, hval]
                  exact ih .notExpanding rest hns
              · simp only [expandF, if_neg h1, if_neg h2, if_pos h3,
                  if_neg h4] at hns ⊢
                exact ih .notExpanding rest hns
            · simp only [expandF, if_neg h1, if_neg h2, if_neg h3] at hns ⊢
              exact ih (.bracedExpansion name true) rest hns

/-- Congruence for `expand`. -/
theorem expand_congr (p p2 : List (Str × Str))
    (hsome : ∀ n, (lookupP p2 n).isSome = (lookupP p n).isSome)
    (w : Str) (hvals : ∀ n, n ∈ (expand p w).2 → lookupP p2 n = lookupP p n) :
    expand p2 w = expand p w :=
  expandF_congr p p2 hsome _ .notExpanding w hvals

/-! ## Set and span bookkeeping -/

/-- Membership in an inserted set. -/
theorem mem_insertS (s : List Str) (m n : Str) :
    n ∈ insertS s m ↔ n = m ∨ n ∈ s := by
  simp only [insertS]
  split
  · rename_i hm
    constructor
    · intro h
      exact Or.inr h
    · intro h
      rcases h with rfl | h
      · exact hm
      · exact h
  · simp [List.mem_cons]

/-- Membership in a folded insertion. -/
theorem mem_foldl_insertS :
    ∀ (ns : List Str) (s : List Str) (n : Str),
      (n ∈ s ∨ n ∈ ns) → n ∈ ns.foldl insertS s := by
  intro ns
  induction ns with
  | nil =>
    intro s n h
    rcases h with h | h
    · exact h
    · simp at h
  | cons m ms ih =>
    intro s n h
    simp only [List.foldl_cons]
    refine ih (insertS s m) n ?_
    rcases h with h | h
    · exact Or.inl ((mem_insertS s m n).mpr (Or.inr h))
    · rcases List.mem_cons.mp h with rfl | h2
      · exact Or.inl ((mem_insertS s n n).mpr (Or.inl rfl))
      · exact Or.inr h2

/-- Removing another name keeps membership. -/
theorem mem_removeS_of_ne (s : List Str) (m n : Str) (h : n ∈ s) (hne : n ≠ m) :
    n ∈ removeS s m := by
  simp only [removeS, List.mem_filter]
  exact ⟨h, by simpa using hne⟩

/-- A name in `referenced` with no later definition of it stays in
`referenced`. -/
theorem runDefs_referenced_mono :
    ∀ (ds : List RawDef) (st st2 : ParseState),
      runDefs st ds = .ok st2 → ∀ n, n ∈ st.referenced →
      (∀ rd ∈ ds, rd.name ≠ n) → n ∈ st2.referenced := by
  intro ds
  induction ds with
  | nil =>
    intro st st2 h n hn _
    simp only [runDefs] at h
    cases h
    exact hn
  | cons d0 ds2 ih =>
    intro st st2 h n hn hne
    simp only [runDefs] at h
    split at h
    · simp at h
    · rename_i st3 hstep
      obtain ⟨v, ns, hres, hp, hs, hr⟩ := stepDef_ok st d0 st3 hstep
      refine ih st3 st2 h n ?_ (fun rd hrd => hne rd (by simp [hrd]))
      rw [hr]
      refine mem_removeS_of_ne _ _ _ ?_ ?_
      · exact mem_foldl_insertS ns st.referenced n (Or.inl hn)
      · exact fun hc => hne d0 (by simp) hc.symm

/-- A name reported during one definition with no later definition of it is in
the final `referenced`. -/
theorem spanOfLast_mem :
    ∀ (ds : List RawDef) (n : Str) (sp : Nat × Nat),
      spanOfLast n ds = some sp →
      ∃ rd ∈ ds, rd.name = n ∧ sp = (rd.vstart, rd.vstop) := by
  intro ds
  induction ds with
  | nil =>
    intro n sp h
    simp [spanOfLast] at h
  | cons rd0 ds2 ih =>
    intro n sp h
    simp only [spanOfLast] at h
    cases h3 : spanOfLast n ds2 with
    | some sp2 =>
      simp only [h3, Option.some.injEq] at h
      subst h
      obtain ⟨rd, hm, hn, hsp⟩ := ih n sp2 h3
      exact ⟨rd, by simp [hm], hn, hsp⟩
    | none =>
      simp only [h3] at h
      by_cases hname : rd0.name = n
      · rw [if_pos hname] at h
        simp only [Option.some.injEq] at h
        exact ⟨rd0, by simp, hname, h.symm⟩
      · rw [if_neg hname] at h
        simp at h

/-- A definition of a name makes `spanOfLast` defined. -/
theorem spanOfLast_isSome_of_mem :
    ∀ (ds : List RawDef) (rd : RawDef) (n : Str),
      rd ∈ ds → rd.name = n → (spanOfLast n ds).isSome = true := by
  intro ds
  induction ds with
  | nil =>
    intro rd n h
    simp at h
  | cons rd0 ds2 ih =>
    intro rd n h hn
    simp only [spanOfLast]
    rcases List.mem_cons.mp h with rfl | h2
    · cases h3 : spanOfLast n ds2 with
      | some sp => simp
      | none => simp [hn]
    · have := ih rd n h2 hn
      cases h3 : spanOfLast n ds2 with
      | some sp => simp
      | none => rw [h3] at this; simp at this

/-- The final recorded span of a name is the span of its last definition (or
the initial entry when the name is never defined). -/
theorem runDefs_spanOfLast :
    ∀ (ds : List RawDef) (st st2 : ParseState),
      runDefs st ds = .ok st2 → ∀ n,
      lookupP st2.value_spans n =
        match spanOfLast n ds with
        | some sp => some sp
        | none => lookupP st.value_spans n := by
  intro ds
  induction ds with
  | nil =>
    intro st st2 h n
    simp only [runDefs] at h
    cases h
    simp [spanOfLast]
  | cons d0 ds2 ih =>
    intro st st2 h n
    simp only [runDefs] at h
    split at h
    · simp at h
    · rename_i st3 hstep
      obtain ⟨v, ns, hres, hp, hs, hr⟩ := stepDef_ok st d0 st3 hstep
      have h2 := ih st3 st2 h n
      simp only [spanOfLast]
      cases h3 : spanOfLast n ds2 with
      | some sp =>
        rw [h3] at h2
        exact h2
      | none =>
        rw [h3] at h2
        rw [h2, hs, lookupP_insertA]
        by_cases hd : d0.name = n
        · rw [if_pos hd, if_pos hd]
        · rw [if_neg hd, if_neg hd]

/-! ## Escape, unescape and resolution of written values -/

/-- Unescaping a backslash-free text is the identity. -/
theorem unescape_no_backslash (w : Str) (h : '\\' ∉ w) : unescape w = w := by
  suffices hgo : ∀ u : Str, '\\' ∉ u → unescapeGo false u = u from hgo w h
  intro u
  induction u with
  | nil =>
    intro _
    rfl
  | cons c rest ih =>
    intro hu
    have hc : ¬ c = '\\' := fun hc => hu (by simp [hc])
    simp only [unescapeGo]
    rw [if_neg (by simp [hc])]
    rw [ih (fun hm => hu (by simp [hm]))]

/-- The escaped body of a value is protected from expansion. -/
theorem noExpandStr_escBody (v : Str) : noExpandStr (escBody v) = true := by
  induction v with
  | nil => rfl
  | cons c rest ih =>
    simp only [escBody, List.flatMap_cons] at *
    by_cases hc : c ∈ ESCAPED
    · simp only [escChar, if_pos hc, List.cons_append, List.nil_append]
      simp only [noExpandStr, if_pos rfl]
      exact ih
    · have hb : ¬ c = '\\' := fun h => hc (by rw [h]; decide)
      have hd : ¬ c = '$' := fun h => hc (by rw [h]; decide)
      simp only [escChar, if_neg hc, List.cons_append, List.nil_append]
      rw [noExpandStr.eq_def]
      simp only [if_neg hb, Bool.and_eq_true, decide_eq_true_eq]
      exact ⟨hd, ih⟩

/-- A text with no backslash and no dollar sign is protected from expansion. -/
theorem noExpandStr_plain :
    ∀ v : Str, (∀ c ∈ v, ¬ c = '\\' ∧ ¬ c = '$') → noExpandStr v = true := by
  intro v
  induction v with
  | nil =>
    intro _
    rfl
  | cons c rest ih =>
    intro h
    obtain ⟨hb, hd⟩ := h c (by simp)
    rw [noExpandStr.eq_def]
    simp only [if_neg hb, Bool.and_eq_true, decide_eq_true_eq]
    exact ⟨hd, ih (fun c2 hc2 => h c2 (by simp [hc2]))⟩

/-- The escaped body of a value is scanned whole by the double-quote
scanner. -/
theorem dqSafe_escBody (v : Str) : dqSafe (escBody v) = true := by
  induction v with
  | nil => rfl
  | cons c rest ih =>
    simp only [escBody, List.flatMap_cons] at *
    by_cases hc : c ∈ ESCAPED
    · simp only [escChar, if_pos hc, List.cons_append, List.nil_append]
      simp only [dqSafe, if_pos rfl]
      exact ih
    · have hb : ¬ c = '\\' := fun h => hc (by rw [h]; decide)
      have hq : ¬ c = '"' := fun h => hc (by rw [h]; decide)
      simp only [escChar, if_neg hc, List.cons_append, List.nil_append]
      rw [dqSafe.eq_def]
      simp only [if_neg hb, Bool.and_eq_true, decide_eq_true_eq]
      exact ⟨hq, ih⟩

/-- The escaped body is at least as long as the value. -/
theorem escBody_length_ge (v : Str) : v.length ≤ (escBody v).length := by
  induction v with
  | nil => simp [escBody]
  | cons c rest ih =>
    simp only [escBody, List.flatMap_cons, List.length_append, List.length_cons] at *
    by_cases hc : c ∈ ESCAPED
    · simp only [escChar, if_pos hc, List.length_cons, List.length_nil]
      omega
    · simp only [escChar, if_neg hc, List.length_cons, List.length_nil]
      omega

/-- A value written bare has no escaped character and equals its trimmed
form. -/
theorem escape_eq_self_inv (v : Str) (h : escape v = v) :
    (v.any (fun c => ESCAPED.contains c) || decide (v ≠ trimStr v)) = false := by
  by_cases hcond : (v.any (fun c => ESCAPED.contains c) || decide (v ≠ trimStr v)) = true
  · exfalso
    have hq : escape v = '"' :: (ESCAPED.foldl (fun acc c => replaceChar acc c ['\\', c]) v) ++ ['"'] := by
      simp only [escape]
      rw [if_pos hcond]
    rw [hq] at h
    have hlen := congrArg List.length h
    rw [escFold_eq_escBody] at hlen
    have hge := escBody_length_ge v
    simp only [List.length_cons, List.length_append, List.length_nil] at hlen
    omega
  · simpa using hcond

/-- The characters of a bare-written value. -/
theorem escape_eq_self_chars (v : Str) (h : escape v = v) :
    ∀ c ∈ v, ¬ c = '\\' ∧ ¬ c = '$' ∧ ¬ c = '"' ∧ ¬ c = '\'' := by
  have hinv := escape_eq_self_inv v h
  simp only [Bool.or_eq_false_iff, List.any_eq_false] at hinv
  intro c hc
  have h2 := hinv.1 c hc
  refine ⟨?_, ?_, ?_, ?_⟩ <;> intro hx <;> subst hx <;> simp [ESCAPED] at h2

/-- Resolving a bare-written safe value recovers the value with no reported
name. -/
theorem resolveValue_uq_safe (p : List (Str × Str)) (v : Str)
    (h : escape v = v) : resolveValue p .uq v = .ok (v, []) := by
  have hchars := escape_eq_self_chars v h
  have hexp : expand p v = (v, []) :=
    expand_noExpand p v (noExpandStr_plain v (fun c hc => ⟨(hchars c hc).1, (hchars c hc).2.1⟩))
  simp only [resolveValue, hexp]
  rw [unescape_no_backslash v (fun hm => (hchars '\\' hm).1 rfl)]

/-- Unquoting a wrapped body strips exactly the outer quotes. -/
theorem unquote_wrap (b : Str) : unquote ('"' :: b ++ ['"']) '"' = some b := by
  simp [List.cons_append, unquote, List.reverse_append]

/-- Resolving a quoted-written value recovers the value with no reported
name. -/
theorem resolveValue_dq_escaped (p : List (Str × Str)) (v : Str) :
    resolveValue p .dq ('"' :: escBody v ++ ['"']) = .ok (v, []) := by
  simp only [resolveValue]
  have huq : unquote (('"' :: escBody v ++ ['"'])) '"' = some (escBody v) := by
    have := unquote_wrap (escBody v)
    simpa using this
  rw [huq]
  have hexp : expand p (escBody v) = (escBody v, []) :=
    expand_noExpand p (escBody v) (noExpandStr_escBody v)
  simp only [hexp]
  rw [unescape_escBody]

/-! ## Reparsing a line after replacing its value -/

/-- After a well-formed rest-of-line, the unquoted-value scanner stops
immediately. -/
theorem uqLen_of_checkRest (R : Str) (h : checkRest R = true) : uqLen R = 0 := by
  cases R with
  | nil => rfl
  | cons c rest =>
    by_cases hws : isHWs c = true
    · have hb : ¬ c = '\\' := by
        intro hc
        subst hc
        simp [isHWs] at hws
      rw [uqLen.eq_def]
      simp [hb, hws]
    · simp only [checkRest] at h
      rw [List.dropWhile_cons, if_neg (by simp [hws])] at h
      simp only at h
      have hc : c = '#' := by simpa using h
      subst hc
      rw [uqLen.eq_def]
      simp [isHWs, show ¬ ('#' : Char) = '\\' from by decide]

/-- The unquoted-value scanner consumes a plain text whole. -/
theorem uqLen_append_plain :
    ∀ (w R : Str), (∀ c ∈ w, ¬ c = '\\' ∧ isHWs c = false ∧ ¬ c = '#') →
      uqLen (w ++ R) = w.length + uqLen R := by
  intro w
  induction w with
  | nil =>
    intro R _
    simp
  | cons c w2 ih =>
    intro R hw
    obtain ⟨hb, hws, hsh⟩ := hw c (by simp)
    have hcond : ¬ ((isHWs c || decide (c = '#')) = true) := by
      simp [hws, hsh]
    simp only [List.cons_append]
    rw [uqLen.eq_def]
    simp only [if_neg hb, if_neg hcond, List.length_cons]
    rw [ih R (fun c2 hc2 => hw c2 (by simp [hc2]))]
    omega

/-- The double-quote scanner consumes an escaped body whole and stops at the
closing quote. -/
theorem dqLen_append_safe :
    ∀ (b : Str), dqSafe b = true → ∀ R : Str,
      dqLen (b ++ '"' :: R) = some (b.length + 1) := by
  intro b
  induction b using dqSafe.induct with
  | case1 =>
    intro _ R
    simp [dqLen_cons_quote]
  | case2 =>
    intro h R
    exact absurd h (by decide)
  | case3 head rest2 ih =>
    intro h R
    have h2 : dqSafe rest2 = true := by
      rw [dqSafe.eq_def] at h
      simpa using h
    simp only [List.cons_append]
    rw [dqLen_cons_backslash]
    rw [ih h2 R]
    simp only [Option.map_some', List.length_cons]
  | case4 c rest hc ih =>
    intro h R
    rw [dqSafe.eq_def] at h
    simp only [if_neg hc, Bool.and_eq_true, decide_eq_true_eq] at h
    simp only [List.cons_append]
    rw [dqLen_cons_go c _ h.1 hc]
    rw [ih h.2 R]
    simp only [Option.map_some', List.length_cons]

/-- Inversion of a successful value parse: the raw text is the prefix of the
given length and the rest of the line is well formed. -/
theorem parseValue_inv (lV : Str) (vs : Nat) (k : ValueKind) (raw : Str)
    (s e : Nat) (h : parseValue lV vs = .ok (k, raw, s, e)) :
    s = vs ∧ vs ≤ e ∧ raw = lV.take (e - vs) ∧
      checkRest (lV.drop (e - vs)) = true := by
  rw [parseValue.eq_def] at h
  split at h
  · rename_i lr
    split at h
    · rename_i k2 hsq
      split at h
      · rename_i hcr
        simp only [Except.ok.injEq, Prod.mk.injEq] at h
        obtain ⟨hk, hraw, hs, he⟩ := h
        subst hs
        refine ⟨rfl, by omega, ?_, ?_⟩
        · rw [← hraw]
          congr 1
          omega
        · have hdrop : ('\'' :: lr).drop (e - vs) = lr.drop k2 := by
            have : e - vs = k2 + 1 := by omega
            rw [this]
            simp
          rw [hdrop]
          exact hcr
      · simp at h
    · simp at h
  · rename_i lr
    split at h
    · rename_i k2 hdq
      split at h
      · rename_i hcr
        simp only [Except.ok.injEq, Prod.mk.injEq] at h
        obtain ⟨hk, hraw, hs, he⟩ := h
        subst hs
        refine ⟨rfl, by omega, ?_, ?_⟩
        · rw [← hraw]
          congr 1
          omega
        · have hdrop : ('"' :: lr).drop (e - vs) = lr.drop k2 := by
            have : e - vs = k2 + 1 := by omega
            rw [this]
            simp
          rw [hdrop]
          exact hcr
      · simp at h
    · simp at h
  · replace h : (if checkRest (List.drop (uqLen lV) lV) = true then
        Except.ok (ValueKind.uq, List.take (uqLen lV) lV, vs, vs + uqLen lV)
      else (.error "unexpected characters after value" :
        Except String (ValueKind × Str × Nat × Nat))) = .ok (k, raw, s, e) := h
    split at h
    · rename_i hcr
      simp only [Except.ok.injEq, Prod.mk.injEq] at h
      obtain ⟨hk, hraw, hs, he⟩ := h
      subst hs
      refine ⟨rfl, by omega, ?_, ?_⟩
      · rw [← hraw]
        congr 1
        omega
      · have : e - vs = uqLen lV := by omega
        rw [this]
        exact hcr
    · simp at h

/-- Parsing a bare safe value followed by a well-formed rest. -/
theorem parseValue_bare (w R : Str) (vs : Nat) (hR : checkRest R = true)
    (hw : ∀ c ∈ w, ¬ c = '\\' ∧ isHWs c = false ∧ ¬ c = '#' ∧
      ¬ c = '\'' ∧ ¬ c = '"') :
    parseValue (w ++ R) vs = .ok (.uq, w, vs, vs + w.length) := by
  have hR0 : uqLen R = 0 := uqLen_of_checkRest R hR
  have huq : uqLen (w ++ R) = w.length := by
    rw [uqLen_append_plain w R (fun c hc => ⟨(hw c hc).1, (hw c hc).2.1, (hw c hc).2.2.1⟩), hR0]
    omega
  have hRhead : ∀ c rest, R = c :: rest → isHWs c = true ∨ c = '#' := by
    intro c rest hRc
    subst hRc
    simp only [checkRest] at hR
    by_cases hws : isHWs c = true
    · exact Or.inl hws
    · rw [List.dropWhile_cons, if_neg (by simp [hws])] at hR
      simp only at hR
      exact Or.inr (by simpa using hR)
  rw [parseValue.eq_def]
  split
  · rename_i lr heq
    exfalso
    cases w with
    | nil =>
      simp only [List.nil_append] at heq
      rcases hRhead '\'' lr heq with hws | hsh
      · simp [isHWs] at hws
      · simp at hsh
    | cons c w2 =>
      simp only [List.cons_append, List.cons.injEq] at heq
      exact (hw c (by simp)).2.2.2.1 heq.1
  · rename_i lr heq
    exfalso
    cases w with
    | nil =>
      simp only [List.nil_append] at heq
      rcases hRhead '"' lr heq with hws | hsh
      · simp [isHWs] at hws
      · simp at hsh
    | cons c w2 =>
      simp only [List.cons_append, List.cons.injEq] at heq
      exact (hw c (by simp)).2.2.2.2 heq.1
  · simp only [huq, List.take_left' rfl, List.drop_left' rfl, if_pos hR]

/-- Parsing a quoted escaped body followed by a well-formed rest. -/
theorem parseValue_quoted (b R : Str) (vs : Nat) (hb : dqSafe b = true)
    (hR : checkRest R = true) :
    parseValue (('"' :: b ++ ['"']) ++ R) vs =
      .ok (.dq, '"' :: b ++ ['"'], vs, vs + b.length + 2) := by
  have harr : ('"' :: b ++ ['"']) ++ R = '"' :: (b ++ '"' :: R) := by simp
  rw [harr]
  rw [parseValue.eq_def]
  have hdq : dqLen (b ++ '"' :: R) = some (b.length + 1) := dqLen_append_safe b hb R
  simp only [hdq]
  have hdrop : (b ++ '"' :: R).drop (b.length + 1) = R := by
    rw [show b ++ '"' :: R = (b ++ ['"']) ++ R from by simp]
    rw [List.drop_left' (by simp)]
  have htake : ('"' :: (b ++ '"' :: R)).take (b.length + 1 + 1) = '"' :: (b ++ ['"']) := by
    rw [List.take_succ_cons]
    rw [show b ++ '"' :: R = (b ++ ['"']) ++ R from by simp]
    rw [List.take_left' (by simp)]
  rw [hdrop, if_pos hR, htake]
  have harith : vs + (b.length + 1) + 1 = vs + b.length + 2 := by omega
  rw [harith]
  simp

/-- Inversion of a successful definition parse. -/
theorem parseDefn_inv (lE : Str) (iE : Nat) (ld : LineDef)
    (h : parseDefn lE iE = .ok ld) :
    ∃ c1 rest1 lV, lE = c1 :: rest1 ∧ is_name_start c1 = true ∧
      ld.name = lE.take (1 + (rest1.takeWhile isNameChar).length) ∧
      lE.drop (1 + (rest1.takeWhile isNameChar).length) = '=' :: lV ∧
      parseValue lV (iE + (1 + (rest1.takeWhile isNameChar).length) + 1) =
        .ok (ld.kind, ld.raw, ld.vstart, ld.vstop) := by
  simp only [parseDefn.eq_def] at h
  split at h
  · simp at h
  · rename_i c1 rest1
    split at h
    · rename_i hns
      split at h
      · rename_i lV hdrop
        split at h
        · rename_i vk vraw vvs vve hpv
          simp only [Except.ok.injEq] at h
          subst h
          exact ⟨c1, rest1, lV, rfl, hns, rfl, hdrop, hpv⟩
        · simp at h
      · simp at h
    · simp at h

/-- The name scanned by a definition parse in explicit form. -/
theorem take_name_eq (c1 : Char) (rest1 : Str) :
    (c1 :: rest1).take (1 + (rest1.takeWhile isNameChar).length) =
      c1 :: rest1.takeWhile isNameChar := by
  rw [show 1 + (rest1.takeWhile isNameChar).length =
    (rest1.takeWhile isNameChar).length + 1 from by omega]
  rw [List.take_succ_cons]
  congr 1
  exact (List.prefix_iff_eq_take.mp (List.takeWhile_prefix isNameChar)).symm

/-- Replacing the value of a parsed definition with a new raw value that parses
whole reparses to the same name with the new value span. -/
theorem parseDefn_replace (lE : Str) (iE : Nat) (ld : LineDef)
    (h : parseDefn lE iE = .ok ld) (w : Str) (k2 : ValueKind)
    (hval : parseValue (w ++ lE.drop (ld.vstop - iE)) ld.vstart =
      .ok (k2, w, ld.vstart, ld.vstart + w.length)) :
    parseDefn (lE.take (ld.vstart - iE) ++ w ++ lE.drop (ld.vstop - iE)) iE =
      .ok ⟨ld.name, k2, w, ld.vstart, ld.vstart + w.length⟩ := by
  obtain ⟨c1, rest1, lV, hlE, hns, hname, hdrop, hpv⟩ := parseDefn_inv lE iE ld h
  obtain ⟨hs, hse, hraw, hcr⟩ := parseValue_inv _ _ _ _ _ _ hpv
  have hnl1 : 1 + (rest1.takeWhile isNameChar).length ≤ lE.length := by
    have := congrArg List.length hdrop
    rw [List.length_drop] at this
    simp only [List.length_cons] at this
    omega
  have hstruct : lE = lE.take (1 + (rest1.takeWhile isNameChar).length) ++ '=' :: lV := by
    conv_lhs => rw [← List.take_append_drop (1 + (rest1.takeWhile isNameChar).length) lE]
    rw [hdrop]
  have htklen : (lE.take (1 + (rest1.takeWhile isNameChar).length)).length =
      1 + (rest1.takeWhile isNameChar).length := by
    rw [List.length_take]
    omega
  have hvstart : ld.vstart = iE + (1 + (rest1.takeWhile isNameChar).length) + 1 := hs
  have htake : lE.take (ld.vstart - iE) =
      lE.take (1 + (rest1.takeWhile isNameChar).length) ++ ['='] := by
    conv_lhs => rw [hstruct]
    rw [List.take_append_eq_append_take]
    rw [List.take_all_of_le (by omega)]
    congr 1
    rw [htklen]
    rw [show ld.vstart - iE - (1 + (rest1.takeWhile isNameChar).length) = 1 from by omega]
    rfl
  have hdropv : lE.drop (ld.vstop - iE) = lV.drop (ld.vstop - ld.vstart) := by
    conv_lhs => rw [hstruct]
    rw [List.drop_append_eq_append_drop]
    rw [List.drop_of_length_le (by omega)]
    rw [htklen]
    rw [show ld.vstop - iE - (1 + (rest1.takeWhile isNameChar).length) =
      (ld.vstop - ld.vstart) + 1 from by omega]
    simp
  have hL : lE.take (ld.vstart - iE) ++ w ++ lE.drop (ld.vstop - iE) =
      c1 :: (rest1.takeWhile isNameChar ++
        '=' :: (w ++ lV.drop (ld.vstop - ld.vstart))) := by
    rw [htake, hdropv, hlE, take_name_eq]
    simp
  rw [hL, parseDefn.eq_def]
  simp only []
  rw [if_pos hns]
  have htw : (rest1.takeWhile isNameChar ++
      '=' :: (w ++ lV.drop (ld.vstop - ld.vstart))).takeWhile isNameChar =
      rest1.takeWhile isNameChar := by
    rw [List.takeWhile_append_of_pos (fun a ha => List.mem_takeWhile_imp ha)]
    rw [List.takeWhile_cons]
    simp [show isNameChar '=' = false from by decide]
  simp only [htw]
  have hdrop2 : (c1 :: (rest1.takeWhile isNameChar ++
      '=' :: (w ++ lV.drop (ld.vstop - ld.vstart)))).drop
        (1 + (rest1.takeWhile isNameChar).length) =
      '=' :: (w ++ lV.drop (ld.vstop - ld.vstart)) := by
    rw [show 1 + (rest1.takeWhile isNameChar).length =
      (rest1.takeWhile isNameChar).length + 1 from by omega]
    rw [List.drop_succ_cons]
    rw [List.drop_left]
  simp only [hdrop2]
  have hval2 : parseValue (w ++ lV.drop (ld.vstop - ld.vstart))
      (iE + (1 + (rest1.takeWhile isNameChar).length) + 1) =
      .ok (k2, w, ld.vstart, ld.vstart + w.length) := by
    rw [← hdropv, ← hvstart]
    exact hval
  simp only [hval2]
  have hnm : (c1 :: (rest1.takeWhile isNameChar ++
      '=' :: (w ++ lV.drop (ld.vstop - ld.vstart)))).take
        (1 + (rest1.takeWhile isNameChar).length) = ld.name := by
    rw [show 1 + (rest1.takeWhile isNameChar).length =
      (rest1.takeWhile isNameChar).length + 1 from by omega]
    rw [List.take_succ_cons]
    rw [List.take_left]
    rw [hname, hlE, take_name_eq]
  rw [hnm]

/-- The head of a `dropWhile` result fails the predicate. -/
theorem dropWhile_head_false {p : Char → Bool} :
    ∀ (l : Str) (c : Char) (rest : Str), l.dropWhile p = c :: rest → p c = false := by
  intro l
  induction l with
  | nil =>
    intro c rest h
    simp at h
  | cons a l2 ih =>
    intro c rest h
    rw [List.dropWhile_cons] at h
    split at h
    · exact ih c rest h
    · rename_i hp
      injection h with h1 h2
      subst h1
      simpa using hp

/-- Inversion of a line parse that produced a definition. -/
theorem parseLine_some_inv (line : Str) (ld : LineDef)
    (h : parseLine line = .ok (some ld)) :
    ∃ c0 l0t, line.drop (line.takeWhile isHWs).length = c0 :: l0t ∧ ¬ c0 = '#' ∧
      (((line.drop (line.takeWhile isHWs).length).take 7 = "export ".data ∧
        parseDefn ((line.drop (line.takeWhile isHWs).length).drop 7)
          ((line.takeWhile isHWs).length + 7) = .ok ld) ∨
       (¬ ((line.drop (line.takeWhile isHWs).length).take 7 = "export ".data) ∧
        parseDefn (line.drop (line.takeWhile isHWs).length)
          (line.takeWhile isHWs).length = .ok ld)) := by
  simp only [parseLine] at h
  split at h
  · exact absurd h (by simp)
  · rename_i c0 l0t heq0
    split at h
    · exact absurd h (by simp)
    · rename_i hc0
      split at h
      · rename_i hexp
        cases hd : parseDefn ((line.drop (line.takeWhile isHWs).length).drop 7)
            ((line.takeWhile isHWs).length + 7) with
        | error m =>
          rw [hd] at h
          exact absurd h (by simp [Except.map])
        | ok ld2 =>
          rw [hd] at h
          simp only [Except.map, Except.ok.injEq, Option.some.injEq] at h
          subst h
          exact ⟨c0, l0t, heq0, hc0, Or.inl ⟨of_decide_eq_true hexp, rfl⟩⟩
      · rename_i hexp
        cases hd : parseDefn (line.drop (line.takeWhile isHWs).length)
            ((line.takeWhile isHWs).length) with
        | error m =>
          rw [hd] at h
          exact absurd h (by simp [Except.map])
        | ok ld2 =>
          rw [hd] at h
          simp only [Except.map, Except.ok.injEq, Option.some.injEq] at h
          subst h
          exact ⟨c0, l0t, heq0, hc0, Or.inr ⟨by simpa using hexp, rfl⟩⟩

/-- Structure of a definition line around its value span. -/
theorem parseDefn_take_structure (lE : Str) (iE : Nat) (ld : LineDef)
    (h : parseDefn lE iE = .ok ld) :
    ∃ (A : Str) (lV : Str), lE.take (ld.vstart - iE) = A ++ ['='] ∧ A = ld.name ∧
      A.length = ld.vstart - iE - 1 ∧
      (∀ a ∈ A, isNameChar a = true) ∧
      lE.drop (ld.vstop - iE) = lV.drop (ld.vstop - ld.vstart) ∧
      iE + 2 ≤ ld.vstart ∧ ld.vstart ≤ ld.vstop ∧
      checkRest (lV.drop (ld.vstop - ld.vstart)) = true := by
  obtain ⟨c1, rest1, lV, hlE, hns, hname, hdrop, hpv⟩ := parseDefn_inv lE iE ld h
  obtain ⟨hs, hse, hraw, hcr⟩ := parseValue_inv _ _ _ _ _ _ hpv
  have hnl1 : 1 + (rest1.takeWhile isNameChar).length ≤ lE.length := by
    have := congrArg List.length hdrop
    rw [List.length_drop] at this
    simp only [List.length_cons] at this
    omega
  have hstruct : lE = lE.take (1 + (rest1.takeWhile isNameChar).length) ++ '=' :: lV := by
    conv_lhs => rw [← List.take_append_drop (1 + (rest1.takeWhile isNameChar).length) lE]
    rw [hdrop]
  have htklen : (lE.take (1 + (rest1.takeWhile isNameChar).length)).length =
      1 + (rest1.takeWhile isNameChar).length := by
    rw [List.length_take]
    omega
  have hvstart : ld.vstart = iE + (1 + (rest1.takeWhile isNameChar).length) + 1 := hs
  have hcr2 : checkRest (lV.drop (ld.vstop - ld.vstart)) = true := by
    have harith : ld.vstop - ld.vstart = ld.vstop -
        (iE + (1 + (rest1.takeWhile isNameChar).length) + 1) := by omega
    rw [harith]
    exact hcr
  refine ⟨lE.take (1 + (rest1.takeWhile isNameChar).length), lV, ?_, hname.symm, ?_, ?_, ?_, by omega, by omega, hcr2⟩
  · conv_lhs => rw [hstruct]
    rw [List.take_append_eq_append_take]
    rw [List.take_all_of_le (by omega)]
    congr 1
    rw [htklen]
    rw [show ld.vstart - iE - (1 + (rest1.takeWhile isNameChar).length) = 1 from by omega]
    rfl
  · omega
  · intro a ha
    rw [hlE, take_name_eq] at ha
    rcases List.mem_cons.mp ha with rfl | ha2
    · simp [isNameChar, hns]
    · exact List.mem_takeWhile_imp ha2
  · conv_lhs => rw [hstruct]
    rw [List.drop_append_eq_append_drop]
    rw [List.drop_of_length_le (by omega)]
    rw [htklen]
    rw [show ld.vstop - iE - (1 + (rest1.takeWhile isNameChar).length) =
      (ld.vstop - ld.vstart) + 1 from by omega]
    simp

/-- Replacing the value span of a definition line with a new raw value that
parses whole reparses to the same name, the new raw text and the resized
span. -/
theorem parseLine_replace (line : Str) (ld : LineDef)
    (h : parseLine line = .ok (some ld)) (w : Str) (k2 : ValueKind)
    (hval : parseValue (w ++ line.drop ld.vstop) ld.vstart =
      .ok (k2, w, ld.vstart, ld.vstart + w.length)) :
    parseLine (line.take ld.vstart ++ w ++ line.drop ld.vstop) =
      .ok (some ⟨ld.name, k2, w, ld.vstart, ld.vstart + w.length⟩) := by
  have hsplitline : line = line.takeWhile isHWs ++ line.dropWhile isHWs :=
    (List.takeWhile_append_dropWhile isHWs line).symm
  have hld0 : line.drop (line.takeWhile isHWs).length = line.dropWhile isHWs := by
    nth_rewrite 2 [hsplitline]
    rw [List.drop_left]
  have hwsall : ∀ a ∈ line.takeWhile isHWs, isHWs a = true :=
    fun a ha => List.mem_takeWhile_imp ha
  have hbounds := parseLine_bounds line ld h
  obtain ⟨c0, l0t, heq0, hc0, hcase⟩ := parseLine_some_inv line ld h
  have hc0ws : isHWs c0 = false := by
    refine dropWhile_head_false line c0 l0t ?_
    rw [← hld0]
    exact heq0
  -- arithmetic facts about the span
  have hvpos : (line.takeWhile isHWs).length + 2 ≤ ld.vstart ∧ ld.vstart ≤ ld.vstop := by
    rcases hcase with ⟨hx, hd⟩ | ⟨hx, hd⟩
    · obtain ⟨A, lV, _, _, _, _, _, hge, hle, _⟩ := parseDefn_take_structure _ _ _ hd
      exact ⟨by omega, hle⟩
    · obtain ⟨A, lV, _, _, _, _, _, hge, hle, _⟩ := parseDefn_take_structure _ _ _ hd
      exact ⟨hge, hle⟩
  have hl0len : (line.drop (line.takeWhile isHWs).length).length =
      line.length - (line.takeWhile isHWs).length := List.length_drop _ _
  have hws_le : (line.takeWhile isHWs).length ≤ ld.vstart := by omega
  -- line decomposition around the edit
  have htake_line : line.take ld.vstart =
      line.takeWhile isHWs ++
        (line.drop (line.takeWhile isHWs).length).take
          (ld.vstart - (line.takeWhile isHWs).length) := by
    rw [hld0]
    conv_lhs => rw [hsplitline]
    rw [List.take_append_eq_append_take]
    rw [List.take_all_of_le hws_le]
  have hdrop_line : line.drop ld.vstop =
      (line.drop (line.takeWhile isHWs).length).drop
        (ld.vstop - (line.takeWhile isHWs).length) := by
    rw [hld0]
    conv_lhs => rw [hsplitline]
    rw [List.drop_append_eq_append_drop]
    rw [List.drop_of_length_le (by omega)]
    rw [List.nil_append]
  have hedit : line.take ld.vstart ++ w ++ line.drop ld.vstop =
      line.takeWhile isHWs ++
        ((line.drop (line.takeWhile isHWs).length).take
            (ld.vstart - (line.takeWhile isHWs).length) ++ w ++
          (line.drop (line.takeWhile isHWs).length).drop
            (ld.vstop - (line.takeWhile isHWs).length)) := by
    rw [htake_line, hdrop_line]
    simp [List.append_assoc]
  have hXcons : (line.drop (line.takeWhile isHWs).length).take
        (ld.vstart - (line.takeWhile isHWs).length) ++ w ++
      (line.drop (line.takeWhile isHWs).length).drop
        (ld.vstop - (line.takeWhile isHWs).length) =
      c0 :: (l0t.take (ld.vstart - (line.takeWhile isHWs).length - 1) ++ w ++
        (line.drop (line.takeWhile isHWs).length).drop
          (ld.vstop - (line.takeWhile isHWs).length)) := by
    rw [heq0]
    rw [show ld.vstart - (line.takeWhile isHWs).length =
      (ld.vstart - (line.takeWhile isHWs).length - 1) + 1 from by omega]
    rw [List.take_succ_cons]
    simp [List.cons_append]
  simp only [parseLine]
  have hTW : (line.take ld.vstart ++ w ++ line.drop ld.vstop).takeWhile isHWs =
      line.takeWhile isHWs := by
    rw [hedit, List.takeWhile_append_of_pos hwsall, hXcons, List.takeWhile_cons]
    rw [if_neg (by simp [hc0ws])]
    simp
  rw [hTW]
  have hdropE : (line.take ld.vstart ++ w ++ line.drop ld.vstop).drop
      (line.takeWhile isHWs).length =
      (line.drop (line.takeWhile isHWs).length).take
          (ld.vstart - (line.takeWhile isHWs).length) ++ w ++
        (line.drop (line.takeWhile isHWs).length).drop
          (ld.vstop - (line.takeWhile isHWs).length) := by
    rw [hedit]
    rw [List.drop_left' rfl]
  rw [hdropE, hXcons]
  simp only []
  rw [if_neg hc0]
  rcases hcase with ⟨hx, hd⟩ | ⟨hx, hd⟩
  · -- export form
    obtain ⟨A, lV, htakeA, hAname, hAlen, hAchars, hdropA, hge, hle, _⟩ :=
      parseDefn_take_structure _ _ _ hd
    have hP7 : 8 ≤ ld.vstart - (line.takeWhile isHWs).length := by omega
    have hPlen : ((line.drop (line.takeWhile isHWs).length).take
        (ld.vstart - (line.takeWhile isHWs).length)).length =
        ld.vstart - (line.takeWhile isHWs).length := by
      rw [List.length_take]
      omega
    have hX7 : (c0 :: (l0t.take (ld.vstart - (line.takeWhile isHWs).length - 1) ++ w ++
        (line.drop (line.takeWhile isHWs).length).drop
          (ld.vstop - (line.takeWhile isHWs).length))).take 7 = "export ".data := by
      rw [← hXcons]
      rw [List.append_assoc]
      rw [List.take_append_eq_append_take]
      rw [hPlen]
      rw [show (7 : Nat) - (ld.vstart - (line.takeWhile isHWs).length) = 0 from by omega]
      rw [List.take_zero, List.append_nil]
      rw [List.take_take]
      rw [show (7 : Nat) ⊓ (ld.vstart - (line.takeWhile isHWs).length) = 7 from by
        omega]
      exact hx
    rw [if_pos (decide_eq_true hX7)]
    have hXdrop7 : (c0 :: (l0t.take (ld.vstart - (line.takeWhile isHWs).length - 1) ++ w ++
        (line.drop (line.takeWhile isHWs).length).drop
          (ld.vstop - (line.takeWhile isHWs).length))).drop 7 =
        ((line.drop (line.takeWhile isHWs).length).drop 7).take
            (ld.vstart - ((line.takeWhile isHWs).length + 7)) ++ w ++
          ((line.drop (line.takeWhile isHWs).length).drop 7).drop
            (ld.vstop - ((line.takeWhile isHWs).length + 7)) := by
      rw [← hXcons]
      rw [List.append_assoc]
      rw [List.drop_append_eq_append_drop]
      rw [hPlen]
      rw [show (7 : Nat) - (ld.vstart - (line.takeWhile isHWs).length) = 0 from by omega]
      rw [List.drop_zero]
      rw [List.drop_take]
      rw [List.drop_drop]
      rw [show ld.vstart - (line.takeWhile isHWs).length - 7 =
        ld.vstart - ((line.takeWhile isHWs).length + 7) from by omega]
      rw [List.append_assoc]
      congr 2
      rw [List.drop_drop, List.drop_drop]
      congr 1
      omega
    rw [hXdrop7]
    have hval2 : parseValue (w ++ ((line.drop (line.takeWhile isHWs).length).drop 7).drop
        (ld.vstop - ((line.takeWhile isHWs).length + 7))) ld.vstart =
        .ok (k2, w, ld.vstart, ld.vstart + w.length) := by
      have hdd : ((line.drop (line.takeWhile isHWs).length).drop 7).drop
          (ld.vstop - ((line.takeWhile isHWs).length + 7)) = line.drop ld.vstop := by
        rw [List.drop_drop, List.drop_drop]
        congr 1
        omega
      rw [hdd]
      exact hval
    rw [parseDefn_replace _ _ _ hd w k2 hval2]
    simp [Except.map]
  · -- plain form
    obtain ⟨A, lV, htakeA, hAname, hAlen, hAchars, hdropA, hge, hle, _⟩ :=
      parseDefn_take_structure _ _ _ hd
    have hX7n : ¬ ((c0 :: (l0t.take (ld.vstart - (line.takeWhile isHWs).length - 1) ++ w ++
        (line.drop (line.takeWhile isHWs).length).drop
          (ld.vstop - (line.takeWhile isHWs).length))).take 7 = "export ".data) := by
      intro hX7
      have hXAeq : (c0 :: (l0t.take (ld.vstart - (line.takeWhile isHWs).length - 1) ++ w ++
          (line.drop (line.takeWhile isHWs).length).drop
            (ld.vstop - (line.takeWhile isHWs).length))) =
          A ++ '=' :: (w ++ (line.drop (line.takeWhile isHWs).length).drop
            (ld.vstop - (line.takeWhile isHWs).length)) := by
        rw [← hXcons, htakeA]
        simp [List.append_assoc]
      have hgetnl : (c0 :: (l0t.take (ld.vstart - (line.takeWhile isHWs).length - 1) ++ w ++
          (line.drop (line.takeWhile isHWs).length).drop
            (ld.vstop - (line.takeWhile isHWs).length))).get? A.length = some '=' := by
        rw [hXAeq]
        rw [List.get?_append_right (Nat.le_refl A.length)]
        simp
      by_cases h6 : A.length ≤ 6
      · have h7 : A.length < 7 := by omega
        have hgt : (("export ".data) : Str).get? A.length = some '=' := by
          rw [← hX7, List.get?_take h7]
          exact hgetnl
        have h1 : 1 ≤ A.length := by omega
        set m := A.length with hm
        interval_cases m <;> exact absurd hgt (by decide)
      · have h76 : 6 < A.length := by omega
        cases hA6 : A.get? 6 with
        | none =>
          rw [List.get?_eq_none] at hA6
          omega
        | some a =>
          have hmem := List.get?_mem hA6
          have hna := hAchars a hmem
          have h3 : (("export ".data) : Str).get? 6 = some a := by
            rw [← hX7, List.get?_take (by omega), hXAeq, List.get?_append h76]
            exact hA6
          have hsp : a = ' ' := by
            have h4 : (("export ".data) : Str).get? 6 = some ' ' := by decide
            rw [h4] at h3
            injection h3 with h5
            exact h5.symm
          rw [hsp] at hna
          exact absurd hna (by decide)
    rw [if_neg (by simpa using hX7n)]
    rw [← hXcons]
    have hval2 : parseValue (w ++ (line.drop (line.takeWhile isHWs).length).drop
        (ld.vstop - (line.takeWhile isHWs).length)) ld.vstart =
        .ok (k2, w, ld.vstart, ld.vstart + w.length) := by
      rw [← hdrop_line]
      exact hval
    rw [parseDefn_replace _ _ _ hd w k2 hval2]
    simp [Except.map]

/-- After the value span of a definition line, the rest of the line is
well-formed trailing content. -/
theorem parseLine_checkRest (line : Str) (ld : LineDef)
    (h : parseLine line = .ok (some ld)) :
    checkRest (line.drop ld.vstop) = true := by
  have hsplitline : line = line.takeWhile isHWs ++ line.dropWhile isHWs :=
    (List.takeWhile_append_dropWhile isHWs line).symm
  have hld0 : line.drop (line.takeWhile isHWs).length = line.dropWhile isHWs := by
    nth_rewrite 2 [hsplitline]
    rw [List.drop_left]
  obtain ⟨c0, l0t, heq0, hc0, hcase⟩ := parseLine_some_inv line ld h
  rcases hcase with ⟨hx, hd⟩ | ⟨hx, hd⟩
  · obtain ⟨A, lV, htakeA, hAname, hAlen, hAchars, hdropA, hge, hle, hcr⟩ :=
      parseDefn_take_structure _ _ _ hd
    have hdrop_line : line.drop ld.vstop =
        ((line.drop (line.takeWhile isHWs).length).drop 7).drop
          (ld.vstop - ((line.takeWhile isHWs).length + 7)) := by
      rw [List.drop_drop, List.drop_drop]
      congr 1
      omega
    rw [hdrop_line, hdropA]
    exact hcr
  · obtain ⟨A, lV, htakeA, hAname, hAlen, hAchars, hdropA, hge, hle, hcr⟩ :=
      parseDefn_take_structure _ _ _ hd
    have hdrop_line : line.drop ld.vstop =
        (line.drop (line.takeWhile isHWs).length).drop
          (ld.vstop - (line.takeWhile isHWs).length) := by
      rw [List.drop_drop]
      congr 1
      omega
    rw [hdrop_line, hdropA]
    exact hcr

/-- The quoted form of the escape function, made explicit. -/
theorem escape_quoted_form (v : Str) (h : ¬ escape v = v) :
    escape v = '"' :: escBody v ++ ['"'] := by
  by_cases hcond : (v.any (fun c => ESCAPED.contains c) || decide (v ≠ trimStr v)) = true
  · simp only [escape]
    rw [if_pos hcond, escFold_eq_escBody]
  · exfalso
    refine h ?_
    simp only [escape]
    rw [if_neg hcond]

/-- Reparsing a definition line whose value span was replaced by the escaped
form of a write-safe value. -/
theorem parseLine_edited (line : Str) (ld : LineDef)
    (h : parseLine line = .ok (some ld)) (v : Str) (hs : writeSafe v = true) :
    parseLine (line.take ld.vstart ++ escape v ++ line.drop ld.vstop) =
      .ok (some ⟨ld.name, (if escape v = v then ValueKind.uq else ValueKind.dq),
        escape v, ld.vstart, ld.vstart + (escape v).length⟩) := by
  have hCR := parseLine_checkRest line ld h
  by_cases hbare : escape v = v
  · have hchars := escape_eq_self_chars v hbare
    have hsafe2 : ∀ c ∈ v, isHWs c = false ∧ ¬ c = '#' := by
      simp only [writeSafe, Bool.and_eq_true, decide_eq_true_eq] at hs
      rw [if_pos hbare] at hs
      intro c hc
      have := hs.2
      rw [List.all_eq_true] at this
      have h2 := this c hc
      simp only [Bool.and_eq_true, Bool.not_eq_true', decide_eq_true_eq] at h2
      exact h2
    have hval : parseValue (v ++ line.drop ld.vstop) ld.vstart =
        .ok (.uq, v, ld.vstart, ld.vstart + v.length) := by
      refine parseValue_bare v (line.drop ld.vstop) ld.vstart hCR ?_
      intro c hc
      exact ⟨(hchars c hc).1, (hsafe2 c hc).1, (hsafe2 c hc).2,
        (hchars c hc).2.2.2, (hchars c hc).2.2.1⟩
    have hmain := parseLine_replace line ld h v .uq hval
    rw [if_pos hbare]
    rw [hbare]
    exact hmain
  · have hq := escape_quoted_form v hbare
    have hval0 := parseValue_quoted (escBody v) (line.drop ld.vstop) ld.vstart
      (dqSafe_escBody v) hCR
    have hlen : (escape v).length = (escBody v).length + 2 := by
      rw [hq]
      simp
    have hval : parseValue (escape v ++ line.drop ld.vstop) ld.vstart =
        .ok (.dq, escape v, ld.vstart, ld.vstart + (escape v).length) := by
      rw [hq, hval0]
      rw [show ld.vstart + (escBody v).length + 2 =
        ld.vstart + ('"' :: escBody v ++ ['"']).length from by
          simp only [List.length_cons, List.length_append, List.length_nil]
          omega]
    have hmain := parseLine_replace line ld h (escape v) .dq hval
    rw [if_neg hbare]
    exact hmain

/-- A name with no definition in a list has no last span there. -/
theorem spanOfLast_eq_none (ds : List RawDef) (n : Str)
    (h : ∀ rd ∈ ds, rd.name ≠ n) : spanOfLast n ds = none := by
  cases hs : spanOfLast n ds with
  | none => rfl
  | some sp =>
    obtain ⟨rd, hm, hn, _⟩ := spanOfLast_mem ds n sp hs
    exact absurd hn (h rd hm)

/-- Resolving the escaped form of a value recovers the value and reports no
name, whatever the parameters. -/
theorem resolveValue_edited (p : List (Str × Str)) (v : Str) :
    resolveValue p (if escape v = v then ValueKind.uq else ValueKind.dq)
      (escape v) = .ok (v, []) := by
  by_cases hbare : escape v = v
  · rw [if_pos hbare, hbare]
    exact resolveValue_uq_safe p v hbare
  · rw [if_neg hbare, escape_quoted_form v hbare]
    exact resolveValue_dq_escaped p v

/-- Value resolution depends on the parameters only through boundness and the
values of the reported names. -/
theorem resolveValue_congr (p p2 : List (Str × Str)) (k : ValueKind) (raw : Str)
    (hsome : ∀ n, (lookupP p2 n).isSome = (lookupP p n).isSome)
    (res : Str × List Str) (hres : resolveValue p k raw = .ok res)
    (hvals : ∀ n ∈ res.2, lookupP p2 n = lookupP p n) :
    resolveValue p2 k raw = .ok res := by
  cases k with
  | uq =>
    simp only [resolveValue] at hres ⊢
    simp only [Except.ok.injEq] at hres
    subst hres
    rw [expand_congr p p2 hsome raw hvals]
  | sq => exact hres
  | dq =>
    simp only [resolveValue] at hres ⊢
    cases hu : unquote raw '"' with
    | none =>
      rw [hu] at hres
      simp at hres
    | some inner =>
      simp only [hu] at hres ⊢
      simp only [Except.ok.injEq] at hres
      subst hres
      rw [expand_congr p p2 hsome inner hvals]

/-- The parallel parse of the original and the edited lines: processing the
edited lines succeeds and maintains the parameter relation `editInv`. -/
theorem roundtrip_go (d : DotenvFile) (edits : List (Str × Str)) (stF : ParseState)
    (hrefd : d.referenced = stF.referenced)
    (hspans : d.value_spans = stF.value_spans)
    (hsafe : ∀ kv ∈ edits, writeSafe kv.2 = true) :
    ∀ (lines : List Str) (off off2 : Nat) (ds : List RawDef) (st st2 : ParseState),
      parseLinesGo off lines = .ok ds →
      runDefs st ds = .ok stF →
      editInv edits stF ds st st2 →
      ∃ ds2 stF2,
        parseLinesGo off2 (editLines lines (esAligned d edits off lines)) = .ok ds2 ∧
        runDefs st2 ds2 = .ok stF2 ∧
        editInv edits stF [] stF stF2 := by
  intro lines
  induction lines with
  | nil =>
    intro off off2 ds st st2 hg hrun hinv
    simp only [parseLinesGo] at hg
    cases hg
    simp only [runDefs] at hrun
    cases hrun
    exact ⟨[], st2, by simp [esAligned, editLines, parseLinesGo],
      by simp [runDefs], hinv⟩
  | cons line rest ih =>
    intro off off2 ds st st2 hg hrun hinv
    have hbounds := parseLinesGo_bounds (line :: rest) off ds hg
    simp only [parseLinesGo] at hg
    split at hg
    · simp at hg
    · rename_i hpl
      have hentry : esLineEntry d edits off line = none := by
        simp [esLineEntry, hpl]
      obtain ⟨ds2', stF2, hg2, hrun2, hfin⟩ :=
        ih (off + line.length + 1) (off2 + line.length + 1) ds st st2 hg hrun hinv
      refine ⟨ds2', stF2, ?_, hrun2, hfin⟩
      simp only [esAligned, hentry, editLines]
      simp only [parseLinesGo, hpl]
      exact hg2
    · rename_i ld hpl
      split at hg
      · simp at hg
      · rename_i ds2 hgrest
        simp only [Except.ok.injEq] at hg
        subst hg
        simp only [runDefs] at hrun
        split at hrun
        · simp at hrun
        · rename_i st3 hstep
          obtain ⟨v0, ns, hres, hp3, hs3, hr3⟩ := stepDef_ok st _ st3 hstep
          -- boundness agreement between the two parameter maps
          have hsome : ∀ n, (lookupP st2.parameters n).isSome =
              (lookupP st.parameters n).isSome := by
            intro n
            rw [hinv n]
            split
            · rename_i hcnd
              rw [hcnd.2.2.1]
              cases hlk : lookupP edits n with
              | none => rw [hlk] at hcnd; simp at hcnd
              | some v => simp
            · rfl
          -- values of names reported by the original resolution agree
          have hvals : ∀ n ∈ ns, lookupP st2.parameters n = lookupP st.parameters n := by
            intro n hn
            rw [hinv n]
            split
            · rename_i hcnd
              exfalso
              have hne : ld.name ≠ n := by
                have := hcnd.2.2.2.1 ⟨ld.name, ld.kind, ld.raw,
                  off + ld.vstart, off + ld.vstop⟩ (by simp)
                simpa using this
              have hmem3 : n ∈ st3.referenced := by
                rw [hr3]
                refine mem_removeS_of_ne _ _ _ ?_ (fun hc => hne hc.symm)
                exact mem_foldl_insertS ns st.referenced n (Or.inr hn)
              have hmemF : n ∈ stF.referenced := by
                refine runDefs_referenced_mono ds2 st3 stF hrun n hmem3 ?_
                intro rd hrd
                exact hcnd.2.2.2.1 rd (by simp [hrd])
              exact hcnd.2.1 hmemF
            · rfl
          cases hentry : esLineEntry d edits off line with
          | some t =>
            obtain ⟨⟨se, ee⟩, w⟩ := t
            obtain ⟨ld2, hpl2, hnref, hlkw, hsp, hseq, heeq⟩ :=
              esLineEntry_some d edits off line se ee w hentry
            rw [hpl] at hpl2
            simp only [Except.ok.injEq, Option.some.injEq] at hpl2
            subst hpl2
            subst hseq
            subst heeq
            have hwsafe : writeSafe w = true :=
              hsafe (ld.name, w) (lookupP_mem edits ld.name w hlkw)
            have hpl' := parseLine_edited line ld hpl w hwsafe
            have hstep2 : stepDef st2 ⟨ld.name,
                (if escape w = w then ValueKind.uq else ValueKind.dq), escape w,
                off2 + ld.vstart, off2 + (ld.vstart + (escape w).length)⟩ =
                .ok ⟨insertA st2.parameters ld.name w,
                  insertA st2.value_spans ld.name
                    (off2 + ld.vstart, off2 + (ld.vstart + (escape w).length)),
                  removeS st2.referenced ld.name⟩ := by
              simp [stepDef, resolveValue_edited]
            -- no later definition of the edited name
            have hnolater : ∀ rd ∈ ds2, rd.name ≠ ld.name := by
              intro rd hrd hname
              have hsome2 := spanOfLast_isSome_of_mem ds2 rd ld.name hrd hname
              obtain ⟨sp2, hsp2⟩ := Option.isSome_iff_exists.mp hsome2
              have hlast := runDefs_spanOfLast ds2 st3 stF hrun ld.name
              rw [hsp2] at hlast
              have hspF : lookupP stF.value_spans ld.name =
                  some (off + ld.vstart, off + ld.vstop) := by
                rw [← hspans]
                exact hsp
              rw [hspF] at hlast
              obtain ⟨rd2, hm2, hn2, hsp3⟩ := spanOfLast_mem ds2 ld.name sp2 hsp2
              have hrel := (List.pairwise_cons.mp hbounds.2).1 rd2 hm2
              obtain ⟨_, h1, _⟩ := hbounds.1 rd2 (List.mem_cons_of_mem _ hm2)
              simp only at hrel
              rw [hsp3] at hlast
              simp only [Option.some.injEq, Prod.mk.injEq] at hlast
              omega
            -- the invariant after this step
            have hinv' : editInv edits stF ds2 st3
                ⟨insertA st2.parameters ld.name w,
                  insertA st2.value_spans ld.name
                    (off2 + ld.vstart, off2 + (ld.vstart + (escape w).length)),
                  removeS st2.referenced ld.name⟩ := by
              intro n
              simp only [lookupP_insertA]
              by_cases hn : ld.name = n
              · subst hn
                rw [if_pos rfl]
                rw [if_pos ?side]
                case side =>
                  refine ⟨by rw [hlkw]; rfl, by rw [← hrefd]; exact hnref, ?_, hnolater, ?_⟩
                  · rw [hp3, lookupP_insertA, if_pos rfl]
                    rfl
                  · rw [← hspans, hsp]
                    rfl
                rw [hlkw]
              · rw [if_neg hn]
                rw [hinv n]
                have hY : lookupP st3.parameters n = lookupP st.parameters n := by
                  rw [hp3, lookupP_insertA, if_neg hn]
                by_cases hc : (lookupP edits n).isSome = true ∧ n ∉ stF.referenced ∧
                    (lookupP st.parameters n).isSome = true ∧
                    (∀ rd ∈ (⟨ld.name, ld.kind, ld.raw, off + ld.vstart,
                      off + ld.vstop⟩ : RawDef) :: ds2, rd.name ≠ n) ∧
                    (lookupP stF.value_spans n).isSome = true
                · rw [if_pos hc, if_pos ?c2]
                  case c2 =>
                    refine ⟨hc.1, hc.2.1, by rw [hY]; exact hc.2.2.1, ?_, hc.2.2.2.2⟩
                    intro rd hrd
                    exact hc.2.2.2.1 rd (by simp [hrd])
                · rw [if_neg hc, if_neg ?c3, hY]
                  case c3 =>
                    intro hc2
                    refine hc ⟨hc2.1, hc2.2.1, by rw [← hY]; exact hc2.2.2.1, ?_, hc2.2.2.2.2⟩
                    intro rd hrd
                    rcases List.mem_cons.mp hrd with rfl | hrd2
                    · simpa using hn
                    · exact hc2.2.2.2.1 rd hrd2
            obtain ⟨ds2', stF2, hg2, hrun2, hfin⟩ :=
              ih (off + line.length + 1)
                (off2 + (line.take ld.vstart ++ escape w ++ line.drop ld.vstop).length + 1)
                ds2 st3 _ hgrest hrun hinv'
            refine ⟨⟨ld.name, (if escape w = w then ValueKind.uq else ValueKind.dq),
              escape w, off2 + ld.vstart, off2 + (ld.vstart + (escape w).length)⟩ :: ds2',
              stF2, ?_, ?_, hfin⟩
            · simp only [esAligned]
              rw [hentry]
              simp only [editLines]
              simp only [parseLinesGo, hpl', hg2]
            · simp only [runDefs, hstep2]
              exact hrun2
          | none =>
            -- unedited definition line
            have hres2 : resolveValue st2.parameters ld.kind ld.raw = .ok (v0, ns) :=
              resolveValue_congr st.parameters st2.parameters ld.kind ld.raw hsome
                (v0, ns) hres hvals
            have hstep2 : stepDef st2 ⟨ld.name, ld.kind, ld.raw,
                off2 + ld.vstart, off2 + ld.vstop⟩ =
                .ok ⟨insertA st2.parameters ld.name v0,
                  insertA st2.value_spans ld.name (off2 + ld.vstart, off2 + ld.vstop),
                  removeS (ns.foldl insertS st2.referenced) ld.name⟩ := by
              simp [stepDef, hres2]
            have hinv' : editInv edits stF ds2 st3
                ⟨insertA st2.parameters ld.name v0,
                  insertA st2.value_spans ld.name (off2 + ld.vstart, off2 + ld.vstop),
                  removeS (ns.foldl insertS st2.referenced) ld.name⟩ := by
              intro n
              simp only [lookupP_insertA]
              by_cases hn : ld.name = n
              · subst hn
                rw [if_pos rfl]
                rw [if_neg ?c4]
                case c4 =>
                  intro hc
                  -- the definition would have been edited in place
                  have hspF : lookupP stF.value_spans ld.name =
                      some (off + ld.vstart, off + ld.vstop) := by
                    have hlast := runDefs_spanOfLast ds2 st3 stF hrun ld.name
                    rw [spanOfLast_eq_none ds2 ld.name hc.2.2.2.1] at hlast
                    rw [hlast, hs3, lookupP_insertA, if_pos rfl]
                  obtain ⟨w, hw⟩ := Option.isSome_iff_exists.mp hc.1
                  have : esLineEntry d edits off line =
                      some ((ld.vstart, ld.vstop), w) := by
                    simp only [esLineEntry, hpl]
                    rw [if_neg (by rw [hrefd]; exact hc.2.1)]
                    simp only [hw]
                    rw [if_pos (by rw [hspans]; exact hspF)]
                  rw [hentry] at this
                  cases this
                -- parameters: the new run stores the freshly resolved value
                rw [hp3, lookupP_insertA, if_pos rfl]
              · rw [if_neg hn]
                rw [hinv n]
                have hY : lookupP st3.parameters n = lookupP st.parameters n := by
                  rw [hp3, lookupP_insertA, if_neg hn]
                by_cases hc : (lookupP edits n).isSome = true ∧ n ∉ stF.referenced ∧
                    (lookupP st.parameters n).isSome = true ∧
                    (∀ rd ∈ (⟨ld.name, ld.kind, ld.raw, off + ld.vstart,
                      off + ld.vstop⟩ : RawDef) :: ds2, rd.name ≠ n) ∧
                    (lookupP stF.value_spans n).isSome = true
                · rw [if_pos hc, if_pos ?c5]
                  case c5 =>
                    refine ⟨hc.1, hc.2.1, by rw [hY]; exact hc.2.2.1, ?_, hc.2.2.2.2⟩
                    intro rd hrd
                    exact hc.2.2.2.1 rd (by simp [hrd])
                · rw [if_neg hc, if_neg ?c6, hY]
                  case c6 =>
                    intro hc2
                    refine hc ⟨hc2.1, hc2.2.1, by rw [← hY]; exact hc2.2.2.1, ?_, hc2.2.2.2.2⟩
                    intro rd hrd
                    rcases List.mem_cons.mp hrd with rfl | hrd2
                    · simpa using hn
                    · exact hc2.2.2.2.1 rd hrd2
            obtain ⟨ds2', stF2, hg2, hrun2, hfin⟩ :=
              ih (off + line.length + 1) (off2 + line.length + 1) ds2 st3 _ hgrest hrun hinv'
            refine ⟨⟨ld.name, ld.kind, ld.raw, off2 + ld.vstart, off2 + ld.vstop⟩ :: ds2',
              stF2, ?_, ?_, hfin⟩
            · simp only [esAligned]
              rw [hentry]
              simp only [editLines]
              simp only [parseLinesGo, hpl, hg2]
            · simp only [runDefs, hstep2]
              exact hrun2

/-- When every edit applies in place, `replace` is exactly the per-line
splice. -/
theorem replace_inplace (src : Str) (d : DotenvFile) (edits : List (Str × Str))
    (hparse : DotenvFile.parse src = .ok d)
    (hnodup : (edits.map (fun kv => kv.1)).Nodup)
    (hkeys : ∀ kv ∈ edits, kv.1 ∉ d.referenced ∧
      (lookupP d.value_spans kv.1).isSome = true) :
    d.replace edits =
      joinLines (editLines (splitLinesCh src)
        (esAligned d edits 0 (splitLinesCh src))) := by
  have hsrc : d.source = src := by
    obtain ⟨ds, st, hg, hr, hd⟩ := parse_ok_inv src d hparse
    rw [hd]
  have hcontent : (sortByEndDesc (edits.filterMap (fun kv =>
      if kv.1 ∉ d.referenced then
        (lookupP d.value_spans kv.1).map (fun sp => (sp, kv.2))
      else none))).foldl
        (fun acc spv => replaceRange acc spv.1.1 spv.1.2 (escape spv.2)) d.source =
      joinLines (editLines (splitLinesCh src)
        (esAligned d edits 0 (splitLinesCh src))) := by
    rw [sortByEndDesc_replaced_eq src d edits hparse hnodup, hsrc]
    have h2 := applyDesc_triples (splitLinesCh src)
      (esAligned d edits 0 (splitLinesCh src)) (esAligned_EsOK d edits (splitLinesCh src) 0)
    rw [joinLines_splitLinesCh] at h2
    exact h2
  have hadded : edits.filter (fun kv =>
      ¬ (kv.1 ∉ d.referenced ∧ (lookupP d.value_spans kv.1).isSome)) = [] := by
    rw [List.filter_eq_nil_iff]
    intro kv hkv
    simp only [decide_not, Bool.not_eq_true', Bool.not_eq_false, decide_eq_true_eq]
    exact ⟨(hkeys kv hkv).1, by simp [(hkeys kv hkv).2]⟩
  simp only [DotenvFile.replace]
  rw [hadded]
  simp only [List.isEmpty_nil]
  exact hcontent

/-- Escaping a newline-free value stays newline-free. -/
theorem escape_no_newline (v : Str) (h : '\n' ∉ v) : '\n' ∉ escape v := by
  intro hm
  by_cases hbare : escape v = v
  · rw [hbare] at hm
    exact h hm
  · rw [escape_quoted_form v hbare] at hm
    rcases List.mem_append.mp hm with hm1 | hm1
    · rcases List.mem_cons.mp hm1 with h1 | h1
      · exact absurd h1 (by decide)
      · simp only [escBody, List.mem_flatMap] at h1
        obtain ⟨c, hc, hcc⟩ := h1
        simp only [escChar] at hcc
        by_cases he : c ∈ ESCAPED
        · rw [if_pos he] at hcc
          rcases List.mem_cons.mp hcc with h2 | h2
          · exact absurd h2 (by decide)
          · rcases List.mem_cons.mp h2 with h3 | h3
            · subst h3
              exact absurd he (by decide)
            · simp at h3
        · rw [if_neg he] at hcc
          rcases List.mem_cons.mp hcc with h2 | h2
          · subst h2
            exact h hc
          · simp at h2
    · rcases List.mem_cons.mp hm1 with h1 | h1
      · exact absurd h1 (by decide)
      · simp at h1

/-- Edited lines of a newline-free document are newline-free when all edit
values are write-safe. -/
theorem editLines_no_newline (d : DotenvFile) (edits : List (Str × Str))
    (hsafeE : ∀ kv ∈ edits, writeSafe kv.2 = true) :
    ∀ (lines : List Str) (off : Nat), (∀ l ∈ lines, '\n' ∉ l) →
      ∀ l2 ∈ editLines lines (esAligned d edits off lines), '\n' ∉ l2 := by
  intro lines
  induction lines with
  | nil =>
    intro off _ l2 h2
    simp [editLines, esAligned] at h2
  | cons line rest ih =>
    intro off hnl l2 h2
    simp only [esAligned] at h2
    cases hentry : esLineEntry d edits off line with
    | none =>
      rw [hentry] at h2
      simp only [editLines] at h2
      rcases List.mem_cons.mp h2 with rfl | h3
      · exact hnl l2 (by simp)
      · exact ih (off + line.length + 1)
          (fun l hl => hnl l (List.mem_cons_of_mem _ hl)) l2 h3
    | some t =>
      obtain ⟨⟨se, ee⟩, w⟩ := t
      rw [hentry] at h2
      simp only [editLines] at h2
      rcases List.mem_cons.mp h2 with rfl | h3
      · obtain ⟨ld2, hpl2, _, hlkw, _, _, _⟩ :=
          esLineEntry_some d edits off line se ee w hentry
        have hwsafe : writeSafe w = true :=
          hsafeE (ld2.name, w) (lookupP_mem edits ld2.name w hlkw)
        have hwnl : '\n' ∉ w := by
          simp only [writeSafe, Bool.and_eq_true, decide_eq_true_eq] at hwsafe
          exact hwsafe.1
        intro hm
        rcases List.mem_append.mp hm with hm1 | hm1
        · rcases List.mem_append.mp hm1 with hm2 | hm2
          · exact hnl line (by simp) (List.take_subset _ _ hm2)
          · exact escape_no_newline w hwnl hm2
        · exact hnl line (by simp) (List.drop_subset _ _ hm1)
      · exact ih (off + line.length + 1)
          (fun l hl => hnl l (List.mem_cons_of_mem _ hl)) l2 h3

/-- C2 amended: for every successfully parsed document and every edit map
(with duplicate-free HashMap keys) whose keys all have a recorded span and are
not referenced, and whose values are write-safe — no newline, and no unquoted
whitespace or `#` when written bare — the text returned by `replace` parses,
its parameters are the original parameters updated by the edits, and every
line holding no edited definition is byte-for-byte the original line. -/
theorem replace_roundtrip (src : Str) (d : DotenvFile) (edits : List (Str × Str))
    (hparse : DotenvFile.parse src = .ok d)
    (hnodup : (edits.map (fun kv => kv.1)).Nodup)
    (hkeys : ∀ kv ∈ edits, kv.1 ∉ d.referenced ∧
      (lookupP d.value_spans kv.1).isSome = true)
    (hsafe : ∀ kv ∈ edits, writeSafe kv.2 = true) :
    ∃ d2, DotenvFile.parse (d.replace edits) = .ok d2 ∧
      (∀ n, lookupP d2.parameters n =
        match lookupP edits n with
        | some v => some v
        | none => lookupP d.parameters n) ∧
      (∀ j line, (splitLinesCh src).get? j = some line →
        (∀ ld, parseLine line = .ok (some ld) → lookupP edits ld.name = none) →
        (splitLinesCh (d.replace edits)).get? j = some line) := by
  obtain ⟨ds, stF, hg, hr, hd⟩ := parse_ok_inv src d hparse
  have hrefd : d.referenced = stF.referenced := by rw [hd]
  have hspans : d.value_spans = stF.value_spans := by rw [hd]
  have hinv0 : editInv edits stF ds ⟨[], [], []⟩ ⟨[], [], []⟩ := by
    intro n
    rw [if_neg (fun hc => by
      have := hc.2.2.1
      simp [lookupP] at this)]
  obtain ⟨ds2, stF2, hg2, hrun2, hfin⟩ := roundtrip_go d edits stF hrefd hspans hsafe
    (splitLinesCh src) 0 0 ds ⟨[], [], []⟩ ⟨[], [], []⟩ hg hr hinv0
  have hrepl := replace_inplace src d edits hparse hnodup hkeys
  have hlines_nl : ∀ l ∈ splitLinesCh src, '\n' ∉ l := split_no_newline src
  have hedited_nl := editLines_no_newline d edits hsafe (splitLinesCh src) 0 hlines_nl
  have hne : editLines (splitLinesCh src) (esAligned d edits 0 (splitLinesCh src)) ≠ [] := by
    intro hc
    have hlen := editLines_length (splitLinesCh src) (esAligned d edits 0 (splitLinesCh src))
    rw [hc] at hlen
    simp only [List.length_nil] at hlen
    exact splitLinesCh_ne_nil src (List.length_eq_zero.mp hlen.symm)
  have hsplit_out : splitLinesCh (d.replace edits) =
      editLines (splitLinesCh src) (esAligned d edits 0 (splitLinesCh src)) := by
    rw [hrepl]
    exact splitLinesCh_joinLines _ hne hedited_nl
  have hparse2 : DotenvFile.parse (d.replace edits) =
      .ok ⟨d.replace edits, stF2.parameters, stF2.value_spans, stF2.referenced, none⟩ := by
    simp only [DotenvFile.parse, parseGrammar]
    rw [hsplit_out]
    simp only [hg2, hrun2]
  refine ⟨⟨d.replace edits, stF2.parameters, stF2.value_spans, stF2.referenced, none⟩,
    hparse2, ?_, ?_⟩
  · intro n
    have hfin_n := hfin n
    simp only at hfin_n ⊢
    cases hlk : lookupP edits n with
    | none =>
      rw [hfin_n]
      rw [if_neg (fun hc => by
        have := hc.1
        rw [hlk] at this
        simp at this)]
      rw [hd]
    | some v =>
      rw [hfin_n]
      have hkv := hkeys (n, v) (lookupP_mem edits n v hlk)
      have hspF : (lookupP stF.value_spans n).isSome = true := by
        rw [← hspans]
        exact hkv.2
      have hpF : (lookupP stF.parameters n).isSome = true := by
        refine runDefs_keys ds ⟨[], [], []⟩ stF hr ?_ n hspF
        intro m hm
        simp [lookupP] at hm
      rw [if_pos ⟨by rw [hlk]; rfl, by rw [← hrefd]; exact hkv.1, hpF, by simp, hspF⟩]
      rw [hlk]
  · intro j line hj hun
    rw [hsplit_out]
    have hget := esAligned_get d edits (splitLinesCh src) 0 j line hj
    have hentry : esLineEntry d edits (0 + offsetOfLine (splitLinesCh src) j) line =
        none := by
      cases hentry : esLineEntry d edits (0 + offsetOfLine (splitLinesCh src) j) line with
      | none => rfl
      | some t =>
        obtain ⟨⟨se, ee⟩, w⟩ := t
        obtain ⟨ld, hpl, _, hlkw, _, _, _⟩ :=
          esLineEntry_some d edits _ line se ee w hentry
        rw [hun ld hpl] at hlkw
        cases hlkw
    rw [hentry] at hget
    rw [editLines_get_of_none (splitLinesCh src) _ j (Or.inl hget)]
    exact hj

/-- C2 counterexample: the document `A=1` parses, the edit map `{A: "a\nb"}`
satisfies the claim's hypotheses — `A` is an already-present name (it has a
recorded value span) and is not forward-referenced (the referenced set is
empty) — yet the text produced by `replace` does not parse at all: the value
is written bare, its newline starts a new line `b`, which is a malformed
definition.  So the claimed round trip fails. -/
theorem replace_roundtrip_claim_fails :
    ∃ d, DotenvFile.parse "A=1".data = .ok d ∧
      (∀ kv ∈ [((['A'] : Str), ['a', '\n', 'b'])], kv.1 ∉ d.referenced ∧
        (lookupP d.value_spans kv.1).isSome = true) ∧
      DotenvFile.parse (d.replace [(['A'], ['a', '\n', 'b'])]) =
        .error "malformed variable definition" :=
  ⟨⟨"A=1".data, [(['A'], ['1'])], [(['A'], (2, 3))], [], none⟩,
    by rfl, by decide, by rfl⟩

/-- Witness for the C2 amended round-trip theorem at the document `A=1\nB=2`
with the edit map `{B: 9}`. -/
theorem replace_roundtrip_witness :
    (DotenvFile.parse "A=1\nB=2".data =
        .ok ⟨"A=1\nB=2".data, [(['B'], ['2']), (['A'], ['1'])],
        [(['B'], (6, 7)), (['A'], (2, 3))], [], none⟩ ∧
      (([((['B'] : Str), ['9'])]).map (fun kv => kv.1)).Nodup ∧
      (∀ kv ∈ [((['B'] : Str), ['9'])],
        kv.1 ∉ (⟨"A=1\nB=2".data, [(['B'], ['2']), (['A'], ['1'])],
        [(['B'], (6, 7)), (['A'], (2, 3))], [], none⟩ : DotenvFile).referenced ∧
        (lookupP (⟨"A=1\nB=2".data, [(['B'], ['2']), (['A'], ['1'])],
        [(['B'], (6, 7)), (['A'], (2, 3))], [], none⟩ : DotenvFile).value_spans kv.1).isSome = true) ∧
      (∀ kv ∈ [((['B'] : Str), ['9'])], writeSafe kv.2 = true)) ∧
    (∃ d2, DotenvFile.parse
        ((⟨"A=1\nB=2".data, [(['B'], ['2']), (['A'], ['1'])],
        [(['B'], (6, 7)), (['A'], (2, 3))], [], none⟩ : DotenvFile).replace [(['B'], ['9'])]) = .ok d2 ∧
      (∀ n, lookupP d2.parameters n =
        match lookupP [((['B'] : Str), ['9'])] n with
        | some v => some v
        | none => lookupP (⟨"A=1\nB=2".data, [(['B'], ['2']), (['A'], ['1'])],
        [(['B'], (6, 7)), (['A'], (2, 3))], [], none⟩ : DotenvFile).parameters n) ∧
      (∀ j line, (splitLinesCh "A=1\nB=2".data).get? j = some line →
        (∀ ld, parseLine line = .ok (some ld) →
          lookupP [((['B'] : Str), ['9'])] ld.name = none) →
        (splitLinesCh ((⟨"A=1\nB=2".data, [(['B'], ['2']), (['A'], ['1'])],
        [(['B'], (6, 7)), (['A'], (2, 3))], [], none⟩ : DotenvFile).replace
          [(['B'], ['9'])])).get? j = some line)) :=
  ⟨⟨by rfl, by decide, by decide, by decide⟩,
    replace_roundtrip "A=1\nB=2".data ⟨"A=1\nB=2".data, [(['B'], ['2']), (['A'], ['1'])],
        [(['B'], (6, 7)), (['A'], (2, 3))], [], none⟩
      [(['B'], ['9'])] (by rfl) (by decide) (by decide) (by decide)⟩

/-! ## C7: frame property of `replace` -/

/-- C7: for every parsed document and every edit map (with its HashMap-keys
duplicate-free), the text returned by `replace` begins with the document's
lines, one output line per source line, in which every line holding no edited
definition — in particular every definition line of a name absent from the
edit map, and every comment or blank line — is byte-for-byte the original
line, with quoting, comments and whitespace intact. -/
theorem replace_untouched_lines (src : Str) (d : DotenvFile)
    (edits : List (Str × Str))
    (hparse : DotenvFile.parse src = .ok d)
    (hnodup : (edits.map (fun kv => kv.1)).Nodup) :
    ∃ outLines tail,
      d.replace edits = joinLines outLines ++ tail ∧
      outLines.length = (splitLinesCh src).length ∧
      ∀ j line, (splitLinesCh src).get? j = some line →
        (∀ ld, parseLine line = .ok (some ld) → lookupP edits ld.name = none) →
        outLines.get? j = some line := by
  obtain ⟨tail, ht⟩ := replace_shape src d edits hparse hnodup
  refine ⟨editLines (splitLinesCh src) (esAligned d edits 0 (splitLinesCh src)),
    tail, ht, editLines_length _ _, ?_⟩
  intro j line hj hun
  have hget := esAligned_get d edits (splitLinesCh src) 0 j line hj
  have hentry : esLineEntry d edits (0 + offsetOfLine (splitLinesCh src) j) line =
      none := by
    cases hentry : esLineEntry d edits (0 + offsetOfLine (splitLinesCh src) j) line with
    | none => rfl
    | some t =>
      obtain ⟨⟨s, e⟩, v⟩ := t
      obtain ⟨ld, hpl, _, hlk, _, _, _⟩ :=
        esLineEntry_some d edits _ line s e v hentry
      rw [hun ld hpl] at hlk
      cases hlk
  rw [hentry] at hget
  rw [editLines_get_of_none (splitLinesCh src) _ j (Or.inl hget)]
  exact hj

/-- Witness for the C7 frame theorem at the document `A=1\nB=2` with the edit
map `{B: 9}`: the theorem applies, and in particular line 0 (`A=1`) is kept. -/
theorem replace_untouched_lines_witness :
    (DotenvFile.parse "A=1\nB=2".data =
        .ok ⟨"A=1\nB=2".data, [(['B'], ['2']), (['A'], ['1'])],
          [(['B'], (6, 7)), (['A'], (2, 3))], [], none⟩ ∧
      (([(['B'], ['9'])] : List (Str × Str)).map (fun kv => kv.1)).Nodup) ∧
    (∃ outLines tail,
      DotenvFile.replace
          ⟨"A=1\nB=2".data, [(['B'], ['2']), (['A'], ['1'])],
            [(['B'], (6, 7)), (['A'], (2, 3))], [], none⟩ [(['B'], ['9'])] =
        joinLines outLines ++ tail ∧
      outLines.length = (splitLinesCh "A=1\nB=2".data).length ∧
      ∀ j line, (splitLinesCh "A=1\nB=2".data).get? j = some line →
        (∀ ld, parseLine line = .ok (some ld) →
          lookupP [(['B'], ['9'])] ld.name = none) →
        outLines.get? j = some line) :=
  ⟨⟨by rfl, by decide⟩,
    replace_untouched_lines "A=1\nB=2".data
      ⟨"A=1\nB=2".data, [(['B'], ['2']), (['A'], ['1'])],
        [(['B'], (6, 7)), (['A'], (2, 3))], [], none⟩
      [(['B'], ['9'])] (by rfl) (by decide)⟩

end Azsync
